import Mathlib

/-!
# runML: the translator `generate_c_code` of `runml.c`

A shallow embedding of the translator of `runml.c` and theorems about it.

Modelling conventions.

* A C `char` is a `Char`; every list element stands for one `char` of the C program.
* The array `char line[MAX_LINE_LEN]` is a `List Char` (the buffer).  A pointer into it is a
  `Nat` offset, `NULL` is `none`.  Reading at an offset past the end of the list yields `NUL`;
  the only writes besides `fgets` store `NUL`.  The array is not initialised by the program:
  its content at the start is a parameter of the translation.
* The C string at offset `p` is `cstr buf p`: the characters from `p` up to the first `NUL`.
* `exit(1)` and the use of a null pointer as a string end the translation: `Except.error`.
* The text written to `c_file` is accumulated in the field `c_file` of the state.
-/

namespace RunML

/-- Maximum length of a line in the input file (`#define MAX_LINE_LEN 256`). -/
abbrev MAX_LINE_LEN : Nat := 256

/-- Maximum number of unique identifiers (`#define MAX_IDENTIFIERS 50`). -/
abbrev MAX_IDENTIFIERS : Nat := 50

/-- The string terminator. -/
abbrev NUL : Char := Char.ofNat 0

/-- The ways in which the translation stops without returning. -/
inductive Failure where
  /-- Line 115-117: `! Error: Invalid function name: %s`, `exit(1)`. -/
  | invalidFunctionName (name : List Char)
  /-- Line 147-149 and 302-303: `! Error: Invalid identifier: %s`, `exit(1)`. -/
  | invalidIdentifier (name : List Char)
  /-- Line 65-66: `! Error: Maximum number of identifiers (%d) exceeded.`, `exit(1)`. -/
  | tooManyIdentifiers
  /-- Line 130-131: `! Error: Invalid global variable assignment`, `exit(1)`. -/
  | invalidAssignment
  /-- A null (or null-derived) pointer is used as a string: undefined behaviour. -/
  | nullDereference
  /-- The bound of a loop of the model was reached (shown not to happen where results are proved). -/
  | outOfFuel
  deriving DecidableEq, Repr

/-! ## String primitives of `<string.h>` on the buffer -/

/-- The C string that starts at offset `p`. -/
def cstr (buf : List Char) (p : Nat) : List Char :=
  (buf.drop p).takeWhile (fun c => c ≠ NUL)

/-- The call `strlen(buf + p)`. -/
def strlen (buf : List Char) (p : Nat) : Nat :=
  (cstr buf p).length

/-- The character `buf[i]`. -/
def charAt (buf : List Char) (i : Nat) : Char :=
  buf.getD i NUL

/-- The call `strchr(buf + p, c)` for a character `c` other than `NUL`. -/
def strchr (buf : List Char) (p : Nat) (c : Char) : Option Nat :=
  if c ∈ cstr buf p then some (p + (cstr buf p).indexOf c) else none

/-- Offset of the first occurrence of `needle` in a list. -/
def findSub (needle : List Char) : List Char → Option Nat
  | [] => if needle = [] then some 0 else none
  | c :: cs =>
    if needle.isPrefixOf (c :: cs) then some 0
    else (findSub needle cs).map (fun i => i + 1)

/-- The call `strstr(buf + p, needle)`. -/
def strstr (buf : List Char) (p : Nat) (needle : List Char) : Option Nat :=
  (findSub needle (cstr buf p)).map (fun i => p + i)

/-- The test `strncmp(buf + p, lit, n) == 0` for a literal `lit` of length `n` without `NUL`. -/
def strncmpEq (buf : List Char) (p : Nat) (lit : List Char) : Bool :=
  (cstr buf p).take lit.length = lit

/-- The call `strspn(buf + p, delim)`. -/
def strspn (buf : List Char) (p : Nat) (delim : List Char) : Nat :=
  ((cstr buf p).takeWhile (fun c => c ∈ delim)).length

/-- The call `strcspn(buf + p, delim)`. -/
def strcspn (buf : List Char) (p : Nat) (delim : List Char) : Nat :=
  ((cstr buf p).takeWhile (fun c => c ∉ delim)).length

/-- The result of `strtok`: the buffer after the call, the token returned, the saved pointer. -/
structure Tok where
  buf : List Char
  tok : Option Nat
  save : Nat
  deriving DecidableEq, Repr

/-- The call `strtok(buf + s, delim)`; `strtok(NULL, delim)` is the call at the saved pointer.
Leading delimiters are skipped; at the end of the string the result is `NULL`; otherwise the
token runs to the next delimiter, which is overwritten with `NUL`. -/
def strtok (buf : List Char) (s : Nat) (delim : List Char) : Tok :=
  let s1 := s + strspn buf s delim
  if charAt buf s1 = NUL then ⟨buf, none, s1⟩
  else
    let e := s1 + strcspn buf s1 delim
    if charAt buf e = NUL then ⟨buf, some s1, e⟩
    else ⟨buf.set e NUL, some s1, e + 1⟩

/-- The loop `while (*p == ' ' || *p == '\t') p++;`. -/
def skipBlanks (buf : List Char) (p : Nat) : Nat :=
  p + ((buf.drop p).takeWhile (fun c => c = ' ' ∨ c = '\t')).length

/-- Blank characters of the trailing trim of a variable name. -/
def isBlank (c : Char) : Bool := c = ' ' ∨ c = '\t'

/-- Blank characters of the trailing trim of an expression. -/
def isSpaceNl (c : Char) : Bool := c = ' ' ∨ c = '\t' ∨ c = '\n'

/-- The loop `end = p + strlen(p) - 1; while (end > p && ws(*end)) end--;`, counted from `p`:
`trimBack ws buf p (strlen p)` is `end + 1 - p` after the loop. -/
def trimBack (ws : Char → Bool) (buf : List Char) (p : Nat) : Nat → Nat
  | 0 => 0
  | k + 1 => if 0 < k ∧ ws (charAt buf (p + k)) then trimBack ws buf p k else k + 1

/-- The statements `end = p + strlen(p) - 1; while (...) end--; *(end + 1) = 0`. -/
def trimEnd (ws : Char → Bool) (buf : List Char) (p : Nat) : List Char :=
  buf.set (p + trimBack ws buf p (strlen buf p)) NUL

/-! ## Identifier registry -/

/-- Lines 27-45: at most 12 characters and none in `A..Z`. -/
def is_valid_identifier (id : List Char) : Bool :=
  if id.length > 12 then false
  else id.all (fun c => !(decide (c ≥ 'A') && decide (c ≤ 'Z')))

/-- Lines 48-58: linear search of the registry with `strcmp`. -/
def identifier_exists (identifiers : List (List Char)) (id : List Char) : Bool :=
  identifiers.any (fun s => s = id)

/-- Lines 61-72: the capacity test comes first, then the insertion of an absent name. -/
def add_identifier (identifiers : List (List Char)) (id : List Char) :
    Except Failure (List (List Char)) :=
  if identifiers.length ≥ MAX_IDENTIFIERS then .error .tooManyIdentifiers
  else if !identifier_exists identifiers id then .ok (identifiers ++ [id])
  else .ok identifiers

/-! ## Reading the input -/

/-- The characters one call `fgets(line, n + 1, ml_file)` reads from the rest of the file. -/
def fgetsChunk : Nat → List Char → List Char
  | 0, _ => []
  | _, [] => []
  | n + 1, c :: cs => if c = '\n' then [c] else c :: fgetsChunk n cs

/-- The successive results of `fgets(line, sizeof(line), ml_file)` until it returns `NULL`. -/
def readChunks : Nat → List Char → List (List Char)
  | 0, _ => []
  | _, [] => []
  | fuel + 1, c :: cs =>
    let chunk := fgetsChunk (MAX_LINE_LEN - 1) (c :: cs)
    chunk :: readChunks fuel ((c :: cs).drop chunk.length)

/-- All the chunks of a file: one call of `fgets` per element. -/
def fileChunks (ml_file : List Char) : List (List Char) :=
  readChunks ml_file.length ml_file

/-- The buffer after `fgets` stored `chunk` and the terminator; the rest keeps its content. -/
def fgetsStore (line : List Char) (chunk : List Char) : List Char :=
  chunk ++ NUL :: line.drop (chunk.length + 1)

/-- The statements `comment = strchr(line, '#'); if (comment) *comment = 0;`. -/
def stripComment (buf : List Char) : List Char :=
  match strchr buf 0 '#' with
  | some i => buf.set i NUL
  | none => buf

/-- The state of `generate_c_code`. -/
structure State where
  /-- The entries `identifiers[0 .. identifier_count)`. -/
  identifiers : List (List Char)
  /-- The text written to `c_file` so far. -/
  c_file : List Char
  /-- The array `line`. -/
  line : List Char
  /-- The flag `in_function`. -/
  in_function : Bool
  deriving DecidableEq, Repr

/-- The call `fprintf(c_file, ...)` with the formatted text `s`. -/
def State.fprintf (st : State) (s : List Char) : State :=
  { st with c_file := st.c_file ++ s }

/-- Runs the body of a `while (fgets(...))` loop on every chunk, stopping at a failure. -/
def forChunks (body : State → List Char → Except Failure State) :
    State → List (List Char) → Except Failure State
  | st, [] => .ok st
  | st, chunk :: rest =>
    match body st chunk with
    | .error e => .error e
    | .ok st1 => forChunks body st1 rest

/-! ## The three passes of `generate_c_code` -/

/-- Lines 93-168: the body of the first loop, for the chunk just read. -/
def firstPassLine (st : State) (chunk : List Char) : Except Failure State :=
  let buf := stripComment (fgetsStore st.line chunk)
  let st := { st with line := buf }
  if strlen buf 0 = 0 ∨ charAt buf 0 = '\n' then .ok st
  else if charAt buf 0 = '\t' then .ok st
  else if strncmpEq buf 0 "function".toList then
    let t := strtok buf 9 [' ']
    match t.tok with
    | none => .error .nullDereference
    | some func_name =>
      let name := cstr t.buf func_name
      if !is_valid_identifier name then .error (.invalidFunctionName name)
      else
        match add_identifier st.identifiers name with
        | .error e => .error e
        | .ok ids => .ok { st with identifiers := ids, line := t.buf }
  else if (strchr buf 0 '<').isSome ∧ (strchr buf 0 '-').isSome then
    match strstr buf 0 "<-".toList with
    | none => .error .invalidAssignment
    | some assignment_op =>
      let t := strtok buf 0 ['<', '-']
      match t.tok with
      | none => .error .nullDereference
      | some tok =>
        let var_name := skipBlanks t.buf tok
        let buf1 := trimEnd isBlank t.buf var_name
        let name := cstr buf1 var_name
        if !is_valid_identifier name then .error (.invalidIdentifier name)
        else
          match add_identifier st.identifiers name with
          | .error e => .error e
          | .ok ids =>
            let expr := skipBlanks buf1 (assignment_op + 2)
            let buf2 := trimEnd isSpaceNl buf1 expr
            .ok ({ st with identifiers := ids, line := buf2 }.fprintf
              ("double ".toList ++ cstr buf2 var_name ++ " = ".toList ++ cstr buf2 expr
                ++ ";\n".toList))
  else .ok st

/-- Lines 204-215: the loop `while (param != NULL)` over the parameters of a header. -/
def paramLoop : Nat → State → List Char → Option Nat → Nat → Bool → Except Failure State
  | _, st, buf, none, _, _ => .ok { st with line := buf }
  | 0, _, _, some _, _, _ => .error .outOfFuel
  | fuel + 1, st, buf, some param, save, first =>
    let st1 := if first then st else st.fprintf ", ".toList
    let st2 := st1.fprintf ("double ".toList ++ cstr buf param ++ " ".toList)
    match add_identifier st2.identifiers (cstr buf param) with
    | .error e => .error e
    | .ok ids =>
      let t := strtok buf save [' ']
      paramLoop fuel { st2 with identifiers := ids } t.buf t.tok t.save false

/-- The text of lines 243-250: the print block inside a function. -/
def printBlockFn (expr : List Char) : List Char :=
  "    \x7b\n".toList
    ++ "        double t_value = ".toList ++ expr ++ ";\n".toList
    ++ "        if (t_value == (int)t_value) \x7b\n".toList
    ++ "            printf(\"%d\\n\", (int)t_value);\n".toList
    ++ "        \x7d else \x7b\n".toList
    ++ "            printf(\"%.6f\\n\", t_value);\n".toList
    ++ "        \x7d\n".toList
    ++ "    \x7d\n".toList

/-- The text of lines 365-372: the print block in `main`. -/
def printBlockMain (expr : List Char) : List Char :=
  "    \x7b\n".toList
    ++ "        double value = (double)(".toList ++ expr ++ ");\n".toList
    ++ "        if (value == (int)value) \x7b\n".toList
    ++ "            printf(\"%d\\n\", (int)value);\n".toList
    ++ "        \x7d else \x7b\n".toList
    ++ "            printf(\"%.6f\\n\", value);\n".toList
    ++ "        \x7d\n".toList
    ++ "    \x7d\n".toList

/-- The text of lines 271-272: a return statement. -/
def returnText (expr : List Char) : List Char :=
  "    double t_value = ".toList ++ expr ++ ";\n".toList
    ++ "    return (t_value == (int)t_value) ? (int)t_value : t_value;\n".toList

/-- The text of lines 195 and 335: the implicit trailing return and the closing brace. -/
def closeText : List Char := "    return 0.0;\n\x7d\n\n".toList

/-- Lines 228-241 and 256-269: the expression of a print or return statement in a function:
the pointer after the first space, cut at the newline and trimmed.  The result is the buffer
and the offset of the expression, or `none` when `strchr` finds no space. -/
def bodyExpr (buf : List Char) (trimmed_line : Nat) : Option (List Char × Nat) :=
  match strchr buf trimmed_line ' ' with
  | none => none
  | some sp =>
    let buf1 :=
      match strchr buf (sp + 1) '\n' with
      | some newline => buf.set newline NUL
      | none => buf
    let expr := skipBlanks buf1 (sp + 1)
    some (trimEnd isSpaceNl buf1 expr, expr)

/-- Lines 191-217: a function header in the second pass, on the buffer `buf`. -/
def headerLine (st : State) (buf : List Char) : Except Failure State :=
  let st1 := if st.in_function then st.fprintf closeText else st
  let t1 := strtok buf 9 [' ']
  let t2 := strtok t1.buf t1.save ['\n']
  match t1.tok with
  | none => .error .nullDereference
  | some name =>
    let st2 := st1.fprintf ("double ".toList ++ cstr t2.buf name ++ "(".toList)
    let t3 :=
      match t2.tok with
      | some params => strtok t2.buf params [' ']
      | none => strtok t2.buf t2.save [' ']
    match paramLoop MAX_LINE_LEN st2 t3.buf t3.tok t3.save true with
    | .error e => .error e
    | .ok st3 => .ok { st3.fprintf ") \x7b\n".toList with in_function := true }

/-- Lines 227-250: a print statement inside a function. -/
def printStmt (st : State) (buf : List Char) (trimmed_line : Nat) : Except Failure State :=
  match bodyExpr buf trimmed_line with
  | none => .error .nullDereference
  | some (buf2, expr) =>
    .ok ({ st with line := buf2 }.fprintf (printBlockFn (cstr buf2 expr)))

/-- Lines 256-272: a return statement inside a function. -/
def returnStmt (st : State) (buf : List Char) (trimmed_line : Nat) : Except Failure State :=
  match bodyExpr buf trimmed_line with
  | none => .error .nullDereference
  | some (buf2, expr) =>
    .ok ({ st with line := buf2 }.fprintf (returnText (cstr buf2 expr)))

/-- Lines 285-320: an assignment inside a function; `assignment_op` is the result of
`strstr(line, "<-")`.  The name is validated, not registered. -/
def localAssignment (st : State) (buf : List Char) (assignment_op : Nat) :
    Except Failure State :=
  let t := strtok buf 0 ['<', '-']
  match t.tok with
  | none => .error .nullDereference
  | some tok =>
    let var_name := skipBlanks t.buf tok
    let buf1 := trimEnd isBlank t.buf var_name
    let name := cstr buf1 var_name
    if !is_valid_identifier name then .error (.invalidIdentifier name)
    else
      let expr := skipBlanks buf1 (assignment_op + 2)
      let buf2 := trimEnd isSpaceNl buf1 expr
      .ok ({ st with line := buf2 }.fprintf
        ("double ".toList ++ cstr buf2 var_name ++ " = ".toList ++ cstr buf2 expr
          ++ ";\n".toList))

/-- Lines 326-327: a function call inside a function. -/
def callStmt (st : State) (buf : List Char) (trimmed_line : Nat) : Except Failure State :=
  let t := strtok buf trimmed_line ['\n']
  match t.tok with
  | none => .error .nullDereference
  | some func_call =>
    .ok ({ st with line := t.buf }.fprintf
      ("    ".toList ++ cstr t.buf func_call ++ ";\n".toList))

/-- Lines 222-328: an indented line inside a function, on the buffer `buf`; `trimmed_line`
is `line + indentation`. -/
def bodyLine (st : State) (buf : List Char) (trimmed_line : Nat) : Except Failure State :=
  if strncmpEq buf trimmed_line "print".toList
      ∧ (charAt buf (trimmed_line + 5) = ' ' ∨ charAt buf (trimmed_line + 5) = '\t'
        ∨ charAt buf (trimmed_line + 5) = NUL) then
    printStmt st buf trimmed_line
  else if strncmpEq buf trimmed_line "return".toList then
    returnStmt st buf trimmed_line
  else
    match strstr buf 0 "<-".toList with
    | some assignment_op => localAssignment st buf assignment_op
    | none =>
      if (strchr buf trimmed_line '(').isSome then callStmt st buf trimmed_line
      else .ok st

/-- Lines 175-330: the body of the second loop, for the chunk just read. -/
def secondPassLine (st : State) (chunk : List Char) : Except Failure State :=
  let buf := stripComment (fgetsStore st.line chunk)
  let st := { st with line := buf }
  if strlen buf 0 = 0 ∨ charAt buf 0 = '\n' then .ok st
  else
    let indentation := (buf.takeWhile (fun c => c = '\t')).length
    if strncmpEq buf 0 "function".toList then headerLine st buf
    else if 0 < indentation ∧ st.in_function then bodyLine st buf indentation
    else .ok st

/-- Lines 346-380: the body of the third loop, for the chunk just read. -/
def thirdPassLine (st : State) (chunk : List Char) : Except Failure State :=
  let buf := stripComment (fgetsStore st.line chunk)
  let st := { st with line := buf }
  if strlen buf 0 = 0 ∨ charAt buf 0 = '\n' then .ok st
  else if strncmpEq buf 0 "function".toList ∨ charAt buf 0 = '\t' then .ok st
  else if strncmpEq buf 0 "print".toList
      ∧ (charAt buf 5 = ' ' ∨ charAt buf 5 = '\t' ∨ charAt buf 5 = NUL) then
    match strchr buf 0 ' ' with
    | none => .error .nullDereference
    | some sp => .ok (st.fprintf (printBlockMain (cstr buf (sp + 1))))
  else if (strchr buf 0 '(').isSome then
    let t := strtok buf 0 ['\n']
    match t.tok with
    | none => .error .nullDereference
    | some func_call =>
      .ok ({ st with line := t.buf }.fprintf
        ("    ".toList ++ cstr t.buf func_call ++ ";\n".toList))
  else .ok st

/-- The text of lines 85-87. -/
def preamble : List Char :=
  "#include <stdio.h>\n".toList ++ "#include <math.h>\n\n".toList
    ++ "double arg0 = 0.0, arg1 = 0.0;\n\n".toList

/-- The text of line 339. -/
def mainOpen : List Char := "int main(int argc, char *argv[]) \x7b\n".toList

/-- The text of line 382. -/
def mainClose : List Char := "    return 0;\n\x7d\n".toList

/-- Lines 93-169: the declarations pass, from the state after the preamble. -/
def firstPass (st : State) (ml_file : List Char) : Except Failure State :=
  match forChunks firstPassLine st (fileChunks ml_file) with
  | .error e => .error e
  | .ok st1 => .ok (st1.fprintf "\n".toList)

/-- Lines 172-336: the definitions pass, after `fseek` to the start of the file. -/
def secondPass (st : State) (ml_file : List Char) : Except Failure State :=
  match forChunks secondPassLine st (fileChunks ml_file) with
  | .error e => .error e
  | .ok st1 => .ok (if st1.in_function then st1.fprintf closeText else st1)

/-- Lines 339-382: the entry point, after `fseek` to the start of the file. -/
def thirdPass (st : State) (ml_file : List Char) : Except Failure State :=
  match forChunks thirdPassLine (st.fprintf mainOpen) (fileChunks ml_file) with
  | .error e => .error e
  | .ok st1 => .ok (st1.fprintf mainClose)

/-- Lines 76-385: `generate_c_code`, started with the registry `identifiers` and the content
`line` of the line buffer; the result is the final state, whose `c_file` is the output. -/
def generate_c_code (identifiers : List (List Char)) (line : List Char)
    (ml_file : List Char) : Except Failure State :=
  match firstPass ⟨identifiers, preamble, line, false⟩ ml_file with
  | .error e => .error e
  | .ok st1 =>
    match secondPass st1 ml_file with
    | .error e => .error e
    | .ok st2 => thirdPass st2 ml_file

/-- The translation as `main` runs it: empty registry (`identifier_count = 0`); the result is
the text of the generated C file. -/
def translate (line : List Char) (ml_file : List Char) : Except Failure (List Char) :=
  match generate_c_code [] line ml_file with
  | .error e => .error e
  | .ok st => .ok st.c_file

/-- The text `s` trimmed, in the sense the claims use the word: `s` without its leading blanks
and without its trailing blanks and newlines.  It is used to state what the trimming loops
of the source compute. -/
def trimmed (s : List Char) : List Char :=
  ((s.dropWhile isBlank).reverse.dropWhile isSpaceNl).reverse

/-- A sequence of calls `add_identifier(names[0])`, `add_identifier(names[1])`, ... on the
registry `identifiers`, stopping at the first call that exits. -/
def addAll : List (List Char) → List (List Char) → Except Failure (List (List Char))
  | identifiers, [] => .ok identifiers
  | identifiers, id :: rest =>
    match add_identifier identifiers id with
    | .error e => .error e
    | .ok identifiers1 => addAll identifiers1 rest

/-- The text of a line that the passes work on after `*comment_start = 0`: the characters
before the first `#` (or `NUL`) of the text read. -/
def visible (s : List Char) : List Char :=
  s.takeWhile (fun c => c ≠ NUL ∧ c ≠ '#')

/-- Lines 95-124: the tests under which the first pass handles a line as a global
assignment: after the comment is cut the line is not empty, does not begin with a newline or
a tab, does not begin with the function keyword, and holds a `<` and a `-`. -/
def isAssignmentLine (chunk : List Char) : Bool :=
  visible chunk ≠ [] ∧ (visible chunk).head? ≠ some '\n' ∧ (visible chunk).head? ≠ some '\t'
    ∧ ¬ "function".toList <+: visible chunk ∧ '<' ∈ visible chunk ∧ '-' ∈ visible chunk

/-- Line 190: the test under which the second pass handles a line as a function header. -/
def isHeaderLine (chunk : List Char) : Bool :=
  "function".toList <+: visible chunk

/-- Two results of a step that agree except for the registry: one of them is the capacity
error, or both are the same error, or both are states with the same output text, the same
content of the line buffer and the same flag. -/
def sameButRegistry (r r1 : Except Failure State) : Prop :=
  r = .error .tooManyIdentifiers ∨ r1 = .error .tooManyIdentifiers
    ∨ (∃ e, r = .error e ∧ r1 = .error e)
    ∨ ∃ s s1, r = .ok s ∧ r1 = .ok s1 ∧ s.c_file = s1.c_file ∧ s.line = s1.line
      ∧ s.in_function = s1.in_function

/-- Two contents of the line buffer that agree on their first `n` characters and hold `NUL`
at offset `n`: the same line was read into them, over different older content. -/
def BufEq (n : Nat) (b b1 : List Char) : Prop :=
  ∃ X t t1, X.length = n ∧ b = X ++ NUL :: t ∧ b1 = X ++ NUL :: t1

/-- A state without the content of its line buffer: the registry, the output written so
far and the flag. -/
def dropLine (st : State) : State :=
  { st with line := [] }

/-- A result of a step that is not the exhaustion of the fuel of the parameter loop and, when
it is a state, holds a line buffer within the size of the array `line`. -/
def inBounds (r : Except Failure State) : Prop :=
  r ≠ .error .outOfFuel ∧ ∀ s, r = .ok s → s.line.length ≤ MAX_LINE_LEN

/-- A content of the line buffer after `fgets` read `chunk` and some of its characters were
overwritten with `NUL` (by the cut of a comment, by `strtok`, by a trimming loop): the
characters of `chunk`, each kept or replaced by `NUL`, then the terminator. -/
def Cut (chunk b : List Char) : Prop :=
  ∃ X t, b = X ++ NUL :: t ∧ List.Forall₂ (fun x c => x = c ∨ x = NUL) X chunk

/-- The text of lines 204-215: the parameters of a signature, each written as `double p `,
with `, ` before every parameter but the first. -/
def paramList : List (List Char) → List Char
  | [] => []
  | p :: ps =>
    ("double ".toList ++ p ++ " ".toList)
      ++ (ps.map (fun q => ", ".toList ++ ("double ".toList ++ q ++ " ".toList))).flatten

/-- The texts that lines 222-328 write for one line of a function body: nothing, a print
block, a return statement, a call statement or the declaration of a local variable, where
the expression and the name are pieces of the line. -/
def isBodyStatement (line o : List Char) : Prop :=
  o = []
    ∨ (∃ e, e <:+: line ∧ (o = printBlockFn e ∨ o = returnText e
      ∨ o = "    ".toList ++ e ++ ";\n".toList))
    ∨ ∃ n e, n <:+: line ∧ e <:+: line
      ∧ o = "double ".toList ++ n ++ " = ".toList ++ e ++ ";\n".toList

theorem drop_at {a b : List Char} {p : Nat} (hp : p = a.length) : (a ++ b).drop p = b := by
  subst hp; exact List.drop_left a b

theorem takeWhile_stop {q : Char → Bool} {s t : List Char} {c : Char}
    (hs : ∀ x ∈ s, q x = true) (hc : q c = false) : (s ++ c :: t).takeWhile q = s := by
  rw [List.takeWhile_append_of_pos hs]
  simp [List.takeWhile_cons, hc]

theorem cstr_eq {buf a s t : List Char} {p : Nat} (hb : buf = a ++ (s ++ NUL :: t))
    (hp : p = a.length) (hs : ∀ c ∈ s, c ≠ NUL) : cstr buf p = s := by
  subst hb
  unfold cstr
  rw [drop_at hp]
  exact takeWhile_stop (by simpa using hs) (by simp)

theorem charAt_eq {buf a t : List Char} {c : Char} {p : Nat} (hb : buf = a ++ c :: t)
    (hp : p = a.length) : charAt buf p = c := by
  subst hb hp
  unfold charAt
  induction a with
  | nil => rfl
  | cons x xs ih => simpa using ih

theorem set_eq {buf a t : List Char} {c x : Char} {p : Nat} (hb : buf = a ++ c :: t)
    (hp : p = a.length) : buf.set p x = a ++ x :: t := by
  subst hb hp
  simp

theorem strchr_none {buf a s t : List Char} {p : Nat} {c : Char}
    (hb : buf = a ++ (s ++ NUL :: t)) (hp : p = a.length) (hs : ∀ x ∈ s, x ≠ NUL)
    (hc : c ∉ s) : strchr buf p c = none := by
  unfold strchr
  rw [cstr_eq hb hp hs]
  simp [hc]

theorem indexOf_stop {s t : List Char} {c : Char} (hc : c ∉ s) :
    (s ++ c :: t).indexOf c = s.length := by
  induction s with
  | nil => simp [List.indexOf_cons]
  | cons x xs ih =>
    have hx : x ≠ c := fun h => hc (by simp [h])
    have hxs : c ∉ xs := fun h => hc (by simp [h])
    simp [List.indexOf_cons, hx, ih hxs]

theorem strchr_some {buf a s r t : List Char} {p : Nat} {c : Char}
    (hb : buf = a ++ (s ++ c :: (r ++ NUL :: t))) (hp : p = a.length)
    (hs : ∀ x ∈ s, x ≠ NUL) (hr : ∀ x ∈ r, x ≠ NUL) (hc0 : c ≠ NUL) (hc : c ∉ s) :
    strchr buf p c = some (p + s.length) := by
  unfold strchr
  have hstr : cstr buf p = s ++ c :: r := by
    apply cstr_eq (a := a) (t := t) _ hp
    · intro x hx
      simp only [List.mem_append, List.mem_cons] at hx
      rcases hx with h | h | h
      · exact hs x h
      · exact h ▸ hc0
      · exact hr x h
    · simp [hb]
  rw [hstr]
  simp [indexOf_stop hc]

theorem cstr_zero {s t : List Char} (hs : ∀ c ∈ s, c ≠ NUL) : cstr (s ++ NUL :: t) 0 = s :=
  cstr_eq (a := []) rfl rfl hs

theorem strchr_none_zero {s t : List Char} {c : Char} (hs : ∀ x ∈ s, x ≠ NUL) (hc : c ∉ s) :
    strchr (s ++ NUL :: t) 0 c = none :=
  strchr_none (a := []) rfl rfl hs hc

theorem strchr_some_zero {s r t : List Char} {c : Char} (hs : ∀ x ∈ s, x ≠ NUL)
    (hr : ∀ x ∈ r, x ≠ NUL) (hc0 : c ≠ NUL) (hc : c ∉ s) :
    strchr (s ++ c :: (r ++ NUL :: t)) 0 c = some s.length := by
  simpa using strchr_some (a := []) (p := 0) rfl rfl hs hr hc0 hc

theorem cstr_split {buf a s r : List Char} {p : Nat} (hb : buf = a ++ (s ++ r))
    (hp : p = a.length) (hs : ∀ c ∈ s, c ≠ NUL) : cstr buf p = s ++ cstr r 0 := by
  subst hb
  unfold cstr
  rw [drop_at hp, List.takeWhile_append_of_pos (by simpa using hs)]
  simp

theorem cstr_nul (t : List Char) : cstr (NUL :: t) 0 = [] := by
  simp [cstr]

theorem cstr_cons {c : Char} (hc : c ≠ NUL) (t : List Char) :
    cstr (c :: t) 0 = c :: cstr t 0 := by
  simp [cstr, List.takeWhile_cons, hc]

theorem split_at_nul (l stale : List Char) :
    ∃ s t, l ++ NUL :: stale = s ++ NUL :: t ∧ ∀ x ∈ s, x ≠ NUL := by
  induction l with
  | nil => exact ⟨[], stale, rfl, by simp⟩
  | cons c l ih =>
    by_cases hc : c = NUL
    · exact ⟨[], l ++ NUL :: stale, by simp [hc], by simp⟩
    · obtain ⟨s, t, hst, hs⟩ := ih
      refine ⟨c :: s, t, by simp [hst], ?_⟩
      intro x hx
      rcases List.mem_cons.1 hx with h | h
      · exact h ▸ hc
      · exact hs x h

/-- The visible part of a chunk: up to the first `NUL` or `#`. -/
theorem stripComment_fgetsStore (line chunk : List Char) :
    ∃ t, stripComment (fgetsStore line chunk)
      = chunk.takeWhile (fun c => c ≠ NUL ∧ c ≠ '#') ++ NUL :: t := by
  have hsplit := List.takeWhile_append_dropWhile (fun c => decide (c ≠ NUL ∧ c ≠ '#')) chunk
  generalize hv : chunk.takeWhile (fun c => decide (c ≠ NUL ∧ c ≠ '#')) = v at hsplit
  generalize hr : chunk.dropWhile (fun c => decide (c ≠ NUL ∧ c ≠ '#')) = r at hsplit
  have hvall : ∀ x ∈ v, x ≠ NUL ∧ x ≠ '#' := by
    intro x hx
    rw [← hv] at hx
    simpa using List.mem_takeWhile_imp hx
  have hv0 : ∀ x ∈ v, x ≠ NUL := fun x hx => (hvall x hx).1
  have hvh : '#' ∉ v := fun h => (hvall _ h).2 rfl
  unfold stripComment fgetsStore
  cases r with
  | nil =>
    have hc : chunk = v := by simpa using hsplit.symm
    subst hc
    rw [strchr_none_zero hv0 hvh]
    exact ⟨_, rfl⟩
  | cons c r =>
    have hcprop : ¬ (c ≠ NUL ∧ c ≠ '#') := by
      have := List.head_dropWhile_not (fun c => decide (c ≠ NUL ∧ c ≠ '#')) chunk
        (by rw [hr]; simp)
      simp only [hr, List.head_cons] at this
      simpa using this
    subst hsplit
    by_cases hc0 : c = NUL
    · subst hc0
      rw [List.append_assoc, List.cons_append, strchr_none_zero hv0 hvh]
      exact ⟨_, rfl⟩
    · have hch : c = '#' := by
        by_contra h
        exact hcprop ⟨hc0, h⟩
      subst hch
      generalize line.drop ((v ++ '#' :: r).length + 1) = stale
      have hcs := split_at_nul r stale
      obtain ⟨r1, t1, hrt, hr1⟩ := hcs
      rw [List.append_assoc, List.cons_append, hrt, strchr_some_zero hv0 hr1 (by decide) hvh]
      exact ⟨r1 ++ NUL :: t1, by simp⟩

theorem skipBlanks_eq {B a w t : List Char} {c : Char} {p : Nat}
    (hb : B = a ++ (w ++ c :: t)) (hp : p = a.length)
    (hw : ∀ x ∈ w, x = ' ' ∨ x = '\t') (hc : ¬ (c = ' ' ∨ c = '\t')) :
    skipBlanks B p = p + w.length := by
  subst hb
  unfold skipBlanks
  rw [drop_at hp, takeWhile_stop (by simpa using hw) (by simpa using hc)]

theorem strspn_eq {buf a d r : List Char} {c : Char} {p : Nat} {delim : List Char}
    (hb : buf = a ++ (d ++ c :: r)) (hp : p = a.length)
    (hd : ∀ x ∈ d, x ∈ delim ∧ x ≠ NUL) (hc : c ∉ delim) :
    strspn buf p delim = d.length := by
  unfold strspn
  rw [cstr_split hb hp (fun x hx => (hd x hx).2)]
  rw [List.takeWhile_append_of_pos (by simpa using fun x hx => (hd x hx).1)]
  by_cases h0 : c = NUL
  · subst h0; simp [cstr_nul]
  · rw [cstr_cons h0]; simp [List.takeWhile_cons, hc]

theorem strcspn_eq {buf a s r : List Char} {c : Char} {p : Nat} {delim : List Char}
    (hb : buf = a ++ (s ++ c :: r)) (hp : p = a.length)
    (hs : ∀ x ∈ s, x ∉ delim ∧ x ≠ NUL) (hc : c ∈ delim ∨ c = NUL) :
    strcspn buf p delim = s.length := by
  unfold strcspn
  rw [cstr_split hb hp (fun x hx => (hs x hx).2)]
  rw [List.takeWhile_append_of_pos (by simpa using fun x hx => (hs x hx).1)]
  by_cases h0 : c = NUL
  · subst h0; simp [cstr_nul]
  · rw [cstr_cons h0]
    have hcd : c ∈ delim := hc.resolve_right h0
    simp [List.takeWhile_cons, hcd]

/-- A call of `strtok` that finds a token: leading delimiters `d`, the token `c :: s`, and the
character `e` that ends it (a delimiter or the terminator). -/
theorem strtok_some {B a d s r : List Char} {c e : Char} {p : Nat} {G : List Char}
    (hb : B = a ++ (d ++ (c :: s ++ e :: r))) (hp : p = a.length)
    (hd : ∀ x ∈ d, x ∈ G ∧ x ≠ NUL)
    (hs : ∀ x ∈ c :: s, x ∉ G ∧ x ≠ NUL) (he : e ∈ G ∨ e = NUL) :
    strtok B p G = ⟨a ++ (d ++ (c :: s ++ NUL :: r)), some (p + d.length),
      p + d.length + (s.length + 1) + (if e = NUL then 0 else 1)⟩ := by
  have hc := hs c (List.mem_cons_self _ _)
  have h1 : strspn B p G = d.length :=
    strspn_eq (c := c) (r := s ++ e :: r) (by simpa using hb) hp hd hc.1
  have hb2 : B = (a ++ d) ++ (c :: s ++ e :: r) := by simp [hb]
  have hp2 : p + d.length = (a ++ d).length := by simp [hp]
  have h2 : charAt B (p + d.length) = c :=
    charAt_eq (a := a ++ d) (t := s ++ e :: r) (by simp [hb]) hp2
  have h3 : strcspn B (p + d.length) G = (c :: s).length :=
    strcspn_eq (c := e) (r := r) hb2 hp2 hs he
  have hb3 : B = (a ++ d ++ c :: s) ++ e :: r := by simp [hb]
  have hp3 : p + d.length + (c :: s).length = (a ++ d ++ c :: s).length := by
    simp [hp]; omega
  have h4 : charAt B (p + d.length + (c :: s).length) = e := charAt_eq hb3 hp3
  unfold strtok
  simp only [h1, h2, h3, h4, hc.2, if_false]
  by_cases h0 : e = NUL
  · simp only [h0, if_true, Nat.add_zero]
    rw [hb, h0]
    simp
  · simp only [h0, if_false]
    rw [set_eq hb3 hp3]
    simp

/-- A call of `strtok` on a string of delimiters only returns `NULL`. -/
theorem strtok_none {B a d r : List Char} {p : Nat} {G : List Char}
    (hb : B = a ++ (d ++ NUL :: r)) (hp : p = a.length)
    (hd : ∀ x ∈ d, x ∈ G ∧ x ≠ NUL) (h0 : NUL ∉ G) :
    strtok B p G = ⟨B, none, p + d.length⟩ := by
  have h1 : strspn B p G = d.length := strspn_eq hb hp hd h0
  have h2 : charAt B (p + d.length) = NUL :=
    charAt_eq (a := a ++ d) (t := r) (by simp [hb]) (by simp [hp])
  unfold strtok
  simp only [h1, h2, if_true]

theorem trimBack_eq {ws : Char → Bool} {a s : List Char} {c : Char} {p : Nat}
    (hp : p = a.length) (hc : ws c = false) :
    ∀ (w t buf : List Char), buf = a ++ (s ++ c :: (w ++ t)) → (∀ x ∈ w, ws x = true) →
      trimBack ws buf p (s.length + 1 + w.length) = s.length + 1 := by
  intro w
  induction w using List.reverseRecOn with
  | nil =>
    intro t buf hb _
    have h : charAt buf (p + s.length) = c :=
      charAt_eq (a := a ++ s) (t := t) (by simp [hb]) (by simp [hp])
    simp [trimBack, h, hc]
  | append_singleton w x ih =>
    intro t buf hb hw
    have hx : ws x = true := hw x (by simp)
    have h : charAt buf (p + (s.length + 1 + w.length)) = x :=
      charAt_eq (a := a ++ (s ++ c :: w)) (t := t) (by simp [hb]) (by simp [hp]; omega)
    have hlen : s.length + 1 + (w ++ [x]).length = (s.length + 1 + w.length) + 1 := by
      simp; omega
    rw [hlen, trimBack]
    have hpos : 0 < s.length + 1 + w.length := by omega
    simp only [hpos, h, hx, and_self, if_true]
    exact ih (x :: t) buf (by simp [hb]) (fun y hy => hw y (by simp [hy]))

/-- The trailing trim of the string `s ++ [c] ++ w`, whose last non-blank character is `c`:
the string at `p` becomes `s ++ [c]`, and only the character after `c` is overwritten. -/
theorem trimEnd_eq {F : Char → Bool} {B a s w t : List Char} {c : Char} {p : Nat}
    (hb : B = a ++ (s ++ c :: (w ++ NUL :: t))) (hp : p = a.length)
    (hs : ∀ x ∈ s, x ≠ NUL) (hc : F c = false) (hc0 : c ≠ NUL)
    (hw : ∀ x ∈ w, F x = true ∧ x ≠ NUL) :
    ∃ w1, w1.length = w.length ∧ trimEnd F B p = a ++ (s ++ c :: NUL :: (w1 ++ t)) := by
  have hlen : strlen B p = s.length + 1 + w.length := by
    unfold strlen
    rw [cstr_eq (a := a) (s := s ++ c :: w) (t := t) (by simp [hb]) hp]
    · simp; omega
    · intro x hx
      simp only [List.mem_append, List.mem_cons] at hx
      rcases hx with h | h | h
      · exact hs x h
      · exact h ▸ hc0
      · exact (hw x h).2
  unfold trimEnd
  rw [hlen, trimBack_eq hp hc w (NUL :: t) B hb (fun x hx => (hw x hx).1)]
  cases w with
  | nil =>
    refine ⟨[], rfl, ?_⟩
    rw [set_eq (a := a ++ (s ++ [c])) (c := NUL) (t := t) (by simp [hb]) (by simp [hp])]
    simp
  | cons y w =>
    refine ⟨w ++ [NUL], by simp, ?_⟩
    rw [set_eq (a := a ++ (s ++ [c])) (c := y) (t := w ++ NUL :: t) (by simp [hb])
      (by simp [hp])]
    simp

theorem findSub_marker {s r : List Char} (hs : '<' ∉ s) :
    findSub ['<', '-'] (s ++ '<' :: '-' :: r) = some s.length := by
  induction s with
  | nil => simp [findSub, List.isPrefixOf]
  | cons x xs ih =>
    have hx : x ≠ '<' := fun h => hs (by simp [h])
    have hxs : '<' ∉ xs := fun h => hs (by simp [h])
    simp [findSub, List.isPrefixOf, hx, Ne.symm hx, ih hxs]

theorem findSub_none {s : List Char} (hs : '<' ∉ s) : findSub ['<', '-'] s = none := by
  induction s with
  | nil => simp [findSub]
  | cons x xs ih =>
    have hx : x ≠ '<' := fun h => hs (by simp [h])
    have hxs : '<' ∉ xs := fun h => hs (by simp [h])
    simp [findSub, List.isPrefixOf, hx, Ne.symm hx, ih hxs]

theorem strncmpEq_iff {buf s t : List Char} (lit : List Char) (hb : buf = s ++ NUL :: t)
    (hs : ∀ x ∈ s, x ≠ NUL) : strncmpEq buf 0 lit = true ↔ lit <+: s := by
  unfold strncmpEq
  rw [hb, cstr_zero hs, decide_eq_true_iff, List.prefix_iff_eq_take]
  exact eq_comm

theorem blank_ne_nul {x : Char} (h : x = ' ' ∨ x = '\t') : x ≠ NUL := by
  rcases h with h | h <;> subst h <;> decide

theorem isBlank_of {x : Char} (h : x = ' ' ∨ x = '\t') : isBlank x = true := by
  simp [isBlank, h]

/-- The name side of an assignment line `name ws1 <- r`: `strtok(line, "<-")`, the skip of
leading blanks and the trailing trim leave the name at offset 0 and overwrite only characters
between the name and the `-` of the marker. -/
theorem assignment_name {name ws1 r : List Char} (hne : name ≠ [])
    (hchars : ∀ c ∈ name, c ≠ '<' ∧ c ≠ '-' ∧ c ≠ NUL)
    (hhead : isBlank (name.head hne) = false) (hlast : isBlank (name.getLast hne) = false)
    (hws1 : ∀ c ∈ ws1, c = ' ' ∨ c = '\t') :
    ∃ w1 tb, w1.length = ws1.length
      ∧ strtok (name ++ (ws1 ++ '<' :: '-' :: r)) 0 ['<', '-']
          = ⟨tb, some 0, name.length + ws1.length + 1⟩
      ∧ skipBlanks tb 0 = 0
      ∧ trimEnd isBlank tb 0 = name ++ NUL :: (w1 ++ '-' :: r) := by
  obtain ⟨c, s, rfl⟩ := List.exists_cons_of_ne_nil hne
  have hdelim : ∀ x ∈ c :: s ++ ws1, x ∉ ['<', '-'] ∧ x ≠ NUL := by
    intro x hx
    rcases List.mem_append.1 hx with h | h
    · have := hchars x h
      exact ⟨by simp [this.1, this.2.1], this.2.2⟩
    · refine ⟨?_, blank_ne_nul (hws1 x h)⟩
      rcases hws1 x h with h | h <;> subst h <;> decide
  have htok := strtok_some (B := c :: s ++ (ws1 ++ '<' :: '-' :: r)) (a := []) (d := [])
    (c := c) (s := s ++ ws1) (e := '<') (r := '-' :: r) (p := 0) (G := ['<', '-'])
    (by simp) rfl (by simp) (by simpa using hdelim) (Or.inl (by simp))
  have hlt : ('<' : Char) ≠ NUL := by decide
  simp only [hlt, if_false, List.nil_append, List.length_nil, Nat.add_zero, Nat.zero_add,
    List.length_append] at htok
  obtain ⟨i, l, hil⟩ : ∃ i l, c :: s = i ++ [l] :=
    ⟨(c :: s).dropLast, (c :: s).getLast (by simp), (List.dropLast_append_getLast _).symm⟩
  have hl : isBlank l = false := by
    have : (c :: s).getLast hne = l := by simp [hil]
    rw [← this]; exact hlast
  have hl0 : l ≠ NUL := (hchars l (by rw [hil]; simp)).2.2
  have hi0 : ∀ x ∈ i, x ≠ NUL := fun x hx => (hchars x (by rw [hil]; simp [hx])).2.2
  obtain ⟨w1, hw1, htrim⟩ := trimEnd_eq (F := isBlank)
    (B := c :: (s ++ ws1) ++ NUL :: '-' :: r) (a := []) (s := i) (c := l) (w := ws1)
    (t := '-' :: r) (p := 0)
    (by rw [show c :: (s ++ ws1) = (c :: s) ++ ws1 from rfl, hil]; simp) rfl hi0 hl hl0
    (fun x hx => ⟨isBlank_of (hws1 x hx), blank_ne_nul (hws1 x hx)⟩)
  refine ⟨w1, c :: (s ++ ws1) ++ NUL :: '-' :: r, hw1, ?_, ?_, ?_⟩
  · rw [htok]
    simp
    omega
  · have hcb : ¬ (c = ' ' ∨ c = '\t') := by
      simpa [isBlank] using hhead
    simpa using skipBlanks_eq (B := c :: (s ++ ws1) ++ NUL :: '-' :: r) (a := []) (w := [])
      (c := c) (t := (s ++ ws1) ++ NUL :: '-' :: r) (p := 0) (by simp) rfl (by simp) hcb
  · rw [htrim, hil]
    simp

/-- The expression side of an assignment line: the skip of leading blanks and the trailing
trim leave the expression text as the string at the returned offset. -/
theorem assignment_expr {B a V X w t : List Char} {p : Nat} (hne : X ≠ [])
    (hb : B = a ++ (V ++ (X ++ (w ++ NUL :: t)))) (hp : p = a.length)
    (hws2 : ∀ c ∈ V, c = ' ' ∨ c = '\t')
    (hchars : ∀ c ∈ X, c ≠ NUL)
    (hhead : isBlank (X.head hne) = false) (hlast : isSpaceNl (X.getLast hne) = false)
    (hw : ∀ x ∈ w, isSpaceNl x = true ∧ x ≠ NUL) :
    skipBlanks B p = p + V.length
      ∧ ∃ w1, trimEnd isSpaceNl B (p + V.length) = a ++ (V ++ (X ++ NUL :: (w1 ++ t))) := by
  obtain ⟨c, s, rfl⟩ := List.exists_cons_of_ne_nil hne
  obtain ⟨i, l, hil⟩ : ∃ i l, c :: s = i ++ [l] :=
    ⟨(c :: s).dropLast, (c :: s).getLast (by simp), (List.dropLast_append_getLast _).symm⟩
  have hl : isSpaceNl l = false := by
    have : (c :: s).getLast hne = l := by simp [hil]
    rw [← this]; exact hlast
  have hl0 : l ≠ NUL := hchars l (by rw [hil]; simp)
  have hi0 : ∀ x ∈ i, x ≠ NUL := fun x hx => hchars x (by rw [hil]; simp [hx])
  have hcb : ¬ (c = ' ' ∨ c = '\t') := by simpa [isBlank] using hhead
  refine ⟨skipBlanks_eq (c := c) (t := s ++ (w ++ NUL :: t)) (by simp [hb]) hp hws2 hcb, ?_⟩
  obtain ⟨w1, _, htrim⟩ := trimEnd_eq (F := isSpaceNl) (B := B) (a := a ++ V) (s := i)
    (c := l) (w := w) (t := t) (p := p + V.length)
    (by rw [hb, hil]; simp) (by simp [hp]) hi0 hl hl0 hw
  refine ⟨w1, ?_⟩
  rw [htrim, hil]
  simp

/-- The first pass on a chunk whose visible text is `name ws1 <- r0`: the name is validated
and registered, then the declaration is written. -/
theorem firstPassLine_assignment (st : State) (chunk name ws1 r0 t : List Char)
    (hbuf : stripComment (fgetsStore st.line chunk)
      = name ++ (ws1 ++ '<' :: '-' :: r0) ++ NUL :: t)
    (hne : name ≠ [])
    (hchars : ∀ c ∈ name, c ≠ '<' ∧ c ≠ '-' ∧ c ≠ NUL)
    (hhead : isBlank (name.head hne) = false) (hlast : isBlank (name.getLast hne) = false)
    (hnl : name.head hne ≠ '\n')
    (hws1 : ∀ c ∈ ws1, c = ' ' ∨ c = '\t')
    (hr0 : ∀ c ∈ r0, c ≠ NUL)
    (hfun : ¬ "function".toList <+: name ++ (ws1 ++ '<' :: '-' :: r0)) :
    ∃ w1, w1.length = ws1.length ∧ firstPassLine st chunk =
      if !is_valid_identifier name then .error (.invalidIdentifier name)
      else
        match add_identifier st.identifiers name with
        | .error e => .error e
        | .ok ids =>
          let buf1 := name ++ NUL :: (w1 ++ '-' :: (r0 ++ NUL :: t))
          let expr := skipBlanks buf1 (name.length + ws1.length + 2)
          let buf2 := trimEnd isSpaceNl buf1 expr
          .ok ⟨ids, st.c_file ++ ("double ".toList ++ cstr buf2 0 ++ " = ".toList
            ++ cstr buf2 expr ++ ";\n".toList), buf2, st.in_function⟩ := by
  obtain ⟨w1, tb, hw1, htok, hskip, htrim⟩ :=
    assignment_name (r := r0 ++ NUL :: t) hne hchars hhead hlast hws1
  refine ⟨w1, hw1, ?_⟩
  obtain ⟨c, s, rfl⟩ := List.exists_cons_of_ne_nil hne
  have hs0 : ∀ x ∈ c :: s ++ (ws1 ++ '<' :: '-' :: r0), x ≠ NUL := by
    intro x hx
    simp only [List.mem_append, List.mem_cons] at hx
    rcases hx with (h | h) | h | h | h | h
    · exact h ▸ (hchars c (by simp)).2.2
    · exact (hchars x (by simp [h])).2.2
    · exact blank_ne_nul (hws1 x h)
    · subst h; decide
    · subst h; decide
    · exact hr0 x h
  have hnw0 : ∀ x ∈ c :: s ++ ws1, x ≠ NUL := fun x hx => hs0 x (by
    rcases List.mem_append.1 hx with h | h
    · exact List.mem_append_left _ h
    · exact List.mem_append_right _ (List.mem_append_left _ h))
  have hnwlt : ('<' : Char) ∉ c :: s ++ ws1 := by
    intro h
    rcases List.mem_append.1 h with h | h
    · exact (hchars _ h).1 rfl
    · rcases hws1 _ h with h | h <;> exact absurd h (by decide)
  have hnwmi : ('-' : Char) ∉ c :: s ++ ws1 ++ ['<'] := by
    intro h
    simp only [List.mem_append, List.mem_singleton] at h
    rcases h with (h | h) | h
    · exact (hchars _ h).2.1 rfl
    · rcases hws1 _ h with h | h <;> exact absurd h (by decide)
    · exact absurd h (by decide)
  have hlen : strlen (c :: s ++ (ws1 ++ '<' :: '-' :: r0) ++ NUL :: t) 0 ≠ 0 := by
    unfold strlen; rw [cstr_zero hs0]; simp
  have hc0 : charAt (c :: s ++ (ws1 ++ '<' :: '-' :: r0) ++ NUL :: t) 0 = c := rfl
  have hcb : ¬ (c = ' ' ∨ c = '\t') := by simpa [isBlank] using hhead
  have hctab : c ≠ '\t' := fun h => hcb (Or.inr h)
  have hcnl : c ≠ '\n' := by simpa using hnl
  have hfn : strncmpEq (c :: s ++ (ws1 ++ '<' :: '-' :: r0) ++ NUL :: t) 0 "function".toList
      = false := by
    rw [Bool.eq_false_iff]
    intro h
    exact hfun ((strncmpEq_iff _ rfl hs0).1 h)
  have hlt : strchr (c :: s ++ (ws1 ++ '<' :: '-' :: r0) ++ NUL :: t) 0 '<'
      = some (c :: s ++ ws1).length := by
    have := strchr_some_zero (s := c :: s ++ ws1) (c := '<') (r := '-' :: r0) (t := t) hnw0
      (by intro x hx; rcases List.mem_cons.1 hx with h | h
          · subst h; decide
          · exact hr0 x h) (by decide) hnwlt
    simpa using this
  have hmi : strchr (c :: s ++ (ws1 ++ '<' :: '-' :: r0) ++ NUL :: t) 0 '-'
      = some (c :: s ++ ws1 ++ ['<']).length := by
    have := strchr_some_zero (s := c :: s ++ ws1 ++ ['<']) (c := '-') (r := r0) (t := t)
      (by intro x hx
          simp only [List.mem_append, List.mem_singleton] at hx
          rcases hx with h | h
          · exact hnw0 x (List.mem_append.2 h)
          · subst h; decide) hr0 (by decide) hnwmi
    simpa using this
  have hstr : strstr (c :: s ++ (ws1 ++ '<' :: '-' :: r0) ++ NUL :: t) 0 "<-".toList
      = some ((c :: s).length + ws1.length) := by
    unfold strstr
    rw [cstr_zero hs0]
    have := findSub_marker (s := c :: s ++ ws1) (r := r0) hnwlt
    simp only [List.append_assoc] at this
    rw [show "<-".toList = ['<', '-'] from rfl, this]
    simp
    omega
  have htok2 : strtok (c :: s ++ (ws1 ++ '<' :: '-' :: r0) ++ NUL :: t) 0 ['<', '-']
      = ⟨tb, some 0, (c :: s).length + ws1.length + 1⟩ := by
    rw [← htok]; simp
  have hcs : cstr (c :: s ++ NUL :: (w1 ++ '-' :: (r0 ++ NUL :: t))) 0 = c :: s :=
    cstr_zero (fun x hx => (hchars x hx).2.2)
  unfold firstPassLine
  simp only [hbuf, hlen, hc0, hcnl, hctab, hfn, hlt, hmi, hstr, htok2, hskip, htrim, hcs,
    false_or, if_false, Option.isSome_some, and_self, if_true, Bool.false_eq_true]
  rfl

theorem fgetsChunk_line {n : Nat} {l : List Char} (rest : List Char)
    (hl : ∀ c ∈ l, c ≠ '\n') (hn : l.length < n) :
    fgetsChunk n (l ++ '\n' :: rest) = l ++ ['\n'] := by
  induction l generalizing n with
  | nil =>
    cases n with
    | zero => omega
    | succ n => simp [fgetsChunk]
  | cons c l ih =>
    cases n with
    | zero => omega
    | succ n =>
      have hc : c ≠ '\n' := hl c (by simp)
      simp only [List.cons_append, fgetsChunk, hc, if_false, List.cons.injEq, true_and]
      exact ih (fun x hx => hl x (by simp [hx])) (by simpa using hn)

theorem fgetsChunk_last {n : Nat} {l : List Char}
    (hl : ∀ c ∈ l, c ≠ '\n') (hn : l.length ≤ n) : fgetsChunk n l = l := by
  induction l generalizing n with
  | nil => cases n <;> simp [fgetsChunk]
  | cons c l ih =>
    cases n with
    | zero => simp at hn
    | succ n =>
      have hc : c ≠ '\n' := hl c (by simp)
      simp only [fgetsChunk, hc, if_false, List.cons.injEq, true_and]
      exact ih (fun x hx => hl x (by simp [hx])) (by simpa using hn)

theorem visible_all {l : List Char} (hl : ∀ c ∈ l, c ≠ NUL ∧ c ≠ '#') :
    l.takeWhile (fun c => c ≠ NUL ∧ c ≠ '#') = l := by
  rw [List.takeWhile_eq_self_iff]
  intro c hc
  simpa using hl c hc

theorem add_identifier_ok {ids : List (List Char)} (id : List Char)
    (h : ids.length < MAX_IDENTIFIERS) :
    add_identifier ids id = .ok (if identifier_exists ids id then ids else ids ++ [id]) := by
  unfold add_identifier
  have : ¬ ids.length ≥ MAX_IDENTIFIERS := by omega
  rw [if_neg this]
  cases identifier_exists ids id <;> rfl

/-! ## Lemmas on reading the file -/

theorem fgetsChunk_pos (n : Nat) (c : Char) (cs : List Char) :
    0 < (fgetsChunk (n + 1) (c :: cs)).length := by
  unfold fgetsChunk
  split <;> simp

theorem fgetsChunk_split (n : Nat) (s : List Char) :
    ∃ r, s = fgetsChunk n s ++ r := by
  induction s generalizing n with
  | nil => exact ⟨[], by cases n <;> simp [fgetsChunk]⟩
  | cons c cs ih =>
    cases n with
    | zero => exact ⟨c :: cs, by simp [fgetsChunk]⟩
    | succ n =>
      unfold fgetsChunk
      by_cases hc : c = '\n'
      · exact ⟨cs, by simp [hc]⟩
      · obtain ⟨r, hr⟩ := ih n
        exact ⟨r, by simp only [hc, if_false, List.cons_append]; rw [← hr]⟩

theorem fgetsChunk_length_le (n : Nat) (s : List Char) : (fgetsChunk n s).length ≤ s.length := by
  obtain ⟨r, hr⟩ := fgetsChunk_split n s
  have := congrArg List.length hr
  simp at this
  omega

/-- The bound of `readChunks` is never reached: more fuel gives the same chunks. -/
theorem readChunks_fuel : ∀ (fuel : Nat) (s : List Char), s.length ≤ fuel →
    readChunks fuel s = readChunks s.length s := by
  intro fuel
  induction fuel using Nat.strong_induction_on with
  | _ fuel ih =>
    intro s hs
    cases s with
    | nil => cases fuel <;> rfl
    | cons c cs =>
      cases fuel with
      | zero => simp at hs
      | succ fuel =>
        have hpos := fgetsChunk_pos (MAX_LINE_LEN - 2) c cs
        have hle := fgetsChunk_length_le (MAX_LINE_LEN - 1) (c :: cs)
        have hd : ((c :: cs).drop (fgetsChunk (MAX_LINE_LEN - 1) (c :: cs)).length).length
            ≤ cs.length := by
          rw [List.length_drop]
          simp only [List.length_cons]
          have : 0 < (fgetsChunk (MAX_LINE_LEN - 1) (c :: cs)).length := hpos
          omega
        simp only [List.length_cons, readChunks]
        congr 1
        rw [ih fuel (Nat.lt_succ_self _) _ (by simp at hs; omega)]
        by_cases hlt : cs.length < fuel + 1
        · exact (ih cs.length hlt _ hd).symm
        · have : cs.length = fuel + 1 := by simp at hs; omega
          simp at hs
          omega

/-- Every character of the file is in exactly one chunk, in order. -/
theorem fileChunks_join (s : List Char) : (fileChunks s).flatten = s := by
  unfold fileChunks
  generalize hn : s.length = n
  induction n using Nat.strong_induction_on generalizing s with
  | _ n ih =>
    cases s with
    | nil => subst hn; rfl
    | cons c cs =>
      subst hn
      have hpos := fgetsChunk_pos (MAX_LINE_LEN - 2) c cs
      obtain ⟨r, hr⟩ := fgetsChunk_split (MAX_LINE_LEN - 1) (c :: cs)
      have hdrop : (c :: cs).drop (fgetsChunk (MAX_LINE_LEN - 1) (c :: cs)).length = r := by
        conv_lhs => arg 2; rw [hr]
        exact List.drop_left _ _
      have hrlen : r.length ≤ cs.length := by
        have := congrArg List.length hr
        simp only [List.length_cons, List.length_append] at this
        have : 0 < (fgetsChunk (MAX_LINE_LEN - 1) (c :: cs)).length := hpos
        omega
      simp only [List.length_cons, readChunks, List.flatten_cons]
      rw [hdrop, readChunks_fuel cs.length r hrlen, ih r.length (by simp; omega) r rfl]
      exact hr.symm

theorem fileChunks_nil : fileChunks [] = [] := rfl

theorem fileChunks_cons_line {l : List Char} (rest : List Char)
    (hl : ∀ c ∈ l, c ≠ '\n') (hn : l.length < MAX_LINE_LEN - 1) :
    fileChunks (l ++ '\n' :: rest) = (l ++ ['\n']) :: fileChunks rest := by
  have hchunk := fgetsChunk_line (n := MAX_LINE_LEN - 1) rest hl hn
  unfold fileChunks
  cases hl0 : l ++ '\n' :: rest with
  | nil => simp at hl0
  | cons c cs =>
    rw [hl0] at hchunk
    simp only [List.length_cons, readChunks, hchunk]
    congr 1
    have hdrop : (c :: cs).drop (l ++ ['\n']).length = rest := by
      rw [← hl0, show l ++ '\n' :: rest = (l ++ ['\n']) ++ rest by simp]
      exact List.drop_left _ _
    rw [hdrop]
    apply readChunks_fuel
    have := congrArg List.length hl0
    simp at this
    omega

theorem fileChunks_last {l : List Char} (hne : l ≠ [])
    (hl : ∀ c ∈ l, c ≠ '\n') (hn : l.length ≤ MAX_LINE_LEN - 1) :
    fileChunks l = [l] := by
  have hchunk := fgetsChunk_last (n := MAX_LINE_LEN - 1) hl hn
  unfold fileChunks
  cases l with
  | nil => exact absurd rfl hne
  | cons c cs =>
    show fgetsChunk (MAX_LINE_LEN - 1) (c :: cs)
      :: readChunks cs.length ((c :: cs).drop (fgetsChunk (MAX_LINE_LEN - 1) (c :: cs)).length)
      = [c :: cs]
    rw [hchunk, List.drop_length]
    cases cs.length <;> rfl

theorem fgetsChunk_append (n : Nat) (p post : List Char) :
    fgetsChunk n (p ++ ['\n'] ++ post) = fgetsChunk n (p ++ ['\n']) := by
  induction p generalizing n with
  | nil => cases n <;> simp [fgetsChunk]
  | cons c p ih =>
    cases n with
    | zero => simp [fgetsChunk]
    | succ n =>
      by_cases hc : c = '\n'
      · simp [fgetsChunk, hc]
      · simp only [List.cons_append, fgetsChunk, hc, if_false, List.cons.injEq, true_and]
        exact ih n

theorem fileChunks_cons (c : Char) (cs : List Char) :
    fileChunks (c :: cs) = fgetsChunk (MAX_LINE_LEN - 1) (c :: cs)
      :: fileChunks ((c :: cs).drop (fgetsChunk (MAX_LINE_LEN - 1) (c :: cs)).length) := by
  have hpos := fgetsChunk_pos (MAX_LINE_LEN - 2) c cs
  unfold fileChunks
  simp only [List.length_cons, readChunks]
  congr 1
  apply readChunks_fuel
  rw [List.length_drop]
  simp only [List.length_cons]
  have : 0 < (fgetsChunk (MAX_LINE_LEN - 1) (c :: cs)).length := hpos
  omega

/-- The chunks of a file that continues after a complete line are the chunks up to the end
of that line followed by the chunks of the rest. -/
theorem fileChunks_append (pre post : List Char) (hpre : ∀ c ∈ pre.getLast?, c = '\n') :
    fileChunks (pre ++ post) = fileChunks pre ++ fileChunks post := by
  generalize hn : pre.length = n
  induction n using Nat.strong_induction_on generalizing pre with
  | _ n ih =>
    cases pre with
    | nil => rfl
    | cons c cs =>
      obtain ⟨p, hp⟩ : ∃ p, c :: cs = p ++ ['\n'] := by
        refine ⟨(c :: cs).dropLast, ?_⟩
        have h1 := List.dropLast_append_getLast (l := c :: cs) (by simp)
        have h2 : (c :: cs).getLast (by simp) = '\n' :=
          hpre _ (by rw [List.getLast?_eq_getLast _ (by simp)]; rfl)
        rw [h2] at h1
        exact h1.symm
      have hpos := fgetsChunk_pos (MAX_LINE_LEN - 2) c cs
      obtain ⟨r, hr⟩ := fgetsChunk_split (MAX_LINE_LEN - 1) (c :: cs)
      have hchunk : fgetsChunk (MAX_LINE_LEN - 1) (c :: cs ++ post)
          = fgetsChunk (MAX_LINE_LEN - 1) (c :: cs) := by
        rw [hp]; exact fgetsChunk_append _ p post
      have hdrop1 : (c :: cs).drop (fgetsChunk (MAX_LINE_LEN - 1) (c :: cs)).length = r := by
        conv_lhs => arg 2; rw [hr]
        exact List.drop_left _ _
      have hdrop2 : (c :: cs ++ post).drop (fgetsChunk (MAX_LINE_LEN - 1) (c :: cs)).length
          = r ++ post := by
        conv_lhs => arg 2; rw [hr, List.append_assoc]
        exact List.drop_left _ _
      have hrlen : r.length < n := by
        have := congrArg List.length hr
        simp only [List.length_cons, List.length_append] at this
        have : 0 < (fgetsChunk (MAX_LINE_LEN - 1) (c :: cs)).length := hpos
        simp only [List.length_cons] at hn
        omega
      have hrlast : ∀ x ∈ r.getLast?, x = '\n' := by
        intro x hx
        apply hpre
        rw [hr]
        cases r with
        | nil => simp at hx
        | cons y ys => rw [List.getLast?_append_of_ne_nil _ (by simp)]; exact hx
      have e1 : fileChunks (c :: cs ++ post) = fgetsChunk (MAX_LINE_LEN - 1) (c :: cs)
          :: fileChunks (r ++ post) := by
        have := fileChunks_cons c (cs ++ post)
        rw [show c :: (cs ++ post) = c :: cs ++ post from rfl, hchunk, hdrop2] at this
        exact this
      rw [e1, fileChunks_cons c cs, hdrop1, ih r.length hrlen r hrlast rfl]
      rfl

theorem forChunks_append (body : State → List Char → Except Failure State) (st : State)
    (a b : List (List Char)) :
    forChunks body st (a ++ b) =
      match forChunks body st a with
      | .error e => .error e
      | .ok st1 => forChunks body st1 b := by
  induction a generalizing st with
  | nil => rfl
  | cons x xs ih =>
    simp only [List.cons_append, forChunks]
    cases body st x with
    | error e => rfl
    | ok st1 => exact ih st1

/-! ## Lemmas on identifier validation and function headers -/

theorem is_valid_identifier_spec (s : List Char) :
    is_valid_identifier s = true ↔ s.length ≤ 12 ∧ ∀ c ∈ s, ¬ ('A' ≤ c ∧ c ≤ 'Z') := by
  unfold is_valid_identifier
  by_cases h : s.length > 12
  · simp only [h, if_true]
    constructor
    · intro hf; cases hf
    · rintro ⟨hl, _⟩; omega
  · simp only [h, if_false, List.all_eq_true]
    constructor
    · intro hall
      refine ⟨by omega, fun c hc hup => ?_⟩
      have := hall c hc
      simp [hup.1, hup.2] at this
    · rintro ⟨_, hno⟩ c hc
      have := hno c hc
      by_cases h1 : 'A' ≤ c <;> by_cases h2 : c ≤ 'Z' <;> simp_all

theorem visible_append {a b : List Char} (ha : ∀ c ∈ a, c ≠ NUL ∧ c ≠ '#') :
    (a ++ b).takeWhile (fun c => c ≠ NUL ∧ c ≠ '#')
      = a ++ b.takeWhile (fun c => c ≠ NUL ∧ c ≠ '#') := by
  rw [List.takeWhile_append_of_pos]
  intro c hc
  simpa using ha c hc

theorem visible_mem {b : List Char} {c : Char}
    (h : c ∈ b.takeWhile (fun c => c ≠ NUL ∧ c ≠ '#')) : c ≠ NUL ∧ c ≠ '#' := by
  simpa using List.mem_takeWhile_imp h

/-- A line in the middle of a file, after complete lines, is one chunk. -/
theorem fileChunks_middle (pre l eol post : List Char)
    (hpre : ∀ c ∈ pre.getLast?, c = '\n') (hl : ∀ c ∈ l, c ≠ '\n')
    (heol : eol = ['\n'] ∨ (eol = [] ∧ post = [] ∧ l ≠ []))
    (hlen : (l ++ eol).length < MAX_LINE_LEN) :
    fileChunks (pre ++ (l ++ eol) ++ post)
      = fileChunks pre ++ (l ++ eol) :: fileChunks post := by
  rw [List.append_assoc, fileChunks_append pre _ hpre]
  congr 1
  rcases heol with h | ⟨h, hp, hne⟩
  · subst h
    rw [List.append_assoc]
    exact fileChunks_cons_line post hl (by
      have : (l ++ ['\n']).length < 256 := hlen
      simp at this ⊢; omega)
  · subst h hp
    simp only [List.append_nil]
    rw [fileChunks_nil]
    exact fileChunks_last hne hl (by
      have : (l ++ []).length < 256 := hlen
      simp at this ⊢; omega)

theorem forChunks_fails_at (body : State → List Char → Except Failure State) (st : State)
    (a : List (List Char)) (x : List Char) (b : List (List Char)) (e : Failure)
    (hx : ∀ st1, body st1 x = .error e) :
    (∃ e1, forChunks body st (a ++ x :: b) = .error e1)
      ∧ (∀ st1, forChunks body st a = .ok st1 → forChunks body st (a ++ x :: b) = .error e) := by
  rw [forChunks_append]
  cases h : forChunks body st a with
  | error e1 => exact ⟨⟨e1, rfl⟩, fun st1 h1 => by cases h1⟩
  | ok st1 =>
    have : forChunks body st1 (x :: b) = .error e := by simp [forChunks, hx st1]
    exact ⟨⟨e, this⟩, fun _ _ => this⟩

theorem translate_error_of_firstPass {line0 file : List Char} {e : Failure}
    (h : forChunks firstPassLine ⟨[], preamble, line0, false⟩ (fileChunks file) = .error e) :
    translate line0 file = .error e := by
  simp [translate, generate_c_code, firstPass, h]

/-! ## Lemmas on top-level print lines -/

/-- A loop whose body, on every chunk of the list, only appends `out chunk` to the output
appends the outputs in order. -/
theorem forChunks_emit (body : State → List Char → Except Failure State)
    (out : List Char → List Char) (chunks : List (List Char))
    (h : ∀ ch ∈ chunks, ∀ st : State, ∃ buf,
      body st ch = .ok ⟨st.identifiers, st.c_file ++ out ch, buf, st.in_function⟩) :
    ∀ st : State, ∃ buf, forChunks body st chunks
      = .ok ⟨st.identifiers, st.c_file ++ (chunks.map out).flatten,
          if chunks = [] then st.line else buf, st.in_function⟩ := by
  induction chunks with
  | nil => intro st; exact ⟨[], by simp [forChunks]⟩
  | cons ch rest ih =>
    intro st
    obtain ⟨buf, hb⟩ := h ch (List.mem_cons_self _ _) st
    obtain ⟨buf2, hb2⟩ := ih (fun c hc => h c (List.mem_cons_of_mem _ hc))
      ⟨st.identifiers, st.c_file ++ out ch, buf, st.in_function⟩
    refine ⟨if rest = [] then buf else buf2, ?_⟩
    simp only [forChunks, hb, hb2, List.map_cons, List.flatten_cons, List.append_assoc]
    simp

theorem print_line_buffer (line E eol : List Char)
    (hE : ∀ c ∈ E, c ≠ '\n' ∧ c ≠ NUL ∧ c ≠ '#') (heol : eol = ['\n'] ∨ eol = []) :
    ∃ t, stripComment (fgetsStore line ("print ".toList ++ E ++ eol))
        = "print ".toList ++ (E ++ eol) ++ NUL :: t
      ∧ ∀ c ∈ "print ".toList ++ (E ++ eol), c ≠ NUL := by
  have hall : ∀ c ∈ "print ".toList ++ E ++ eol, c ≠ NUL ∧ c ≠ '#' := by
    intro c hc
    simp only [List.mem_append] at hc
    rcases hc with (h | h) | h
    · have hd : ∀ y ∈ "print ".toList, y ≠ NUL ∧ y ≠ '#' := by decide
      exact hd c h
    · exact ⟨(hE c h).2.1, (hE c h).2.2⟩
    · rcases heol with h1 | h1
      · subst h1
        have : c = '\n' := by simpa using h
        subst this; decide
      · subst h1; simp at h
  obtain ⟨t, ht⟩ := stripComment_fgetsStore line ("print ".toList ++ E ++ eol)
  rw [visible_all hall] at ht
  refine ⟨t, by rw [ht]; simp, ?_⟩
  intro c hc
  exact (hall c (by simpa using hc)).1

theorem not_function_of_print {s : List Char} :
    ¬ "function".toList <+: "print ".toList ++ s := by
  rintro ⟨z, hz⟩
  have := congrArg List.head? hz
  simp at this

/-- The first pass ignores a top-level print line that does not hold both `<` and `-`. -/
theorem firstPassLine_print (st : State) (E eol : List Char)
    (hE : ∀ c ∈ E, c ≠ '\n' ∧ c ≠ NUL ∧ c ≠ '#') (heol : eol = ['\n'] ∨ eol = [])
    (hm : ¬ ('<' ∈ E ∧ '-' ∈ E)) :
    ∃ buf, firstPassLine st ("print ".toList ++ E ++ eol)
      = .ok ⟨st.identifiers, st.c_file ++ [], buf, st.in_function⟩ := by
  obtain ⟨t, hbuf, hs0⟩ := print_line_buffer st.line E eol hE heol
  have hlen : strlen ("print ".toList ++ (E ++ eol) ++ NUL :: t) 0 ≠ 0 := by
    unfold strlen; rw [cstr_zero hs0]; simp
  have hc0 : charAt ("print ".toList ++ (E ++ eol) ++ NUL :: t) 0 = 'p' := rfl
  have hfn : strncmpEq ("print ".toList ++ (E ++ eol) ++ NUL :: t) 0 "function".toList
      = false := by
    rw [Bool.eq_false_iff]
    intro h
    exact not_function_of_print ((strncmpEq_iff _ rfl hs0).1 h)
  have hmem : ∀ x : Char, x ∉ "print ".toList → x ≠ '\n' → x ∉ E →
      strchr ("print ".toList ++ (E ++ eol) ++ NUL :: t) 0 x = none := by
    intro x hx1 hx2 hx3
    apply strchr_none_zero hs0
    intro hx
    simp only [List.mem_append] at hx
    rcases hx with h | h | h
    · exact hx1 h
    · exact hx3 h
    · rcases heol with h1 | h1
      · subst h1
        exact hx2 (by simpa using h)
      · subst h1; simp at h
  have hcond : ¬ ((strchr ("print ".toList ++ (E ++ eol) ++ NUL :: t) 0 '<').isSome = true
      ∧ (strchr ("print ".toList ++ (E ++ eol) ++ NUL :: t) 0 '-').isSome = true) := by
    rintro ⟨h1, h2⟩
    apply hm
    constructor
    · by_contra hn
      rw [hmem '<' (by decide) (by decide) hn] at h1
      simp at h1
    · by_contra hn
      rw [hmem '-' (by decide) (by decide) hn] at h2
      simp at h2
  unfold firstPassLine
  simp only [hbuf, hlen, hc0, hfn, false_or, if_false, Bool.false_eq_true]
  rw [if_neg (by decide), if_neg (by decide), if_neg hcond]
  exact ⟨_, by rw [List.append_nil]⟩

/-- The second pass ignores a top-level print line. -/
theorem secondPassLine_print (st : State) (E eol : List Char)
    (hE : ∀ c ∈ E, c ≠ '\n' ∧ c ≠ NUL ∧ c ≠ '#') (heol : eol = ['\n'] ∨ eol = []) :
    ∃ buf, secondPassLine st ("print ".toList ++ E ++ eol)
      = .ok ⟨st.identifiers, st.c_file ++ [], buf, st.in_function⟩ := by
  obtain ⟨t, hbuf, hs0⟩ := print_line_buffer st.line E eol hE heol
  have hlen : strlen ("print ".toList ++ (E ++ eol) ++ NUL :: t) 0 ≠ 0 := by
    unfold strlen; rw [cstr_zero hs0]; simp
  have hc0 : charAt ("print ".toList ++ (E ++ eol) ++ NUL :: t) 0 = 'p' := rfl
  have hfn : strncmpEq ("print ".toList ++ (E ++ eol) ++ NUL :: t) 0 "function".toList
      = false := by
    rw [Bool.eq_false_iff]
    intro h
    exact not_function_of_print ((strncmpEq_iff _ rfl hs0).1 h)
  have hind : (("print ".toList ++ (E ++ eol) ++ NUL :: t).takeWhile
      (fun c => decide (c = '\t'))).length = 0 := by
    have h1 : "print ".toList ++ (E ++ eol) ++ NUL :: t
        = 'p' :: ("rint ".toList ++ (E ++ eol) ++ NUL :: t) := rfl
    rw [h1, List.takeWhile_cons_of_neg (by decide)]
    rfl
  unfold secondPassLine
  simp only [hbuf, hlen, hc0, hfn, hind, false_or, if_false, Bool.false_eq_true,
    Nat.lt_irrefl, false_and]
  rw [if_neg (by decide)]
  exact ⟨_, by rw [List.append_nil]⟩
/-- The third pass writes the print block of a top-level print line, with the text after the
first space up to the end of the chunk. -/
theorem thirdPassLine_print (st : State) (E eol : List Char)
    (hE : ∀ c ∈ E, c ≠ '\n' ∧ c ≠ NUL ∧ c ≠ '#') (heol : eol = ['\n'] ∨ eol = []) :
    ∃ buf, thirdPassLine st ("print ".toList ++ E ++ eol)
      = .ok ⟨st.identifiers, st.c_file ++ printBlockMain (E ++ eol), buf, st.in_function⟩ := by
  obtain ⟨t, hbuf, hs0⟩ := print_line_buffer st.line E eol hE heol
  have hs1 : ∀ c ∈ E ++ eol, c ≠ NUL := fun c hc => hs0 c (List.mem_append_right _ hc)
  have hlen : strlen ("print ".toList ++ (E ++ eol) ++ NUL :: t) 0 ≠ 0 := by
    unfold strlen; rw [cstr_zero hs0]; simp
  have hc0 : charAt ("print ".toList ++ (E ++ eol) ++ NUL :: t) 0 = 'p' := rfl
  have hc5 : charAt ("print ".toList ++ (E ++ eol) ++ NUL :: t) 5 = ' ' := rfl
  have hfn : strncmpEq ("print ".toList ++ (E ++ eol) ++ NUL :: t) 0 "function".toList
      = false := by
    rw [Bool.eq_false_iff]
    intro h
    exact not_function_of_print ((strncmpEq_iff _ rfl hs0).1 h)
  have hpr : strncmpEq ("print ".toList ++ (E ++ eol) ++ NUL :: t) 0 "print".toList = true := by
    rw [strncmpEq_iff _ rfl hs0]
    exact ⟨' ' :: (E ++ eol), rfl⟩
  have hsp : strchr ("print ".toList ++ (E ++ eol) ++ NUL :: t) 0 ' ' = some 5 :=
    strchr_some_zero (s := "print".toList) (c := ' ') (r := E ++ eol) (t := t) (by decide) hs1
      (by decide) (by decide)
  have hex : cstr ("print ".toList ++ (E ++ eol) ++ NUL :: t) (5 + 1) = E ++ eol :=
    cstr_eq (a := "print ".toList) (s := E ++ eol) (t := t) (by simp) rfl hs1
  unfold thirdPassLine
  simp only [hbuf, hlen, hc0, hc5, hfn, hpr, hsp, hex, false_or, if_false, Bool.false_eq_true,
    true_or, and_self, if_true]
  rw [if_neg (by decide)]
  exact ⟨_, rfl⟩

/-! ## Lemmas on function headers in the second pass -/

theorem paramLoop_none (fuel : Nat) (st : State) (buf : List Char) (save : Nat) (first : Bool) :
    paramLoop fuel st buf none save first = .ok { st with line := buf } := by
  cases fuel <;> rfl

/-- The loop over the parameters, entered with the token `p` and the parameters `ps` still
in the buffer, each after one space: every parameter is declared and registered. -/
theorem paramLoop_spec (ps : List (List Char)) :
    ∀ (p A t : List Char) (st : State) (first : Bool) (fuel : Nat),
      (∀ q ∈ p :: ps, q ≠ [] ∧ ∀ c ∈ q, c ≠ ' ' ∧ c ≠ NUL) →
      ps.length + 1 ≤ fuel →
      st.identifiers.length + ps.length + 1 ≤ MAX_IDENTIFIERS →
      ∃ st1, paramLoop fuel st
          (A ++ (p ++ NUL :: ((ps.map (fun q => ' ' :: q)).flatten ++ NUL :: t).tail))
          (some A.length) (A.length + p.length + (if ps = [] then 0 else 1)) first = .ok st1
        ∧ st1.c_file = st.c_file ++ (if first then [] else ", ".toList)
            ++ ("double ".toList ++ p ++ " ".toList)
            ++ (ps.map (fun q => ", ".toList ++ ("double ".toList ++ q ++ " ".toList))).flatten
        ∧ st1.in_function = st.in_function := by
  induction ps with
  | nil =>
    intro p A t st first fuel hq hfuel hcap
    obtain ⟨hpne, hpc⟩ := hq p (List.mem_cons_self _ _)
    have hp0 : ∀ c ∈ p, c ≠ NUL := fun c hc => (hpc c hc).2
    cases fuel with
    | zero => omega
    | succ fuel =>
      have hcs : cstr (A ++ (p ++ NUL :: t)) A.length = p := cstr_eq rfl rfl hp0
      have hcap1 : st.identifiers.length < MAX_IDENTIFIERS := by
        simp at hcap; omega
      have htok : strtok (A ++ (p ++ NUL :: t)) (A.length + p.length) [' ']
          = ⟨A ++ (p ++ NUL :: t), none, A.length + p.length⟩ := by
        have := strtok_none (B := A ++ (p ++ NUL :: t)) (a := A ++ p) (d := []) (r := t)
          (p := A.length + p.length) (G := [' ']) (by simp) (by simp) (by simp)
          (by decide)
        simpa using this
      simp only [List.map_nil, List.flatten_nil, List.nil_append, List.tail_cons, if_true,
        Nat.add_zero, paramLoop, hcs]
      cases first <;>
        simp [State.fprintf, add_identifier_ok _ hcap1, htok, paramLoop_none]
  | cons q qs ih =>
    intro p A t st first fuel hq hfuel hcap
    obtain ⟨hpne, hpc⟩ := hq p (List.mem_cons_self _ _)
    obtain ⟨hqne, hqc⟩ := hq q (by simp)
    have hp0 : ∀ c ∈ p, c ≠ NUL := fun c hc => (hpc c hc).2
    cases fuel with
    | zero => omega
    | succ fuel =>
      obtain ⟨e, r, her, he⟩ : ∃ e r, (qs.map (fun q => ' ' :: q)).flatten ++ NUL :: t = e :: r
          ∧ (e = NUL ∨ e = ' ') ∧ (e = NUL ↔ qs = []) := by
        cases qs with
        | nil => exact ⟨NUL, t, rfl, Or.inl rfl, by simp⟩
        | cons q2 qs2 =>
          exact ⟨' ', q2 ++ ((qs2.map (fun q => ' ' :: q)).flatten ++ NUL :: t), by simp,
            Or.inr rfl, by simp; decide⟩
      obtain ⟨c, s, rfl⟩ := List.exists_cons_of_ne_nil hqne
      have hr : ((qs.map (fun q => ' ' :: q)).flatten ++ NUL :: t).tail = r := by
        rw [her]; rfl
      have hbuf : A ++ (p ++ NUL :: ((((c :: s) :: qs).map (fun q => ' ' :: q)).flatten
            ++ NUL :: t).tail)
          = (A ++ (p ++ [NUL])) ++ ([] ++ (c :: s ++ e :: r)) := by
        simp [her]
      have hcs : cstr ((A ++ (p ++ [NUL])) ++ ([] ++ (c :: s ++ e :: r))) A.length = p :=
        cstr_eq (a := A) (s := p) (t := c :: s ++ e :: r) (by simp) rfl hp0
      have hcap1 : st.identifiers.length < MAX_IDENTIFIERS := by
        simp at hcap; omega
      have htok := strtok_some (B := (A ++ (p ++ [NUL])) ++ ([] ++ (c :: s ++ e :: r)))
        (a := A ++ (p ++ [NUL])) (d := []) (c := c) (s := s) (e := e) (r := r)
        (p := A.length + p.length + 1) (G := [' ']) rfl (by simp; omega) (by simp)
        (fun x hx => ⟨by simpa using (hqc x hx).1, (hqc x hx).2⟩)
        (by rcases he.1 with h | h
            · exact Or.inr h
            · exact Or.inl (by simp [h]))
      have hsave : A.length + p.length + 1 + ([] : List Char).length + (s.length + 1)
            + (if e = NUL then 0 else 1)
          = (A ++ (p ++ [NUL])).length + (c :: s).length + (if qs = [] then 0 else 1) := by
        have : (if e = NUL then 0 else 1) = (if qs = [] then 0 else 1) := by
          by_cases hqs : qs = []
          · simp [hqs, he.2.2 hqs]
          · have : e ≠ NUL := fun h => hqs (he.2.1 h)
            simp [hqs, this]
        simp [this]; omega
      have hoff : A.length + p.length + 1 + ([] : List Char).length
          = (A ++ (p ++ [NUL])).length := by simp; omega
      rw [hsave, hoff] at htok
      have hbuf2 : A ++ (p ++ [NUL]) ++ ([] ++ (c :: s ++ NUL :: r))
          = (A ++ (p ++ [NUL])) ++ ((c :: s) ++ NUL :: ((qs.map (fun q => ' ' :: q)).flatten
            ++ NUL :: t).tail) := by
        rw [hr]; simp
      rw [hbuf2] at htok
      rw [hbuf]
      simp only [List.cons_ne_nil, if_false, paramLoop, hcs]
      have hids : ∀ ids0 : List (List Char), ids0.length ≤ st.identifiers.length + 1 →
          ids0.length + qs.length + 1 ≤ MAX_IDENTIFIERS := by
        intro ids0 h
        simp at hcap
        omega
      cases first
      · simp only [State.fprintf, Bool.false_eq_true, if_false, add_identifier_ok _ hcap1, htok]
        obtain ⟨st1, h1, h2, h3⟩ := ih (c :: s) (A ++ (p ++ [NUL])) t
          ⟨if identifier_exists st.identifiers p then st.identifiers else st.identifiers ++ [p],
            st.c_file ++ ", ".toList ++ ("double ".toList ++ p ++ " ".toList), st.line,
            st.in_function⟩ false fuel
          (fun x hx => hq x (List.mem_cons_of_mem _ hx)) (by simp at hfuel; omega)
          (hids _ (by split <;> simp))
        refine ⟨st1, h1, ?_, h3⟩
        rw [h2]
        simp
      · simp only [State.fprintf, if_true, add_identifier_ok _ hcap1, htok]
        obtain ⟨st1, h1, h2, h3⟩ := ih (c :: s) (A ++ (p ++ [NUL])) t
          ⟨if identifier_exists st.identifiers p then st.identifiers else st.identifiers ++ [p],
            st.c_file ++ ("double ".toList ++ p ++ " ".toList), st.line,
            st.in_function⟩ false fuel
          (fun x hx => hq x (List.mem_cons_of_mem _ hx)) (by simp at hfuel; omega)
          (hids _ (by split <;> simp))
        refine ⟨st1, h1, ?_, h3⟩
        rw [h2]
        simp

theorem sep_cases (qs : List (List Char)) (t : List Char) :
    ∃ e r, (qs.map (fun q => ' ' :: q)).flatten ++ NUL :: t = e :: r
      ∧ (e = NUL ∨ e = ' ') ∧ (e = NUL ↔ qs = [])
      ∧ r = ((qs.map (fun q => ' ' :: q)).flatten ++ NUL :: t).tail := by
  cases qs with
  | nil => exact ⟨NUL, t, rfl, Or.inl rfl, by simp, rfl⟩
  | cons q2 qs2 =>
    exact ⟨' ', q2 ++ ((qs2.map (fun q => ' ' :: q)).flatten ++ NUL :: t), by simp,
      Or.inr rfl, by simp; decide, by simp⟩

theorem params_chars {p : List Char} {ps : List (List Char)} {bad : Char} (hb : bad ≠ ' ')
    (hq : ∀ q ∈ p :: ps, ∀ c ∈ q, c ≠ bad) :
    ∀ c ∈ p ++ (ps.map (fun q => ' ' :: q)).flatten, c ≠ bad := by
  intro c hc
  rcases List.mem_append.1 hc with h | h
  · exact hq p (List.mem_cons_self _ _) c h
  · obtain ⟨l, hl, hcl⟩ := List.mem_flatten.1 h
    obtain ⟨q, hqm, rfl⟩ := List.mem_map.1 hl
    rcases List.mem_cons.1 hcl with h1 | h1
    · rw [h1]; exact fun h => hb h.symm
    · exact hq q (List.mem_cons_of_mem _ hqm) c h1

/-- The second pass on the buffer of a header `function N p1 ... pn` (single spaces, n at
least 1, newline at the end): the signature is written with every parameter typed `double`,
in source order, and the function body is opened. -/
theorem headerLine_spec (st : State) (N p t : List Char) (ps : List (List Char))
    (hq : ∀ q ∈ N :: p :: ps, q ≠ [] ∧ ∀ c ∈ q, c ≠ ' ' ∧ c ≠ NUL ∧ c ≠ '\n')
    (hcap : st.identifiers.length + ps.length + 1 ≤ MAX_IDENTIFIERS) :
    ∃ st1, headerLine st ("function ".toList
          ++ (N ++ ' ' :: (p ++ ((ps.map (fun q => ' ' :: q)).flatten ++ '\n' :: NUL :: t))))
        = .ok st1
      ∧ st1.c_file = st.c_file ++ (if st.in_function then closeText else [])
          ++ ("double ".toList ++ N ++ "(".toList)
          ++ (("double ".toList ++ p ++ " ".toList)
            ++ (ps.map (fun q => ", ".toList ++ ("double ".toList ++ q ++ " ".toList))).flatten)
          ++ ") \x7b\n".toList
      ∧ st1.in_function = true := by
  obtain ⟨hNne, hNc⟩ := hq N (List.mem_cons_self _ _)
  obtain ⟨hpne, hpc⟩ := hq p (by simp)
  obtain ⟨n0, ns, rfl⟩ := List.exists_cons_of_ne_nil hNne
  obtain ⟨p0, pr, rfl⟩ := List.exists_cons_of_ne_nil hpne
  have hPnl : ∀ c ∈ p0 :: pr ++ (ps.map (fun q => ' ' :: q)).flatten, c ≠ '\n' :=
    params_chars (by decide) (fun q hqm c hc => ((hq q (List.mem_cons_of_mem _ hqm)).2 c hc).2.2)
  have hP0 : ∀ c ∈ p0 :: pr ++ (ps.map (fun q => ' ' :: q)).flatten, c ≠ NUL :=
    params_chars (by decide) (fun q hqm c hc => ((hq q (List.mem_cons_of_mem _ hqm)).2 c hc).2.1)
  -- first call: the name
  have htok1 := strtok_some
    (B := "function ".toList
      ++ (n0 :: ns ++ ' ' :: (p0 :: pr ++ ((ps.map (fun q => ' ' :: q)).flatten
        ++ '\n' :: NUL :: t))))
    (a := "function ".toList) (d := []) (c := n0) (s := ns) (e := ' ')
    (r := p0 :: pr ++ ((ps.map (fun q => ' ' :: q)).flatten ++ '\n' :: NUL :: t)) (p := 9)
    (G := [' ']) rfl rfl (by simp)
    (fun x hx => ⟨by simpa using (hNc x hx).1, (hNc x hx).2.1⟩) (Or.inl (by simp))
  rw [if_neg (by decide)] at htok1
  -- second call: the parameters up to the newline
  have htok2 := strtok_some
    (B := "function ".toList ++ ([] ++ (n0 :: ns ++ NUL :: (p0 :: pr
      ++ ((ps.map (fun q => ' ' :: q)).flatten ++ '\n' :: NUL :: t)))))
    (a := "function ".toList ++ (n0 :: ns ++ [NUL])) (d := []) (c := p0)
    (s := pr ++ (ps.map (fun q => ' ' :: q)).flatten) (e := '\n') (r := NUL :: t)
    (p := 9 + ([] : List Char).length + (ns.length + 1) + 1) (G := ['\n'])
    (by simp) (by simp; omega) (by simp)
    (fun x hx => ⟨by simpa using hPnl x hx, hP0 x hx⟩) (Or.inl (by simp))
  rw [if_neg (by decide)] at htok2
  -- third call: the first parameter
  obtain ⟨e, r, her, he1, he2, hr⟩ := sep_cases ps (NUL :: t)
  have htok3 := strtok_some
    (B := "function ".toList ++ (n0 :: ns ++ [NUL]) ++ ([] ++ (p0 :: (pr
      ++ (ps.map (fun q => ' ' :: q)).flatten) ++ NUL :: NUL :: t)))
    (a := "function ".toList ++ (n0 :: ns ++ [NUL])) (d := []) (c := p0) (s := pr) (e := e)
    (r := r) (p := 9 + ([] : List Char).length + (ns.length + 1) + 1 + ([] : List Char).length)
    (G := [' '])
    (by simp [her]) (by simp; omega) (by simp)
    (fun x hx => ⟨by simpa using (hpc x hx).1, (hpc x hx).2.1⟩)
    (by rcases he1 with h | h
        · exact Or.inr h
        · exact Or.inl (by simp [h]))
  have hname : cstr ("function ".toList ++ (n0 :: ns ++ [NUL]) ++ ([] ++ (p0 :: (pr
      ++ (ps.map (fun q => ' ' :: q)).flatten) ++ NUL :: NUL :: t)))
      (9 + ([] : List Char).length) = n0 :: ns :=
    cstr_eq (a := "function ".toList) (s := n0 :: ns)
      (t := p0 :: (pr ++ (ps.map (fun q => ' ' :: q)).flatten) ++ NUL :: NUL :: t) (by simp) rfl
      (fun x hx => (hNc x hx).2.1)
  have hsave : (if e = NUL then 0 else 1) = (if ps = [] then 0 else 1) := by
    by_cases hps : ps = []
    · simp [hps, he2.2 hps]
    · have : e ≠ NUL := fun h => hps (he2.1 h)
      simp [hps, this]
  obtain ⟨st3, hloop, hfile, hinf⟩ := paramLoop_spec ps (p0 :: pr)
    ("function ".toList ++ (n0 :: ns ++ [NUL])) (NUL :: t)
    ((if st.in_function then st.fprintf closeText else st).fprintf
      ("double ".toList ++ (n0 :: ns) ++ "(".toList)) true MAX_LINE_LEN
    (fun q hqm => ⟨(hq q (List.mem_cons_of_mem _ hqm)).1, fun c hc =>
      ⟨((hq q (List.mem_cons_of_mem _ hqm)).2 c hc).1,
        ((hq q (List.mem_cons_of_mem _ hqm)).2 c hc).2.1⟩⟩)
    (by
      have h : st.identifiers.length + ps.length + 1 ≤ 50 := hcap
      show ps.length + 1 ≤ 256
      omega)
    (by
      have : ((if st.in_function then st.fprintf closeText else st).fprintf
          ("double ".toList ++ (n0 :: ns) ++ "(".toList)).identifiers = st.identifiers := by
        split <;> rfl
      rw [this]; exact hcap)
  have hbuf3 : "function ".toList ++ (n0 :: ns ++ [NUL]) ++ ([] ++ (p0 :: pr ++ NUL :: r))
      = "function ".toList ++ (n0 :: ns ++ [NUL])
        ++ (p0 :: pr ++ NUL :: ((ps.map (fun q => ' ' :: q)).flatten ++ NUL :: NUL :: t).tail) := by
    rw [hr]; simp
  have hoff3 : 9 + ([] : List Char).length + (ns.length + 1) + 1 + ([] : List Char).length
      + ([] : List Char).length = ("function ".toList ++ (n0 :: ns ++ [NUL])).length := by
    simp; omega
  have hsave3 : 9 + ([] : List Char).length + (ns.length + 1) + 1 + ([] : List Char).length
        + ([] : List Char).length + (pr.length + 1) + (if e = NUL then 0 else 1)
      = ("function ".toList ++ (n0 :: ns ++ [NUL])).length + (p0 :: pr).length
        + (if ps = [] then 0 else 1) := by
    rw [hsave]; simp; omega
  rw [hbuf3, hsave3, hoff3] at htok3
  unfold headerLine
  simp only [htok1, htok2, htok3, hname, hloop]
  refine ⟨_, rfl, ?_, rfl⟩
  simp only [State.fprintf, hfile]
  split <;> simp

/-- The second pass on the chunk of a header `function N p1 ... pn`. -/
theorem secondPassLine_header (st : State) (N p : List Char) (ps : List (List Char))
    (hq : ∀ q ∈ N :: p :: ps, q ≠ [] ∧ ∀ c ∈ q, c ≠ ' ' ∧ c ≠ NUL ∧ c ≠ '\n' ∧ c ≠ '#')
    (hcap : st.identifiers.length + ps.length + 1 ≤ MAX_IDENTIFIERS) :
    ∃ st1, secondPassLine st
        ("function".toList ++ ((N :: p :: ps).map (fun q => ' ' :: q)).flatten ++ ['\n'])
        = .ok st1
      ∧ st1.c_file = st.c_file ++ (if st.in_function then closeText else [])
          ++ ("double ".toList ++ N ++ "(".toList)
          ++ (("double ".toList ++ p ++ " ".toList)
            ++ (ps.map (fun q => ", ".toList ++ ("double ".toList ++ q ++ " ".toList))).flatten)
          ++ ") \x7b\n".toList
      ∧ st1.in_function = true := by
  have hall : ∀ c ∈ "function".toList ++ ((N :: p :: ps).map (fun q => ' ' :: q)).flatten
      ++ ['\n'], c ≠ NUL ∧ c ≠ '#' := by
    intro c hc
    simp only [List.mem_append, List.mem_singleton] at hc
    rcases hc with (h | h) | h
    · have hd : ∀ y ∈ "function".toList, y ≠ NUL ∧ y ≠ '#' := by decide
      exact hd c h
    · obtain ⟨l, hl, hcl⟩ := List.mem_flatten.1 h
      obtain ⟨q, hqm, rfl⟩ := List.mem_map.1 hl
      rcases List.mem_cons.1 hcl with h1 | h1
      · rw [h1]; decide
      · exact ⟨((hq q hqm).2 c h1).2.1, ((hq q hqm).2 c h1).2.2.2⟩
    · rw [h]; decide
  obtain ⟨t, hbuf⟩ := stripComment_fgetsStore st.line
    ("function".toList ++ ((N :: p :: ps).map (fun q => ' ' :: q)).flatten ++ ['\n'])
  rw [visible_all hall] at hbuf
  have hform : "function".toList ++ ((N :: p :: ps).map (fun q => ' ' :: q)).flatten ++ ['\n']
        ++ NUL :: t
      = "function ".toList
        ++ (N ++ ' ' :: (p ++ ((ps.map (fun q => ' ' :: q)).flatten ++ '\n' :: NUL :: t))) := by
    simp
  rw [hform] at hbuf
  have hs0 : ∀ c ∈ "function".toList ++ ((N :: p :: ps).map (fun q => ' ' :: q)).flatten
      ++ ['\n'], c ≠ NUL := fun c hc => (hall c hc).1
  have hlen : strlen ("function ".toList
      ++ (N ++ ' ' :: (p ++ ((ps.map (fun q => ' ' :: q)).flatten ++ '\n' :: NUL :: t)))) 0
      ≠ 0 := by
    unfold strlen; rw [← hform, cstr_zero hs0]; simp
  have hc0 : charAt ("function ".toList
      ++ (N ++ ' ' :: (p ++ ((ps.map (fun q => ' ' :: q)).flatten ++ '\n' :: NUL :: t)))) 0
      = 'f' := rfl
  have hfn : strncmpEq ("function ".toList
      ++ (N ++ ' ' :: (p ++ ((ps.map (fun q => ' ' :: q)).flatten ++ '\n' :: NUL :: t)))) 0
      "function".toList = true := by
    rw [strncmpEq_iff _ hform.symm hs0]
    exact ⟨_, by rw [List.append_assoc]⟩
  obtain ⟨st1, h1, h2, h3⟩ := headerLine_spec
    { st with line := "function ".toList
      ++ (N ++ ' ' :: (p ++ ((ps.map (fun q => ' ' :: q)).flatten ++ '\n' :: NUL :: t))) }
    N p t ps
    (fun q hqm => ⟨(hq q hqm).1, fun c hc =>
      ⟨((hq q hqm).2 c hc).1, ((hq q hqm).2 c hc).2.1, ((hq q hqm).2 c hc).2.2.1⟩⟩) hcap
  refine ⟨st1, ?_, h2, h3⟩
  unfold secondPassLine
  simp only [hbuf, hlen, hc0, hfn, false_or, if_true]
  rw [if_neg (by decide)]
  exact h1

/-! ## Lemmas on print and return statements in a function body -/

theorem trailing_split (q : Char → Bool) (D : List Char) :
    ∃ core w, D = core ++ w ∧ (∀ x ∈ w, q x = true)
      ∧ (∀ h : core ≠ [], q (core.getLast h) = false)
      ∧ core = (D.reverse.dropWhile q).reverse := by
  refine ⟨(D.reverse.dropWhile q).reverse, (D.reverse.takeWhile q).reverse, ?_, ?_, ?_, rfl⟩
  · rw [← List.reverse_append, List.takeWhile_append_dropWhile, List.reverse_reverse]
  · intro x hx
    exact List.mem_takeWhile_imp (List.mem_reverse.1 hx)
  · intro h
    have hne : D.reverse.dropWhile q ≠ [] := fun h0 => h (by rw [h0]; rfl)
    rw [List.getLast_reverse]
    have := List.head_dropWhile_not q D.reverse hne
    simpa using this

/-- The statements that skip the leading blanks and trim the end of the string `E` at `p`
leave `E` trimmed. -/
theorem trim_spec {buf a E t : List Char} {p : Nat} (hb : buf = a ++ (E ++ NUL :: t))
    (hp : p = a.length) (hE : ∀ c ∈ E, c ≠ NUL ∧ c ≠ '\n') :
    cstr (trimEnd isSpaceNl buf (skipBlanks buf p)) (skipBlanks buf p) = trimmed E := by
  have hsplit := List.takeWhile_append_dropWhile isBlank E
  generalize hw : E.takeWhile isBlank = ws1 at hsplit
  have hws1 : ∀ c ∈ ws1, c = ' ' ∨ c = '\t' := by
    intro c hc
    rw [← hw] at hc
    simpa [isBlank] using List.mem_takeWhile_imp hc
  unfold trimmed
  cases hD : E.dropWhile isBlank with
  | nil =>
    rw [hD] at hsplit
    have hE1 : E = ws1 := by simpa using hsplit.symm
    have hskip : skipBlanks buf p = p + ws1.length :=
      skipBlanks_eq (c := NUL) (t := t) (by rw [hb, hE1]) hp hws1 (by decide)
    have hcs : cstr buf (p + ws1.length) = [] :=
      cstr_eq (a := a ++ ws1) (s := []) (t := t) (by rw [hb, hE1]; simp) (by simp [hp])
        (by simp)
    rw [hskip]
    unfold trimEnd strlen
    rw [hcs]
    simp only [List.length_nil, trimBack, Nat.add_zero]
    rw [set_eq (a := a ++ ws1) (c := NUL) (t := t) (by rw [hb, hE1]; simp) (by simp [hp])]
    exact cstr_eq (a := a ++ ws1) (s := []) (t := t) (by simp) (by simp [hp]) (by simp)
  | cons d D =>
    rw [hD] at hsplit
    have hd : isBlank d = false := by
      have := List.head_dropWhile_not isBlank E (by rw [hD]; simp)
      simpa [hD] using this
    have hdm : d ∈ E := by rw [← hsplit]; simp
    have hdws : isSpaceNl d = false := by
      have h1 : d ≠ '\n' := (hE d hdm).2
      simp only [isBlank, decide_eq_false_iff_not, not_or] at hd
      simp [isSpaceNl, hd.1, hd.2, h1]
    obtain ⟨core, w, hcw, hwq, hlast, hcore⟩ := trailing_split isSpaceNl (d :: D)
    have hcne : core ≠ [] := by
      intro h0
      rw [h0] at hcw
      have hw2 : w = d :: D := by simpa using hcw.symm
      have : isSpaceNl d = true := hwq d (by rw [hw2]; simp)
      rw [hdws] at this
      cases this
    have hhead : core.head hcne = d := by
      cases core with
      | nil => exact absurd rfl hcne
      | cons c0 cr =>
        have := congrArg List.head? hcw
        simp at this
        simp [this]
    have hcm : ∀ c ∈ core, c ∈ E := by
      intro c hc
      rw [← hsplit, hcw]
      simp [hc]
    have hwm : ∀ c ∈ w, c ∈ E := by
      intro c hc
      rw [← hsplit, hcw]
      simp [hc]
    obtain ⟨hskip, w1, htrim⟩ := assignment_expr (B := buf) (a := a) (V := ws1)
      (X := core) (w := w) (t := t) (p := p) hcne
      (by rw [hb, ← hsplit, hcw]; simp) hp hws1 (fun c hc => (hE c (hcm c hc)).1)
      (by rw [hhead]; exact hd) (hlast hcne)
      (fun x hx => ⟨hwq x hx, (hE x (hwm x hx)).1⟩)
    rw [hskip, htrim, ← hcore]
    exact cstr_eq (a := a ++ ws1) (s := core) (t := w1 ++ t) (by simp) (by simp [hp])
      (fun c hc => (hE c (hcm c hc)).1)

theorem strncmpEq_at {buf a s t : List Char} {p : Nat} (lit : List Char)
    (hb : buf = a ++ (s ++ NUL :: t)) (hp : p = a.length) (hs : ∀ x ∈ s, x ≠ NUL) :
    strncmpEq buf p lit = true ↔ lit <+: s := by
  unfold strncmpEq
  rw [cstr_eq hb hp hs, decide_eq_true_iff, List.prefix_iff_eq_take]
  exact eq_comm

/-- The expression of a print or return statement `kw E` in a function body: the text after
the first space, cut at the newline and trimmed. -/
theorem bodyExpr_spec {B a K E O t : List Char}
    (hb : B = a ++ (K ++ ' ' :: (E ++ (O ++ NUL :: t))))
    (hkw : ∀ c ∈ K, c ≠ ' ' ∧ c ≠ NUL) (hE : ∀ c ∈ E, c ≠ NUL ∧ c ≠ '\n')
    (heol : O = ['\n'] ∨ O = []) :
    ∃ buf2 e, bodyExpr B a.length = some (buf2, e) ∧ cstr buf2 e = trimmed E := by
  have hsp : strchr B a.length ' ' = some (a.length + K.length) :=
    strchr_some (s := K) (c := ' ') (r := E ++ O) (t := t) (by rw [hb]; simp) rfl
      (fun x hx => (hkw x hx).2)
      (by
        intro x hx
        rcases List.mem_append.1 hx with h | h
        · exact (hE x h).1
        · rcases heol with h1 | h1
          · subst h1
            have : x = '\n' := by simpa using h
            subst this; decide
          · subst h1; simp at h)
      (by decide) (fun h => (hkw _ h).1 rfl)
  have hnl : ∃ t1, (match strchr B (a.length + K.length + 1) '\n' with
      | some newline => B.set newline NUL
      | none => B) = (a ++ (K ++ [' '])) ++ (E ++ NUL :: t1) := by
    rcases heol with h1 | h1
    · subst h1
      have : strchr B (a.length + K.length + 1) '\n'
          = some (a.length + K.length + 1 + E.length) :=
        strchr_some (a := a ++ (K ++ [' '])) (s := E) (c := '\n') (r := []) (t := t)
          (by rw [hb]; simp) (by simp; omega) (fun x hx => (hE x hx).1) (by simp) (by decide)
          (fun h => (hE _ h).2 rfl)
      rw [this]
      refine ⟨NUL :: t, ?_⟩
      simp only []
      rw [set_eq (a := a ++ (K ++ [' ']) ++ E) (c := '\n') (t := NUL :: t) (by rw [hb]; simp)
        (by simp; omega)]
      simp
    · subst h1
      have : strchr B (a.length + K.length + 1) '\n' = none :=
        strchr_none (a := a ++ (K ++ [' '])) (s := E) (t := t) (by rw [hb]; simp)
          (by simp; omega) (fun x hx => (hE x hx).1) (fun h => (hE _ h).2 rfl)
      rw [this]
      exact ⟨t, by rw [hb]; simp⟩
  obtain ⟨t1, hbuf1⟩ := hnl
  unfold bodyExpr
  simp only [hsp, hbuf1]
  exact ⟨_, _, rfl, trim_spec rfl (by simp; omega) hE⟩

theorem fileChunks_lines (ls : List (List Char)) (tail : List Char)
    (h : ∀ l ∈ ls, (∀ c ∈ l, c ≠ '\n') ∧ (l ++ ['\n']).length < MAX_LINE_LEN) :
    fileChunks ((ls.map (fun l => l ++ ['\n'])).flatten ++ tail)
      = ls.map (fun l => l ++ ['\n']) ++ fileChunks tail := by
  induction ls with
  | nil => rfl
  | cons l ls ih =>
    obtain ⟨hl, hlen⟩ := h l (List.mem_cons_self _ _)
    have hlen1 : (l ++ ['\n']).length < 256 := hlen
    have e : ((l :: ls).map (fun l => l ++ ['\n'])).flatten ++ tail
        = l ++ '\n' :: ((ls.map (fun l => l ++ ['\n'])).flatten ++ tail) := by
      simp
    rw [e, fileChunks_cons_line _ hl (by simp at hlen1 ⊢; omega),
      ih (fun l1 h1 => h l1 (List.mem_cons_of_mem _ h1))]
    rfl

theorem fileChunks_print_lines (Es : List (List Char)) (tail : List Char)
    (hEs : ∀ E ∈ Es, (∀ c ∈ E, c ≠ '\n' ∧ c ≠ NUL ∧ c ≠ '#')
      ∧ ("print ".toList ++ E ++ ['\n']).length < MAX_LINE_LEN) :
    fileChunks ((Es.map (fun E => "print ".toList ++ E ++ ['\n'])).flatten ++ tail)
      = Es.map (fun E => "print ".toList ++ E ++ ['\n']) ++ fileChunks tail := by
  induction Es with
  | nil => rfl
  | cons E Es ih =>
    obtain ⟨hE, hlen⟩ := hEs E (List.mem_cons_self _ _)
    have hlen1 : ("print ".toList ++ E ++ ['\n']).length < 256 := hlen
    have e : ((E :: Es).map (fun E => "print ".toList ++ E ++ ['\n'])).flatten ++ tail
        = ("print ".toList ++ E)
          ++ '\n' :: ((Es.map (fun E => "print ".toList ++ E ++ ['\n'])).flatten ++ tail) := by
      simp
    rw [e, fileChunks_cons_line (l := "print ".toList ++ E) _
      (by
        intro c hc
        rcases List.mem_append.1 hc with h | h
        · have hd : ∀ y ∈ "print ".toList, y ≠ '\n' := by decide
          exact hd c h
        · exact (hE c h).1)
      (by simp at hlen1 ⊢; omega),
      ih (fun E1 h1 => hEs E1 (List.mem_cons_of_mem _ h1))]
    rfl

/-! ## Identifier validation -/

/-- C1. `is_valid_identifier` is exactly the naming rule: it returns true if and only if the
string has at most 12 characters and none of them lies in `A..Z`. -/
theorem is_valid_identifier_iff (s : List Char) :
    is_valid_identifier s = true ↔ s.length ≤ 12 ∧ ∀ c ∈ s, ¬ ('A' ≤ c ∧ c ≤ 'Z') :=
  is_valid_identifier_spec s

/-! ## Global assignments in the declarations pass -/

/-- C2. A top-level line `NAME <- EXPR` (optional blanks around the marker, shorter than the
line buffer, no `#`, not beginning with `function`, `NAME` a valid identifier of lowercase
letters, digits and underscores, `EXPR` non-empty without surrounding whitespace) is read by
one call of `fgets`, and the first pass then writes exactly `double NAME = EXPR;` and a
newline, in every state in which the registry has room.  The line ends with a newline, or
is the last line of the file. -/
theorem global_assignment_declaration (st : State) (name ws1 ws2 expr eol rest : List Char)
    (hname : name ≠ [])
    (hchars : ∀ c ∈ name, c.isLower = true ∨ c.isDigit = true ∨ c = '_')
    (hvalid : is_valid_identifier name = true)
    (hws1 : ∀ c ∈ ws1, c = ' ' ∨ c = '\t') (hws2 : ∀ c ∈ ws2, c = ' ' ∨ c = '\t')
    (hexpr : expr ≠ [])
    (hechars : ∀ c ∈ expr, c ≠ '#' ∧ c ≠ '\n' ∧ c ≠ NUL)
    (hhead : isSpaceNl (expr.head hexpr) = false)
    (hlast : isSpaceNl (expr.getLast hexpr) = false)
    (heol : eol = ['\n'] ∨ (eol = [] ∧ rest = []))
    (hfun : ¬ "function".toList <+: name ++ ws1 ++ "<-".toList ++ ws2 ++ expr ++ eol)
    (hlen : (name ++ ws1 ++ "<-".toList ++ ws2 ++ expr ++ eol).length < MAX_LINE_LEN)
    (hcap : st.identifiers.length < MAX_IDENTIFIERS) :
    fgetsChunk (MAX_LINE_LEN - 1) (name ++ ws1 ++ "<-".toList ++ ws2 ++ expr ++ eol ++ rest)
        = name ++ ws1 ++ "<-".toList ++ ws2 ++ expr ++ eol
      ∧ ∃ st1, firstPassLine st (name ++ ws1 ++ "<-".toList ++ ws2 ++ expr ++ eol) = .ok st1
        ∧ st1.c_file
          = st.c_file ++ ("double ".toList ++ name ++ " = ".toList ++ expr ++ ";\n".toList) := by
  have hm : "<-".toList = ['<', '-'] := rfl
  rw [hm] at hfun hlen ⊢
  have hlen1 : (name ++ ws1 ++ ['<', '-'] ++ ws2 ++ expr ++ eol).length < 256 := hlen
  have hnc : ∀ c ∈ name, ∀ x : Char, ¬ (x.isLower = true ∨ x.isDigit = true ∨ x = '_') → c ≠ x :=
    fun c hc x hx e => hx (e ▸ hchars c hc)
  have hws_ne : ∀ ws : List Char, (∀ c ∈ ws, c = ' ' ∨ c = '\t') →
      ∀ c ∈ ws, c ≠ NUL ∧ c ≠ '#' ∧ c ≠ '\n' := by
    intro ws h c hc
    rcases h c hc with h | h <;> subst h <;> decide
  have hbody_nl : ∀ c ∈ name ++ ws1 ++ ['<', '-'] ++ ws2 ++ expr, c ≠ '\n' ∧ c ≠ NUL ∧ c ≠ '#' := by
    intro c hc
    simp only [List.mem_append, List.mem_cons, List.mem_singleton, List.not_mem_nil,
      or_false] at hc
    rcases hc with (((h | h) | h | h) | h) | h
    · exact ⟨hnc c h _ (by decide), hnc c h _ (by decide), hnc c h _ (by decide)⟩
    · exact ⟨(hws_ne ws1 hws1 c h).2.2, (hws_ne ws1 hws1 c h).1, (hws_ne ws1 hws1 c h).2.1⟩
    · subst h; decide
    · subst h; decide
    · exact ⟨(hws_ne ws2 hws2 c h).2.2, (hws_ne ws2 hws2 c h).1, (hws_ne ws2 hws2 c h).2.1⟩
    · exact ⟨(hechars c h).2.1, (hechars c h).2.2, (hechars c h).1⟩
  have heolw : ∀ x ∈ eol, isSpaceNl x = true ∧ x ≠ NUL := by
    intro x hx
    rcases heol with h | ⟨h, _⟩
    · subst h
      have : x = '\n' := by simpa using hx
      subst this; decide
    · subst h; simp at hx
  constructor
  · rcases heol with h | ⟨h, hr⟩
    · subst h
      rw [List.append_assoc _ ['\n'] rest]
      exact fgetsChunk_line rest (fun c hc => (hbody_nl c hc).1)
        (by simp at hlen1 ⊢; omega)
    · subst h hr
      simp only [List.append_nil]
      exact fgetsChunk_last (fun c hc => (hbody_nl c hc).1) (by simp at hlen1 ⊢; omega)
  · obtain ⟨t, hbuf⟩ := stripComment_fgetsStore st.line
      (name ++ ws1 ++ ['<', '-'] ++ ws2 ++ expr ++ eol)
    have hvis : (name ++ ws1 ++ ['<', '-'] ++ ws2 ++ expr ++ eol).takeWhile
        (fun c => c ≠ NUL ∧ c ≠ '#') = name ++ ws1 ++ ['<', '-'] ++ ws2 ++ expr ++ eol := by
      apply visible_all
      intro c hc
      rcases List.mem_append.1 hc with h | h
      · exact ⟨(hbody_nl c h).2.1, (hbody_nl c h).2.2⟩
      · rcases heol with h1 | ⟨h1, _⟩
        · subst h1
          have : c = '\n' := by simpa using h
          subst this; decide
        · subst h1; simp at h
    rw [hvis] at hbuf
    have hheadn : ∀ x : Char, ¬ (x.isLower = true ∨ x.isDigit = true ∨ x = '_') →
        name.head hname ≠ x := fun x hx => hnc _ (List.head_mem hname) x hx
    have hlastn : ∀ x : Char, ¬ (x.isLower = true ∨ x.isDigit = true ∨ x = '_') →
        name.getLast hname ≠ x := fun x hx => hnc _ (List.getLast_mem hname) x hx
    obtain ⟨w1, hw1, hstep⟩ := firstPassLine_assignment st
      (name ++ ws1 ++ ['<', '-'] ++ ws2 ++ expr ++ eol) name ws1 (ws2 ++ expr ++ eol) t
      (by rw [hbuf]; simp) hname
      (fun c hc => ⟨hnc c hc _ (by decide), hnc c hc _ (by decide), hnc c hc _ (by decide)⟩)
      (by simp [isBlank, hheadn ' ' (by decide), hheadn '\t' (by decide)])
      (by simp [isBlank, hlastn ' ' (by decide), hlastn '\t' (by decide)])
      (hheadn '\n' (by decide)) hws1
      (by
        intro c hc
        simp only [List.mem_append] at hc
        rcases hc with (h | h) | h
        · exact (hws_ne ws2 hws2 c h).1
        · exact (hechars c h).2.2
        · exact (heolw c h).2)
      (by simpa using hfun)
    rw [hvalid, add_identifier_ok _ hcap] at hstep
    simp only [Bool.not_true, Bool.false_eq_true, if_false] at hstep
    have hehead : isBlank (expr.head hexpr) = false := by
      simp only [isSpaceNl, isBlank] at hhead ⊢
      simp only [decide_eq_false_iff_not, not_or] at hhead ⊢
      exact ⟨hhead.1, hhead.2.1⟩
    obtain ⟨hskip, w2, htrim⟩ := assignment_expr (B := name ++ NUL :: (w1 ++ '-' :: (ws2 ++ expr ++ eol ++ NUL :: t)))
      (a := name ++ NUL :: (w1 ++ ['-'])) (V := ws2) (X := expr) (w := eol) (t := t)
      (p := name.length + ws1.length + 2) hexpr (by simp) (by simp [hw1]; omega) hws2
      (fun c hc => (hechars c hc).2.2) hehead hlast heolw
    rw [hskip, htrim] at hstep
    refine ⟨_, hstep, ?_⟩
    have hc1 : cstr (name ++ NUL :: (w1 ++ ['-']) ++ (ws2 ++ (expr ++ NUL :: (w2 ++ t)))) 0
        = name :=
      cstr_eq (a := []) (s := name) (t := (w1 ++ ['-']) ++ (ws2 ++ (expr ++ NUL :: (w2 ++ t))))
        (by simp) rfl (fun c hc => hnc c hc _ (by decide))
    have hc2 : cstr (name ++ NUL :: (w1 ++ ['-']) ++ (ws2 ++ (expr ++ NUL :: (w2 ++ t))))
        (name.length + ws1.length + 2 + ws2.length) = expr :=
      cstr_eq (a := name ++ NUL :: (w1 ++ ['-']) ++ ws2) (s := expr) (t := w2 ++ t)
        (by simp) (by simp [hw1]; omega) (fun c hc => (hechars c hc).2.2)
    simp only [hc1, hc2]

/-- C2, witness: the line `x <- 3.5` yields `double x = 3.5;`. -/
theorem global_assignment_declaration_witness :
    fgetsChunk (MAX_LINE_LEN - 1) "x <- 3.5\n".toList = "x <- 3.5\n".toList
      ∧ ∃ st1, firstPassLine ⟨[], preamble, [], false⟩ "x <- 3.5\n".toList = .ok st1
        ∧ st1.c_file = preamble ++ "double x = 3.5;\n".toList :=
  global_assignment_declaration ⟨[], preamble, [], false⟩ "x".toList [' '] [' '] "3.5".toList
    ['\n'] [] (by decide) (by decide) (by decide) (by decide) (by decide) (by decide)
    (by decide) (by decide) (by decide) (by decide) (by decide) (by decide) (by decide)

/-! ## Evaluations of the translator on the lines of the claims -/

/-- C3. On the line `a-b <- 3` the name that is validated and declared is `a`, not all of the
text before the marker: the output is `double a = 3;`, at top level and in a function body. -/
theorem assignment_name_stops_at_first_marker_char :
    translate [] "a-b <- 3\n".toList
        = .ok (preamble ++ "double a = 3;\n".toList ++ "\n".toList ++ mainOpen ++ mainClose)
      ∧ translate [] "function f x\n\ta-b <- 3\n".toList
        = .ok (preamble ++ "\n".toList ++ "double f(double x ) \x7b\n".toList
          ++ "double a = 3;\n".toList ++ closeText ++ mainOpen ++ mainClose) :=
  ⟨rfl, rfl⟩

/-! ## Programs of top-level print lines -/

/-- C5, counterexample. The program of the single top-level line `print 2 < 3 - 1` is not
translated: the line holds a `<` and a `-`, and the first pass stops with the
invalid-assignment error. -/
theorem print_only_program_fails :
    translate [] "print 2 < 3 - 1\n".toList = .error .invalidAssignment :=
  rfl

/-- C5, as amended. A program that consists only of top-level lines `print E1`, ...,
`print En` (no `#`, each line within the line buffer, the last one with or without its
newline), in which no `Ei` holds both a `<` and a `-`, is translated; the output is the
preamble, the empty declarations section, no function definition, and an entry point made
of the n print blocks in source order, each with the text of its line after `print `,
followed by the success return. -/
theorem print_only_program (line0 : List Char) (Es : List (List Char))
    (last : Option (List Char))
    (hEs : ∀ E ∈ Es, (∀ c ∈ E, c ≠ '\n' ∧ c ≠ NUL ∧ c ≠ '#') ∧ ¬ ('<' ∈ E ∧ '-' ∈ E)
      ∧ ("print ".toList ++ E ++ ['\n']).length < MAX_LINE_LEN)
    (hlast : ∀ E ∈ last, (∀ c ∈ E, c ≠ '\n' ∧ c ≠ NUL ∧ c ≠ '#') ∧ ¬ ('<' ∈ E ∧ '-' ∈ E)
      ∧ ("print ".toList ++ E).length < MAX_LINE_LEN) :
    translate line0 ((Es.map (fun E => "print ".toList ++ E ++ ['\n'])).flatten
        ++ last.elim [] (fun E => "print ".toList ++ E))
      = .ok (preamble ++ "\n".toList ++ mainOpen
        ++ ((Es.map (fun E => printBlockMain (E ++ ['\n']))).flatten
          ++ last.elim [] printBlockMain)
        ++ mainClose) := by
  have hchunks : fileChunks ((Es.map (fun E => "print ".toList ++ E ++ ['\n'])).flatten
      ++ last.elim [] (fun E => "print ".toList ++ E))
      = Es.map (fun E => "print ".toList ++ E ++ ['\n'])
        ++ (last.toList.map (fun E => "print ".toList ++ E ++ [])) := by
    rw [fileChunks_print_lines Es _ (fun E hE => ⟨(hEs E hE).1, (hEs E hE).2.2⟩)]
    congr 1
    cases last with
    | none => rfl
    | some E =>
      obtain ⟨hE, _, hlen⟩ := hlast E rfl
      have hlen1 : ("print ".toList ++ E).length < 256 := hlen
      simp only [Option.elim, Option.toList, List.map_cons, List.map_nil, List.append_nil]
      exact fileChunks_last (by simp)
        (by
          intro c hc
          rcases List.mem_append.1 hc with h | h
          · have hd : ∀ y ∈ "print ".toList, y ≠ '\n' := by decide
            exact hd c h
          · exact (hE c h).1)
        (by simp at hlen1 ⊢; omega)
  have hshape : ∀ ch ∈ Es.map (fun E => "print ".toList ++ E ++ ['\n'])
      ++ (last.toList.map (fun E => "print ".toList ++ E ++ [])),
      ∃ E eol, ch = "print ".toList ++ E ++ eol ∧ (∀ c ∈ E, c ≠ '\n' ∧ c ≠ NUL ∧ c ≠ '#')
        ∧ ¬ ('<' ∈ E ∧ '-' ∈ E) ∧ (eol = ['\n'] ∨ eol = []) := by
    intro ch hch
    rcases List.mem_append.1 hch with h | h
    · obtain ⟨E, hE, rfl⟩ := List.mem_map.1 h
      exact ⟨E, ['\n'], rfl, (hEs E hE).1, (hEs E hE).2.1, Or.inl rfl⟩
    · obtain ⟨E, hE, rfl⟩ := List.mem_map.1 h
      have hE1 : E ∈ last := by simpa using hE
      exact ⟨E, [], rfl, (hlast E hE1).1, (hlast E hE1).2.1, Or.inr rfl⟩
  have hblocks : ((Es.map (fun E => "print ".toList ++ E ++ ['\n'])
      ++ (last.toList.map (fun E => "print ".toList ++ E ++ []))).map
        (fun ch : List Char => printBlockMain (ch.drop 6))).flatten
      = (Es.map (fun E => printBlockMain (E ++ ['\n']))).flatten
        ++ last.elim [] printBlockMain := by
    rw [List.map_append, List.flatten_append, List.map_map, List.map_map]
    congr 1
    cases last with
    | none => rfl
    | some E =>
      simp only [Option.toList, List.map_cons, List.map_nil, List.flatten_cons,
        List.flatten_nil, List.append_nil, Function.comp, Option.elim]
      rfl
  generalize Es.map (fun E => "print ".toList ++ E ++ ['\n'])
      ++ (last.toList.map (fun E => "print ".toList ++ E ++ [])) = chunks
    at hchunks hshape hblocks
  have hnil : (chunks.map (fun _ : List Char => ([] : List Char))).flatten = [] := by
    induction chunks with
    | nil => rfl
    | cons c cs ih => simp
  obtain ⟨b1, h1⟩ := forChunks_emit firstPassLine (fun _ => []) chunks
    (by
      intro ch hch st
      obtain ⟨E, eol, rfl, hE, hm, heol⟩ := hshape ch hch
      exact firstPassLine_print st E eol hE heol hm) ⟨[], preamble, line0, false⟩
  obtain ⟨b2, h2⟩ := forChunks_emit secondPassLine (fun _ => []) chunks
    (by
      intro ch hch st
      obtain ⟨E, eol, rfl, hE, hm, heol⟩ := hshape ch hch
      exact secondPassLine_print st E eol hE heol)
    ⟨[], preamble ++ "\n".toList, if chunks = [] then line0 else b1, false⟩
  obtain ⟨b3, h3⟩ := forChunks_emit thirdPassLine (fun ch => printBlockMain (ch.drop 6)) chunks
    (by
      intro ch hch st
      obtain ⟨E, eol, rfl, hE, hm, heol⟩ := hshape ch hch
      exact thirdPassLine_print st E eol hE heol)
    ⟨[], preamble ++ "\n".toList ++ mainOpen,
      if chunks = [] then (if chunks = [] then line0 else b1) else b2, false⟩
  simp only [hnil, List.append_nil] at h1 h2
  simp only [translate, generate_c_code, firstPass, secondPass, thirdPass, hchunks, h1, h2,
    State.fprintf, Bool.false_eq_true, if_false, h3, hblocks]

/-- C5, witness: three print lines, the last one without a newline. -/
theorem print_only_program_witness :
    translate [] "print 1\nprint 2 < 3\nprint 4 - 1".toList
      = .ok (preamble ++ "\n".toList ++ mainOpen
        ++ (printBlockMain "1\n".toList ++ printBlockMain "2 < 3\n".toList
          ++ printBlockMain "4 - 1".toList)
        ++ mainClose) :=
  print_only_program [] ["1".toList, "2 < 3".toList] (some "4 - 1".toList)
    (by decide) (by decide)

/-- C6. The top-level line `x <- f(2)` contributes a global declaration and also a statement
in `main`: the third pass emits the line as a call. -/
theorem global_assignment_repeated_in_main :
    translate [] "x <- f(2)\n".toList
      = .ok (preamble ++ "double x = f(2);\n".toList ++ "\n".toList ++ mainOpen
        ++ "    x <- f(2);\n".toList ++ mainClose) :=
  rfl

/-- C7. For `print<TAB>x + 1` the expression text starts after the first space of the line:
it is `+ 1` in a function body, and `+ 1` with the newline of the line at top level; for
`print x + 1` at top level the expression text keeps the newline. -/
theorem print_expression_after_first_space :
    translate [] "function f a\n\tprint\tx + 1\n".toList
        = .ok (preamble ++ "\n".toList ++ "double f(double a ) \x7b\n".toList
          ++ printBlockFn "+ 1".toList ++ closeText ++ mainOpen ++ mainClose)
      ∧ translate [] "print\tx + 1\n".toList
        = .ok (preamble ++ "\n".toList ++ mainOpen ++ printBlockMain "+ 1\n".toList
          ++ mainClose)
      ∧ translate [] "print x + 1\n".toList
        = .ok (preamble ++ "\n".toList ++ mainOpen ++ printBlockMain "x + 1\n".toList
          ++ mainClose) :=
  ⟨rfl, rfl, rfl⟩

/-- C8. A header whose 12-character lowercase name is the last token of a line that ends
with a newline fails with the invalid-function-name error: the token validated is the name
with the newline, 13 characters.  With a parameter after it the same name is accepted. -/
theorem function_name_last_on_line_rejected :
    translate [] "function abcdefghijkl\n".toList
        = .error (.invalidFunctionName "abcdefghijkl\n".toList)
      ∧ translate [] "function abcdefghijkl a\n".toList
        = .ok (preamble ++ "\n".toList ++ "double abcdefghijkl(double a ) \x7b\n".toList
          ++ closeText ++ mainOpen ++ mainClose) :=
  ⟨rfl, rfl⟩

/-! ## Invalid names are fatal -/

/-- C10. The header `function f ABC` is translated without failure and leaves the name `ABC`,
which is not a valid identifier, in the registry: parameters are registered unvalidated. -/
theorem parameter_registered_unvalidated :
    (generate_c_code [] [] "function f ABC\n".toList).map (fun st => st.identifiers)
        = .ok ["f".toList, "ABC".toList]
      ∧ is_valid_identifier "ABC".toList = false
      ∧ (generate_c_code [] [] "function f abcdefghijklm\n".toList).map
          (fun st => st.identifiers) = .ok ["f".toList, "abcdefghijklm".toList] :=
  ⟨rfl, rfl, rfl⟩

/-! ## Lemmas on the identifier registry -/

theorem identifier_exists_iff (ids : List (List Char)) (id : List Char) :
    identifier_exists ids id = true ↔ id ∈ ids := by
  unfold identifier_exists
  rw [List.any_eq_true]
  constructor
  · rintro ⟨x, hx, h⟩
    have : x = id := by simpa using h
    exact this ▸ hx
  · intro h
    exact ⟨id, h, by simp⟩

theorem add_identifier_cases (ids : List (List Char)) (id : List Char) :
    (MAX_IDENTIFIERS ≤ ids.length ∧ add_identifier ids id = .error .tooManyIdentifiers)
      ∨ (ids.length < MAX_IDENTIFIERS ∧ id ∈ ids ∧ add_identifier ids id = .ok ids)
      ∨ (ids.length < MAX_IDENTIFIERS ∧ id ∉ ids ∧ add_identifier ids id = .ok (ids ++ [id])) := by
  unfold add_identifier
  by_cases h : ids.length ≥ MAX_IDENTIFIERS
  · exact Or.inl ⟨h, by rw [if_pos h]⟩
  · have hlt : ids.length < MAX_IDENTIFIERS := by omega
    rw [if_neg h]
    by_cases hm : id ∈ ids
    · right; left
      refine ⟨hlt, hm, ?_⟩
      rw [(identifier_exists_iff ids id).2 hm]
      rfl
    · right; right
      refine ⟨hlt, hm, ?_⟩
      have : identifier_exists ids id = false := by
        rw [Bool.eq_false_iff]
        exact fun h => hm ((identifier_exists_iff ids id).1 h)
      rw [this]
      rfl

theorem add_identifier_ok_spec {ids ids1 : List (List Char)} {id : List Char}
    (h : add_identifier ids id = .ok ids1) :
    ids.length < MAX_IDENTIFIERS ∧ id ∈ ids1 ∧ (∀ x ∈ ids, x ∈ ids1)
      ∧ (∀ x ∈ ids1, x ∈ ids ∨ x = id) ∧ ids.length ≤ ids1.length
      ∧ ids1.length ≤ ids.length + 1 ∧ (ids.Nodup → ids1.Nodup) := by
  rcases add_identifier_cases ids id with ⟨_, he⟩ | ⟨hl, hm, he⟩ | ⟨hl, hm, he⟩
  · rw [he] at h; cases h
  · rw [he] at h
    cases h
    exact ⟨hl, hm, fun x hx => hx, fun x hx => Or.inl hx, le_refl _, by omega, fun hn => hn⟩
  · rw [he] at h
    cases h
    refine ⟨hl, by simp, fun x hx => by simp [hx], ?_, by simp, by simp, ?_⟩
    · intro x hx
      simpa using hx
    · intro hn
      exact List.Nodup.append hn (by simp) (by simpa using hm)

theorem add_identifier_error {ids : List (List Char)} {id : List Char} {e : Failure}
    (h : add_identifier ids id = .error e) :
    e = .tooManyIdentifiers ∧ MAX_IDENTIFIERS ≤ ids.length := by
  rcases add_identifier_cases ids id with ⟨hl, he⟩ | ⟨_, _, he⟩ | ⟨_, _, he⟩
  · rw [he] at h; cases h; exact ⟨rfl, hl⟩
  · rw [he] at h; cases h
  · rw [he] at h; cases h

theorem addAll_ok_spec : ∀ (names ids ids1 : List (List Char)), addAll ids names = .ok ids1 →
    (∀ x ∈ names, x ∈ ids1) ∧ (∀ x ∈ ids, x ∈ ids1) ∧ ids.length ≤ ids1.length
      ∧ (ids.Nodup → ids1.Nodup) ∧ (ids.length ≤ MAX_IDENTIFIERS → ids1.length ≤ MAX_IDENTIFIERS) := by
  intro names
  induction names with
  | nil =>
    intro ids ids1 h
    simp only [addAll] at h
    cases h
    exact ⟨by simp, fun x hx => hx, le_refl _, fun h => h, fun h => h⟩
  | cons n ns ih =>
    intro ids ids1 h
    simp only [addAll] at h
    cases ha : add_identifier ids n with
    | error e => rw [ha] at h; cases h
    | ok ids2 =>
      rw [ha] at h
      obtain ⟨hl, hm, hsub, _, hle, hle1, hnd⟩ := add_identifier_ok_spec ha
      obtain ⟨i1, i2, i3, i4, i5⟩ := ih ids2 ids1 h
      refine ⟨?_, fun x hx => i2 x (hsub x hx), by omega, fun hn => i4 (hnd hn), ?_⟩
      · intro x hx
        rcases List.mem_cons.1 hx with h1 | h1
        · exact h1 ▸ i2 n hm
        · exact i1 x h1
      · intro _
        exact i5 (by omega)

theorem addAll_error : ∀ (names ids : List (List Char)) (e : Failure),
    addAll ids names = .error e → e = .tooManyIdentifiers := by
  intro names
  induction names with
  | nil => intro ids e h; simp [addAll] at h
  | cons n ns ih =>
    intro ids e h
    simp only [addAll] at h
    cases ha : add_identifier ids n with
    | error e1 =>
      rw [ha] at h
      cases h
      exact (add_identifier_error ha).1
    | ok ids2 =>
      rw [ha] at h
      exact ih ids2 e h

theorem addAll_append (a b ids : List (List Char)) :
    addAll ids (a ++ b) =
      match addAll ids a with
      | .error e => .error e
      | .ok ids1 => addAll ids1 b := by
  induction a generalizing ids with
  | nil => rfl
  | cons x xs ih =>
    simp only [List.cons_append, addAll]
    cases add_identifier ids x with
    | error e => rfl
    | ok ids1 => exact ih ids1

/-- More than 50 distinct names cannot all be registered. -/
theorem addAll_too_many (names : List (List Char)) (h : MAX_IDENTIFIERS < names.dedup.length) :
    addAll [] names = .error .tooManyIdentifiers := by
  cases hr : addAll [] names with
  | error e => rw [addAll_error names [] e hr]
  | ok ids1 =>
    exfalso
    obtain ⟨h1, _, _, _, h5⟩ := addAll_ok_spec names [] ids1 hr
    have hsub : names.dedup ⊆ ids1 := fun x hx => h1 x (List.mem_dedup.1 hx)
    have hle : names.dedup.length ≤ ids1.length :=
      (List.Nodup.subperm (List.nodup_dedup names) hsub).length_le
    have := h5 (by simp)
    omega

/-! ## Lemmas on assignment lines and the registry in the first pass -/

/-- The first pass on a chunk `name ws1 <- rest`, whatever follows the marker: the name is
validated and registered; with a valid name the step fails only when `add_identifier`
does. -/
theorem firstPassLine_assignment_chunk (st : State) (name ws1 rest : List Char)
    (hne : name ≠ [])
    (hchars : ∀ c ∈ name, c ≠ '<' ∧ c ≠ '-' ∧ c ≠ NUL ∧ c ≠ '#')
    (hhead : isBlank (name.head hne) = false) (hlast : isBlank (name.getLast hne) = false)
    (hnl : name.head hne ≠ '\n')
    (hws1 : ∀ c ∈ ws1, c = ' ' ∨ c = '\t')
    (hfun : ¬ "function".toList <+: name ++ ws1 ++ ['<', '-'] ++ rest) :
    ∃ out buf2, firstPassLine st (name ++ ws1 ++ ['<', '-'] ++ rest) =
      if !is_valid_identifier name then .error (.invalidIdentifier name)
      else
        match add_identifier st.identifiers name with
        | .error e => .error e
        | .ok ids => .ok ⟨ids, st.c_file ++ out, buf2, st.in_function⟩ := by
  obtain ⟨t, hbuf⟩ := stripComment_fgetsStore st.line (name ++ ws1 ++ ['<', '-'] ++ rest)
  have hvis0 : ∀ c ∈ name ++ ws1 ++ ['<', '-'], c ≠ NUL ∧ c ≠ '#' := by
    intro c hc
    simp only [List.mem_append, List.mem_cons, List.mem_singleton, List.not_mem_nil,
      or_false] at hc
    rcases hc with (h | h) | h | h
    · exact ⟨(hchars c h).2.2.1, (hchars c h).2.2.2⟩
    · rcases hws1 c h with h | h <;> subst h <;> decide
    · subst h; decide
    · subst h; decide
  rw [visible_append hvis0] at hbuf
  have hpref : rest.takeWhile (fun c => decide (c ≠ NUL ∧ c ≠ '#')) <+: rest :=
    List.takeWhile_prefix _
  have hr0 : ∀ c ∈ rest.takeWhile (fun c => decide (c ≠ NUL ∧ c ≠ '#')), c ≠ NUL :=
    fun c hc => (visible_mem hc).1
  generalize rest.takeWhile (fun c => decide (c ≠ NUL ∧ c ≠ '#')) = r0 at hbuf hpref hr0
  obtain ⟨w1, _, h⟩ := firstPassLine_assignment st (name ++ ws1 ++ ['<', '-'] ++ rest) name ws1
    r0 t (by rw [hbuf]; simp) hne
    (fun c hc => ⟨(hchars c hc).1, (hchars c hc).2.1, (hchars c hc).2.2.1⟩) hhead hlast hnl
    hws1 hr0
    (by
      intro hp
      apply hfun
      obtain ⟨z, hz⟩ := hpref
      refine hp.trans ⟨z, ?_⟩
      simp only [List.append_assoc, List.cons_append, List.nil_append]
      rw [← hz])
  exact ⟨_, _, h⟩

/-- The first pass over chunks that are assignment lines with valid names performs the
calls `add_identifier` of their names, in order, and fails only when one of them does. -/
theorem forChunks_assignment_lines (ls : List (List Char × List Char × List Char))
    (hls : ∀ l ∈ ls, ∃ hne : l.1 ≠ [],
      (∀ c ∈ l.1, c ≠ '<' ∧ c ≠ '-' ∧ c ≠ NUL ∧ c ≠ '#')
      ∧ isBlank (l.1.head hne) = false ∧ isBlank (l.1.getLast hne) = false
      ∧ l.1.head hne ≠ '\n' ∧ (∀ c ∈ l.2.1, c = ' ' ∨ c = '\t')
      ∧ ¬ "function".toList <+: l.1 ++ l.2.1 ++ ['<', '-'] ++ l.2.2
      ∧ is_valid_identifier l.1 = true) :
    ∀ st : State,
      (∀ e, addAll st.identifiers (ls.map (fun l => l.1)) = .error e →
        forChunks firstPassLine st (ls.map (fun l => l.1 ++ l.2.1 ++ ['<', '-'] ++ l.2.2))
          = .error e)
      ∧ (∀ ids, addAll st.identifiers (ls.map (fun l => l.1)) = .ok ids →
        ∃ st1, forChunks firstPassLine st
            (ls.map (fun l => l.1 ++ l.2.1 ++ ['<', '-'] ++ l.2.2)) = .ok st1
          ∧ st1.identifiers = ids) := by
  induction ls with
  | nil =>
    intro st
    constructor
    · intro e h; simp [addAll] at h
    · intro ids h
      simp only [List.map_nil, addAll] at h
      cases h
      exact ⟨st, rfl, rfl⟩
  | cons l ls ih =>
    intro st
    obtain ⟨hne, h1, h2, h3, h4, h5, h6, h7⟩ := hls l (List.mem_cons_self _ _)
    obtain ⟨out, buf2, hstep⟩ := firstPassLine_assignment_chunk st l.1 l.2.1 l.2.2 hne h1 h2 h3
      h4 h5 h6
    rw [h7] at hstep
    simp only [Bool.not_true, Bool.false_eq_true, if_false] at hstep
    simp only [List.map_cons, addAll, forChunks, hstep]
    cases add_identifier st.identifiers l.1 with
    | error e1 =>
      constructor
      · intro e h; cases h; rfl
      · intro ids h; cases h
    | ok ids1 =>
      exact ih (fun x hx => hls x (List.mem_cons_of_mem _ hx))
        ⟨ids1, st.c_file ++ out, buf2, st.in_function⟩

/-- The registry after a successful step of the first pass: no name is lost, the names stay
distinct and the count stays within the capacity. -/
theorem firstPassLine_registry {st st1 : State} {chunk : List Char}
    (h : firstPassLine st chunk = .ok st1) :
    (∀ x ∈ st.identifiers, x ∈ st1.identifiers)
      ∧ (st.identifiers.Nodup → st1.identifiers.Nodup)
      ∧ (st.identifiers.length ≤ MAX_IDENTIFIERS → st1.identifiers.length ≤ MAX_IDENTIFIERS) := by
  have key : ∀ (ids : List (List Char)) (id : List Char),
      add_identifier st.identifiers id = .ok ids →
      (∀ x ∈ st.identifiers, x ∈ ids) ∧ (st.identifiers.Nodup → ids.Nodup)
        ∧ (st.identifiers.length ≤ MAX_IDENTIFIERS → ids.length ≤ MAX_IDENTIFIERS) := by
    intro ids id ha
    obtain ⟨h1, _, h3, _, _, h6, h7⟩ := add_identifier_ok_spec ha
    exact ⟨h3, h7, fun _ => by omega⟩
  have triv : (∀ x ∈ st.identifiers, x ∈ st.identifiers)
      ∧ (st.identifiers.Nodup → st.identifiers.Nodup)
      ∧ (st.identifiers.length ≤ MAX_IDENTIFIERS → st.identifiers.length ≤ MAX_IDENTIFIERS) :=
    ⟨fun _ hx => hx, id, id⟩
  unfold firstPassLine at h
  simp only [] at h
  split at h
  · cases h; exact triv
  · split at h
    · cases h; exact triv
    · split at h
      · split at h
        · cases h
        · split at h
          · cases h
          · split at h
            · cases h
            · rename_i ids ha
              cases h
              exact key _ _ ha
      · split at h
        · split at h
          · cases h
          · split at h
            · cases h
            · split at h
              · cases h
              · split at h
                · cases h
                · rename_i ids ha
                  cases h
                  exact key _ _ ha
        · cases h; exact triv

/-- The registry after a successful run of the first pass over a list of chunks. -/
theorem forChunks_firstPass_registry : ∀ (chunks : List (List Char)) (st st1 : State),
    forChunks firstPassLine st chunks = .ok st1 →
    (∀ x ∈ st.identifiers, x ∈ st1.identifiers)
      ∧ (st.identifiers.Nodup → st1.identifiers.Nodup)
      ∧ (st.identifiers.length ≤ MAX_IDENTIFIERS → st1.identifiers.length ≤ MAX_IDENTIFIERS)
  | [], st, st1, h => by
    simp only [forChunks] at h
    cases h
    exact ⟨fun _ hx => hx, id, id⟩
  | chunk :: rest, st, st1, h => by
    simp only [forChunks] at h
    cases hs : firstPassLine st chunk with
    | error e => rw [hs] at h; cases h
    | ok st2 =>
      rw [hs] at h
      obtain ⟨a1, a2, a3⟩ := firstPassLine_registry hs
      obtain ⟨b1, b2, b3⟩ := forChunks_firstPass_registry rest st2 st1 h
      exact ⟨fun x hx => b1 x (a1 x hx), fun hn => b2 (a2 hn), fun hn => b3 (a3 hn)⟩

/-- A successful run of a loop over `a ++ chunk :: b` passes through the step on `chunk`. -/
theorem forChunks_ok_middle (body : State → List Char → Except Failure State) :
    ∀ (a : List (List Char)) (chunk : List Char) (b : List (List Char)) (st st1 : State),
    forChunks body st (a ++ chunk :: b) = .ok st1 →
    ∃ sa sb, forChunks body st a = .ok sa ∧ body sa chunk = .ok sb
      ∧ forChunks body sb b = .ok st1
  | [], chunk, b, st, st1, h => by
    simp only [List.nil_append, forChunks] at h
    cases hs : body st chunk with
    | error e => rw [hs] at h; cases h
    | ok sb =>
      rw [hs] at h
      exact ⟨st, sb, rfl, hs, h⟩
  | c :: a, chunk, b, st, st1, h => by
    simp only [List.cons_append, forChunks] at h
    cases hs : body st c with
    | error e => rw [hs] at h; cases h
    | ok s2 =>
      rw [hs] at h
      obtain ⟨sa, sb, h1, h2, h3⟩ := forChunks_ok_middle body a chunk b s2 st1 h
      refine ⟨sa, sb, ?_, h2, h3⟩
      simp only [forChunks, hs]
      exact h1

/-- A loop that fails fails in the step on one of its chunks. -/
theorem forChunks_error_at (body : State → List Char → Except Failure State) :
    ∀ (chunks : List (List Char)) (st : State) (e : Failure),
    forChunks body st chunks = .error e → ∃ c ∈ chunks, ∃ s, body s c = .error e
  | [], st, e, h => by
    simp only [forChunks] at h
    cases h
  | chunk :: rest, st, e, h => by
    simp only [forChunks] at h
    cases hs : body st chunk with
    | error e1 =>
      rw [hs] at h
      cases h
      exact ⟨chunk, List.mem_cons_self _ _, st, hs⟩
    | ok s2 =>
      rw [hs] at h
      obtain ⟨c, hc, s, hcs⟩ := forChunks_error_at body rest s2 e h
      exact ⟨c, List.mem_cons_of_mem _ hc, s, hcs⟩

/-! ## The registry: idempotence, capacity, invariant -/

set_option maxRecDepth 100000 in
/-- C11. With 50 names in the registry, `add_identifier` of a name that is already present
exits with the capacity error although `identifier_exists` finds the name; a program of 50
assignment lines with distinct names followed by a second assignment to the first name is
rejected with the capacity error. -/
theorem add_identifier_present_name_full_registry :
    add_identifier
        ((List.range 50).map (fun i => ['v', Char.ofNat (97 + i / 26), Char.ofNat (97 + i % 26)]))
        "vaa".toList = .error .tooManyIdentifiers
      ∧ identifier_exists
        ((List.range 50).map (fun i => ['v', Char.ofNat (97 + i / 26), Char.ofNat (97 + i % 26)]))
        "vaa".toList = true
      ∧ translate []
          (((List.range 50).map (fun i =>
              ['v', Char.ofNat (97 + i / 26), Char.ofNat (97 + i % 26)]
                ++ " <- 1\n".toList)).flatten
            ++ "vaa <- 2\n".toList)
        = .error .tooManyIdentifiers :=
  ⟨rfl, rfl, rfl⟩

set_option maxRecDepth 100000 in
/-- C12, counterexample.  Fifty-one top-level assignment lines with the pairwise distinct
valid names `vaa`, `vab`, ..., `vby`, of which the first holds 251 spaces between its name
and the marker and is longer than the line buffer: `fgets` returns that line in two pieces,
the first ends with the `<` and the second begins with the `-`, so that neither piece is
handled as an assignment.  Fifty names are registered and the translation succeeds, with
fifty declarations. -/
theorem long_assignment_line_not_registered :
    ((List.range 51).map
        (fun i => ['v', Char.ofNat (97 + i / 26), Char.ofNat (97 + i % 26)])).Nodup
      ∧ (∀ n ∈ (List.range 51).map
          (fun i => ['v', Char.ofNat (97 + i / 26), Char.ofNat (97 + i % 26)]),
        is_valid_identifier n = true)
      ∧ translate []
          ((List.range 51).map (fun i =>
            ['v', Char.ofNat (97 + i / 26), Char.ofNat (97 + i % 26)]
              ++ List.replicate (if i = 0 then 251 else 1) ' ' ++ "<- 1\n".toList)).flatten
        = .ok (preamble ++ ((List.range 50).map (fun i =>
            "double ".toList
              ++ ['v', Char.ofNat (97 + (i + 1) / 26), Char.ofNat (97 + (i + 1) % 26)]
              ++ " = 1;\n".toList)).flatten ++ "\n".toList ++ mainOpen ++ mainClose) :=
  ⟨by decide, by decide, rfl⟩

set_option maxRecDepth 100000 in
/-- The fifty-one assignment lines `a-aa <- 1`, `a-ab <- 1`, ..., `a-by <- 1` have pairwise
distinct names that pass `is_valid_identifier`; the name extraction stops at the `-`
(`strtok` with the delimiters `<` and `-`), every line registers and declares `a`, and the
translation succeeds. -/
theorem names_cut_at_marker_char_registered_once :
    ((List.range 51).map
        (fun i => ['a', '-', Char.ofNat (97 + i / 26), Char.ofNat (97 + i % 26)])).Nodup
      ∧ (∀ n ∈ (List.range 51).map
          (fun i => ['a', '-', Char.ofNat (97 + i / 26), Char.ofNat (97 + i % 26)]),
        is_valid_identifier n = true)
      ∧ translate []
          ((List.range 51).map (fun i =>
            ['a', '-', Char.ofNat (97 + i / 26), Char.ofNat (97 + i % 26)]
              ++ " <- 1\n".toList)).flatten
        = .ok (preamble ++ (List.replicate 51 "double a = 1;\n".toList).flatten ++ "\n".toList
          ++ mainOpen ++ mainClose) :=
  ⟨by decide, by decide, rfl⟩

/-- C12, amended. From the empty registry, a sequence of `add_identifier` calls whose first
part names more than 50 distinct identifiers has failed with the capacity error by the end
of that part, whatever follows.  For more than 50 top-level assignment lines `name <- expr`
that fit the line buffer, with pairwise distinct valid names without `<` and `-`: the program
made of these lines fails with the capacity error, and every program that contains these
lines fails, with the capacity error unless another line of the program stops the first pass
with an error of its own. -/
theorem capacity_exceeded (line0 : List Char) (ls : List (List Char × List Char × List Char))
    (hls : ∀ l ∈ ls, ∃ hne : l.1 ≠ [],
      (∀ c ∈ l.1, c ≠ '<' ∧ c ≠ '-' ∧ c ≠ NUL ∧ c ≠ '#')
      ∧ isBlank (l.1.head hne) = false ∧ isBlank (l.1.getLast hne) = false
      ∧ l.1.head hne ≠ '\n' ∧ (∀ c ∈ l.2.1, c = ' ' ∨ c = '\t')
      ∧ ¬ "function".toList <+: l.1 ++ l.2.1 ++ ['<', '-'] ++ (l.2.2 ++ ['\n'])
      ∧ is_valid_identifier l.1 = true)
    (hline : ∀ l ∈ ls, (∀ c ∈ l.1 ++ l.2.1 ++ ['<', '-'] ++ l.2.2, c ≠ '\n')
      ∧ (l.1 ++ l.2.1 ++ ['<', '-'] ++ l.2.2 ++ ['\n']).length < MAX_LINE_LEN)
    (hmany : MAX_IDENTIFIERS < ls.length) (hdistinct : (ls.map (fun l => l.1)).Nodup) :
    (∀ pre post : List (List Char), MAX_IDENTIFIERS < pre.dedup.length →
        addAll [] pre = .error .tooManyIdentifiers
          ∧ addAll [] (pre ++ post) = .error .tooManyIdentifiers)
      ∧ translate line0
          (ls.map (fun l => l.1 ++ l.2.1 ++ ['<', '-'] ++ l.2.2 ++ ['\n'])).flatten
        = .error .tooManyIdentifiers
      ∧ ∀ ml_file : List Char,
        (∀ l ∈ ls, l.1 ++ l.2.1 ++ ['<', '-'] ++ (l.2.2 ++ ['\n']) ∈ fileChunks ml_file) →
        ∃ e, translate line0 ml_file = .error e
          ∧ (e = .tooManyIdentifiers
            ∨ ∃ chunk ∈ fileChunks ml_file,
              (∀ l ∈ ls, chunk ≠ l.1 ++ l.2.1 ++ ['<', '-'] ++ (l.2.2 ++ ['\n']))
                ∧ ∃ st, firstPassLine st chunk = .error e) := by
  have hdd : MAX_IDENTIFIERS < (ls.map (fun l => l.1)).dedup.length := by
    rw [List.Nodup.dedup hdistinct, List.length_map]; exact hmany
  refine ⟨?_, ?_, ?_⟩
  · intro pre post hpre
    refine ⟨addAll_too_many pre hpre, ?_⟩
    rw [addAll_append, addAll_too_many pre hpre]
  · have hchunks : fileChunks
        (ls.map (fun l => l.1 ++ l.2.1 ++ ['<', '-'] ++ l.2.2 ++ ['\n'])).flatten
        = ls.map (fun l => l.1 ++ l.2.1 ++ ['<', '-'] ++ (l.2.2 ++ ['\n'])) := by
      have h := fileChunks_lines (ls.map (fun l => l.1 ++ l.2.1 ++ ['<', '-'] ++ l.2.2)) []
        (by
          intro x hx
          obtain ⟨l, hl, rfl⟩ := List.mem_map.1 hx
          exact hline l hl)
      simp only [List.map_map, List.append_nil] at h
      have e : fileChunks [] = [] := rfl
      rw [e, List.append_nil] at h
      have e1 : ((fun l => l ++ ['\n']) ∘ fun (l : List Char × List Char × List Char) =>
          l.1 ++ l.2.1 ++ ['<', '-'] ++ l.2.2)
          = fun l => l.1 ++ l.2.1 ++ ['<', '-'] ++ l.2.2 ++ ['\n'] := rfl
      rw [e1] at h
      rw [h]
      apply List.map_congr_left
      intro l _
      simp
    have hfail := (forChunks_assignment_lines
      (ls.map (fun l => (l.1, l.2.1, l.2.2 ++ ['\n'])))
      (by
        intro x hx
        obtain ⟨l, hl, rfl⟩ := List.mem_map.1 hx
        exact hls l hl)
      ⟨[], preamble, line0, false⟩).1 .tooManyIdentifiers
      (by
        simp only [List.map_map]
        exact addAll_too_many _ hdd)
    simp only [List.map_map] at hfail
    apply translate_error_of_firstPass
    rw [hchunks]
    exact hfail
  · intro ml_file hmem
    cases hfp : forChunks firstPassLine ⟨[], preamble, line0, false⟩ (fileChunks ml_file) with
    | error e =>
      refine ⟨e, translate_error_of_firstPass hfp, ?_⟩
      obtain ⟨c, hc, s, hcs⟩ := forChunks_error_at _ _ _ _ hfp
      by_cases hin : ∃ l ∈ ls, c = l.1 ++ l.2.1 ++ ['<', '-'] ++ (l.2.2 ++ ['\n'])
      · left
        obtain ⟨l, hl, rfl⟩ := hin
        obtain ⟨hne, h1, h2, h3, h4, h5, h6, h7⟩ := hls l hl
        obtain ⟨out, buf2, hs⟩ := firstPassLine_assignment_chunk s l.1 l.2.1 (l.2.2 ++ ['\n'])
          hne h1 h2 h3 h4 h5 h6
        rw [h7, hcs] at hs
        simp only [Bool.not_true, Bool.false_eq_true, if_false] at hs
        cases ha : add_identifier s.identifiers l.1 with
        | error e1 =>
          rw [ha] at hs
          cases hs
          exact (add_identifier_error ha).1
        | ok ids => rw [ha] at hs; cases hs
      · right
        refine ⟨c, hc, ?_, s, hcs⟩
        intro l hl e1
        exact hin ⟨l, hl, e1⟩
    | ok st1 =>
      exfalso
      obtain ⟨_, hnd, hlen⟩ := forChunks_firstPass_registry _ _ _ hfp
      have hsub : ∀ x ∈ ls.map (fun l => l.1), x ∈ st1.identifiers := by
        intro x hx
        obtain ⟨l, hl, rfl⟩ := List.mem_map.1 hx
        obtain ⟨a, b, hab⟩ := List.append_of_mem (hmem l hl)
        rw [hab] at hfp
        obtain ⟨sa, sb, _, hstep, hrest⟩ := forChunks_ok_middle _ _ _ _ _ _ hfp
        obtain ⟨hne, h1, h2, h3, h4, h5, h6, h7⟩ := hls l hl
        obtain ⟨out, buf2, hs⟩ := firstPassLine_assignment_chunk sa l.1 l.2.1 (l.2.2 ++ ['\n'])
          hne h1 h2 h3 h4 h5 h6
        rw [h7, hstep] at hs
        simp only [Bool.not_true, Bool.false_eq_true, if_false] at hs
        cases ha : add_identifier sa.identifiers l.1 with
        | error e1 => rw [ha] at hs; cases hs
        | ok ids =>
          rw [ha] at hs
          have hin : l.1 ∈ sb.identifiers := by
            cases hs
            exact (add_identifier_ok_spec ha).2.1
          exact (forChunks_firstPass_registry _ _ _ hrest).1 _ hin
      have hle := (List.Nodup.subperm hdistinct hsub).length_le
      have hcap := hlen (by simp)
      rw [List.length_map] at hle
      omega

set_option maxRecDepth 100000 in
/-- C12, witness: the fifty-one lines `vaa <- 1`, `vab <- 1`, ..., `vby <- 1`. -/
theorem capacity_exceeded_witness :
    translate []
        (((List.range 51).map (fun i =>
          (['v', Char.ofNat (97 + i / 26), Char.ofNat (97 + i % 26)], [' '],
            " 1".toList))).map
          (fun l => l.1 ++ l.2.1 ++ ['<', '-'] ++ l.2.2 ++ ['\n'])).flatten
      = .error .tooManyIdentifiers :=
  (capacity_exceeded []
    ((List.range 51).map (fun i =>
      (['v', Char.ofNat (97 + i / 26), Char.ofNat (97 + i % 26)], [' '], " 1".toList)))
    (by decide) (by decide) (by decide) (by decide)).2.1

/-- C20. Every registry reached from the empty one by successful `add_identifier` calls holds
pairwise distinct names and at most 50 of them; a successful call never lowers the count, and
after it `identifier_exists` finds the name. -/
theorem registry_invariant :
    (∀ names ids : List (List Char), addAll [] names = .ok ids →
        ids.Nodup ∧ ids.length ≤ MAX_IDENTIFIERS)
      ∧ (∀ (ids ids1 : List (List Char)) (id : List Char),
        add_identifier ids id = .ok ids1 →
        ids.length ≤ ids1.length ∧ identifier_exists ids1 id = true) := by
  constructor
  · intro names ids h
    obtain ⟨_, _, _, h4, h5⟩ := addAll_ok_spec names [] ids h
    exact ⟨h4 List.nodup_nil, h5 (by simp)⟩
  · intro ids ids1 id h
    obtain ⟨_, h2, _, _, h5, _, _⟩ := add_identifier_ok_spec h
    exact ⟨h5, (identifier_exists_iff ids1 id).2 h2⟩

theorem registry_invariant_witness :
    (["a".toList, "b".toList].Nodup ∧ ["a".toList, "b".toList].length ≤ MAX_IDENTIFIERS)
      ∧ (["a".toList].length ≤ ["a".toList, "b".toList].length
        ∧ identifier_exists ["a".toList, "b".toList] "b".toList = true) :=
  ⟨registry_invariant.1 ["a".toList, "b".toList, "a".toList] ["a".toList, "b".toList] rfl,
    registry_invariant.2 ["a".toList] ["a".toList, "b".toList] "b".toList rfl⟩

/-! ## Lemmas on lines with the marker characters but no marker -/

theorem findSub_isSome_iff (needle : List Char) :
    ∀ l : List Char, (findSub needle l).isSome = true ↔ needle <:+: l
  | [] => by
    by_cases h : needle = []
    · simp [findSub, h]
    · simp [findSub, h]
  | c :: cs => by
    unfold findSub
    by_cases hp : needle.isPrefixOf (c :: cs) = true
    · rw [if_pos hp]
      simp only [Option.isSome_some, true_iff]
      exact (List.isPrefixOf_iff_prefix.1 hp).isInfix
    · rw [if_neg hp, Option.isSome_map', findSub_isSome_iff needle cs, List.infix_cons_iff]
      constructor
      · exact Or.inr
      · rintro (h | h)
        · exact absurd (List.isPrefixOf_iff_prefix.2 h) hp
        · exact h

theorem findSub_eq_none {needle l : List Char} (h : ¬ needle <:+: l) :
    findSub needle l = none := by
  cases hf : findSub needle l with
  | none => rfl
  | some i =>
    exact absurd ((findSub_isSome_iff needle l).1 (by rw [hf]; rfl)) h

/-- An occurrence of `needle` in `w ++ [c]` lies in `w` when `c` is not in `needle`. -/
theorem infix_of_infix_snoc {needle w : List Char} {c : Char} (hne : needle ≠ [])
    (hc : c ∉ needle) (h : needle <:+: w ++ [c]) : needle <:+: w := by
  obtain ⟨s, t, hst⟩ := h
  rcases List.eq_nil_or_concat t with ht | ⟨t1, x, ht⟩
  · subst ht
    exfalso
    apply hc
    rcases List.eq_nil_or_concat needle with hn | ⟨n1, y, hn⟩
    · exact absurd hn hne
    · subst hn
      have e : (s ++ n1) ++ [y] = w ++ [c] := by simpa using hst
      have hy : [y] = [c] := List.append_inj_right' e rfl
      cases hy
      simp
  · subst ht
    have e : (s ++ needle ++ t1) ++ [x] = w ++ [c] := by simpa using hst
    have := List.append_inj_left' e rfl
    exact ⟨s, t1, this⟩

theorem prefix_of_prefix_snoc {needle w : List Char} {c : Char} (hne : needle ≠ [])
    (hc : c ∉ needle) (h : needle <+: w ++ [c]) : needle <+: w := by
  obtain ⟨t, hst⟩ := h
  rcases List.eq_nil_or_concat t with ht | ⟨t1, x, ht⟩
  · subst ht
    exfalso
    apply hc
    rcases List.eq_nil_or_concat needle with hn | ⟨n1, y, hn⟩
    · exact absurd hn hne
    · subst hn
      have e : n1 ++ [y] = w ++ [c] := by simpa using hst
      have hy : [y] = [c] := List.append_inj_right' e rfl
      cases hy
      simp
  · subst ht
    have e : (needle ++ t1) ++ [x] = w ++ [c] := by simpa using hst
    have := List.append_inj_left' e rfl
    exact ⟨t1, this⟩

/-- The visible text of a line with its end of line: the visible text of the line, followed
by the newline when the line has no comment. -/
theorem visible_line (l eol : List Char) (heol : eol = ['\n'] ∨ eol = []) :
    visible (l ++ eol) = visible l ∨ visible (l ++ eol) = visible l ++ ['\n'] := by
  unfold visible
  by_cases h : ∀ c ∈ l, c ≠ NUL ∧ c ≠ '#'
  · rw [visible_append h, visible_all h]
    rcases heol with e | e
    · subst e
      right
      rfl
    · subst e
      left
      simp
  · left
    push_neg at h
    obtain ⟨c, hc, hbad⟩ := h
    obtain ⟨a, b, hab⟩ := List.append_of_mem hc
    rw [hab, List.append_assoc]
    have hq : (fun c => decide (c ≠ NUL ∧ c ≠ '#')) c = false := by
      by_cases h0 : c = NUL
      · simp [h0]
      · simp [h0, hbad h0]
    generalize (fun c => decide (c ≠ NUL ∧ c ≠ '#')) = q at hq
    clear hab hc hbad
    induction a with
    | nil => simp [List.takeWhile_cons, hq]
    | cons x xs ih =>
      simp only [List.cons_append, List.takeWhile_cons] at ih ⊢
      split
      · rw [ih]
      · rfl

/-- The first pass on a top-level chunk whose visible text holds a `<` and a `-` but not the
marker `<-`: the invalid-assignment error, in every state. -/
theorem firstPassLine_malformed (st : State) (chunk : List Char)
    (hnl : chunk.head? ≠ some '\n') (htab : chunk.head? ≠ some '\t')
    (hfun : ¬ "function".toList <+: visible chunk)
    (hlt : '<' ∈ visible chunk) (hmin : '-' ∈ visible chunk)
    (hno : ¬ "<-".toList <:+: visible chunk) :
    firstPassLine st chunk = .error .invalidAssignment := by
  obtain ⟨t, hbuf⟩ := stripComment_fgetsStore st.line chunk
  have hw : ∀ x ∈ visible chunk, x ≠ NUL := fun x hx => (visible_mem hx).1
  have hpre : visible chunk <+: chunk := List.takeWhile_prefix _
  change stripComment (fgetsStore st.line chunk) = visible chunk ++ NUL :: t at hbuf
  generalize visible chunk = w at hbuf hw hpre hfun hlt hmin hno
  cases w with
  | nil => simp at hlt
  | cons c w =>
    obtain ⟨z, hz⟩ := hpre
    have hc0 : c ≠ NUL := hw c (List.mem_cons_self _ _)
    have hcn : c ≠ '\n' := by
      intro h; apply hnl; rw [← hz, h]; rfl
    have hct : c ≠ '\t' := by
      intro h; apply htab; rw [← hz, h]; rfl
    have hlen : strlen (c :: w ++ NUL :: t) 0 = w.length + 1 := by
      unfold strlen; rw [cstr_zero hw]; rfl
    have hch : charAt (c :: w ++ NUL :: t) 0 = c := rfl
    have hf : strncmpEq (c :: w ++ NUL :: t) 0 "function".toList = false := by
      rw [Bool.eq_false_iff]
      intro h
      exact hfun ((strncmpEq_iff _ rfl hw).1 h)
    have h1 : (strchr (c :: w ++ NUL :: t) 0 '<').isSome = true := by
      unfold strchr; rw [cstr_zero hw, if_pos hlt]; rfl
    have h2 : (strchr (c :: w ++ NUL :: t) 0 '-').isSome = true := by
      unfold strchr; rw [cstr_zero hw, if_pos hmin]; rfl
    have h3 : strstr (c :: w ++ NUL :: t) 0 "<-".toList = none := by
      unfold strstr; rw [cstr_zero hw, findSub_eq_none hno]; rfl
    unfold firstPassLine
    simp only [hbuf]
    rw [if_neg (by rw [hlen, hch]; simp [hcn]), if_neg (by rw [hch]; exact hct),
      if_neg (by rw [hf]; simp), if_pos ⟨h1, h2⟩, h3]

/-! ## Malformed assignments are fatal -/

set_option maxRecDepth 100000 in
/-- C17, counterexample.  The top-level line `print 5 - 1...1 < 4` with 250 digits holds a
`-` and a `<` and no `<-`, and is longer than the line buffer: `fgets` returns it in two
pieces, the `-` in the first and the `<` in the second, and the test of line 124 is made on
each piece.  The translation succeeds, with one print block for the first piece.  The last
part: a line that stops the first pass earlier fails with its own error, here the identifier
error of `Total <- 1` and not the invalid-assignment error of the line `print 1 - 2 < 3`. -/
theorem long_malformed_line_is_split :
    '<' ∈ "print 5 - ".toList ++ List.replicate 250 '1' ++ " < 4\n".toList
      ∧ '-' ∈ "print 5 - ".toList ++ List.replicate 250 '1' ++ " < 4\n".toList
      ∧ findSub "<-".toList ("print 5 - ".toList ++ List.replicate 250 '1' ++ " < 4\n".toList)
        = none
      ∧ fileChunks ("print 5 - ".toList ++ List.replicate 250 '1' ++ " < 4\n".toList)
        = ["print 5 - ".toList ++ List.replicate 245 '1', "11111 < 4\n".toList]
      ∧ translate [] ("print 5 - ".toList ++ List.replicate 250 '1' ++ " < 4\n".toList)
        = .ok (preamble ++ "\n".toList ++ mainOpen
          ++ printBlockMain ("5 - ".toList ++ List.replicate 245 '1') ++ mainClose)
      ∧ translate [] "Total <- 1\nprint 1 - 2 < 3\n".toList
        = .error (.invalidIdentifier "Total".toList) :=
  ⟨by decide, by decide, rfl, rfl, rfl, rfl⟩

/-- C17, amended. A program with a top-level line (not indented by a tab, not beginning with
the function keyword, within the line buffer) whose comment-stripped text contains a `<` and a
`-` but no adjacent `<-` is rejected: the translation fails, with the invalid-assignment
error when the lines before it pass the first pass. -/
theorem malformed_assignment_is_fatal (line0 pre l eol post : List Char)
    (hpre : ∀ c ∈ pre.getLast?, c = '\n') (hl : ∀ c ∈ l, c ≠ '\n')
    (heol : eol = ['\n'] ∨ (eol = [] ∧ post = []))
    (hlen : (l ++ eol).length < MAX_LINE_LEN)
    (htab : l.head? ≠ some '\t')
    (hfun : ¬ "function".toList <+: visible l)
    (hlt : '<' ∈ visible l) (hmin : '-' ∈ visible l)
    (hno : ¬ "<-".toList <:+: visible l) :
    (∃ e, translate line0 (pre ++ (l ++ eol) ++ post) = .error e)
      ∧ (∀ st, forChunks firstPassLine ⟨[], preamble, line0, false⟩ (fileChunks pre) = .ok st →
        translate line0 (pre ++ (l ++ eol) ++ post) = .error .invalidAssignment) := by
  have hne : l ≠ [] := by
    intro h; subst h; simp [visible] at hlt
  have hchunks := fileChunks_middle pre l eol post hpre hl
    (by
      rcases heol with h | ⟨h, hp⟩
      · exact Or.inl h
      · exact Or.inr ⟨h, hp, hne⟩) hlen
  obtain ⟨c, l1, rfl⟩ := List.exists_cons_of_ne_nil hne
  have hstep : ∀ st1 : State, firstPassLine st1 (c :: l1 ++ eol) = .error .invalidAssignment := by
    intro st1
    have hv := visible_line (c :: l1) eol (by
      rcases heol with h | ⟨h, _⟩
      · exact Or.inl h
      · exact Or.inr h)
    apply firstPassLine_malformed
    · intro h
      simp only [List.cons_append, List.head?_cons, Option.some.injEq] at h
      exact hl c (List.mem_cons_self _ _) h
    · intro h
      apply htab
      simpa using h
    · rcases hv with e | e
      · rw [e]; exact hfun
      · rw [e]
        intro h
        exact hfun (prefix_of_prefix_snoc (by decide) (by decide) h)
    · rcases hv with e | e
      · rw [e]; exact hlt
      · rw [e]; exact List.mem_append_left _ hlt
    · rcases hv with e | e
      · rw [e]; exact hmin
      · rw [e]; exact List.mem_append_left _ hmin
    · rcases hv with e | e
      · rw [e]; exact hno
      · rw [e]
        intro h
        exact hno (infix_of_infix_snoc (by decide) (by decide) h)
  obtain ⟨h1, h2⟩ := forChunks_fails_at firstPassLine ⟨[], preamble, line0, false⟩
    (fileChunks pre) _ (fileChunks post) _ hstep
  rw [← hchunks] at h1 h2
  refine ⟨?_, fun st hst => translate_error_of_firstPass (h2 st hst)⟩
  obtain ⟨e, he⟩ := h1
  exact ⟨e, translate_error_of_firstPass he⟩

/-- C17, witness: the line `print 5 - 3 < 4` after the line `x <- 3`. -/
theorem malformed_assignment_is_fatal_witness :
    translate [] ("x <- 3\n".toList ++ ("print 5 - 3 < 4".toList ++ ['\n']) ++ [])
      = .error .invalidAssignment :=
  (malformed_assignment_is_fatal [] "x <- 3\n".toList "print 5 - 3 < 4".toList ['\n'] []
    (by decide) (by decide) (by decide) (by decide) (by decide) (by decide) (by decide)
    (by decide) (by decide)).2 _ rfl

/-! ## What each pass writes for a line -/

/-- The tests of the passes on the buffer, in terms of the visible text of the line. -/
theorem line_tests {buf w t : List Char} (hb : buf = w ++ NUL :: t) (hw : ∀ x ∈ w, x ≠ NUL) :
    (strlen buf 0 = 0 ↔ w = [])
      ∧ (∀ c : Char, c ≠ NUL → (charAt buf 0 = c ↔ w.head? = some c))
      ∧ (∀ lit : List Char, strncmpEq buf 0 lit = true ↔ lit <+: w)
      ∧ (∀ c : Char, (strchr buf 0 c).isSome = true ↔ c ∈ w) := by
  subst hb
  refine ⟨?_, ?_, fun lit => strncmpEq_iff lit rfl hw, ?_⟩
  · unfold strlen
    rw [cstr_zero hw]
    exact List.length_eq_zero
  · intro c hc
    cases w with
    | nil =>
      simp only [List.nil_append, List.head?_nil]
      constructor
      · intro h; exact absurd h.symm hc
      · intro h; cases h
    | cons x xs =>
      simp only [List.cons_append, List.head?_cons, Option.some.injEq]
      exact Iff.rfl
  · intro c
    unfold strchr
    rw [cstr_zero hw]
    by_cases h : c ∈ w
    · simp [h]
    · simp [h]

/-- The buffer of a pass after `fgets` and the cut of the comment, with the tests of the
passes in terms of the visible text. -/
theorem line_buffer (line chunk : List Char) :
    ∃ t, stripComment (fgetsStore line chunk) = visible chunk ++ NUL :: t
      ∧ (strlen (visible chunk ++ NUL :: t) 0 = 0 ↔ visible chunk = [])
      ∧ (∀ c : Char, c ≠ NUL →
        (charAt (visible chunk ++ NUL :: t) 0 = c ↔ (visible chunk).head? = some c))
      ∧ (∀ lit : List Char,
        strncmpEq (visible chunk ++ NUL :: t) 0 lit = true ↔ lit <+: visible chunk)
      ∧ (∀ c : Char, (strchr (visible chunk ++ NUL :: t) 0 c).isSome = true ↔ c ∈ visible chunk) := by
  obtain ⟨t, ht⟩ := stripComment_fgetsStore line chunk
  exact ⟨t, ht, line_tests rfl (fun x hx => (visible_mem hx).1)⟩

/-- What a successful step of the first pass writes: one declaration for a line handled as
an assignment, nothing for any other line; the flag `in_function` is not touched. -/
theorem firstPassLine_emit {st st1 : State} {chunk : List Char}
    (h : firstPassLine st chunk = .ok st1) :
    st1.in_function = st.in_function
      ∧ ∃ o, st1.c_file = st.c_file ++ o
        ∧ if isAssignmentLine chunk then
            ∃ n e, o = "double ".toList ++ n ++ " = ".toList ++ e ++ ";\n".toList
          else o = [] := by
  obtain ⟨t, hbuf, t1, t2, t3, t4⟩ := line_buffer st.line chunk
  unfold firstPassLine at h
  simp only [hbuf] at h
  unfold isAssignmentLine
  have hn : ('\n' : Char) ≠ NUL := by decide
  have ht : ('\t' : Char) ≠ NUL := by decide
  split at h
  · rename_i hc
    cases h
    refine ⟨rfl, [], (List.append_nil _).symm, ?_⟩
    rw [if_neg]
    rw [t1, t2 _ hn] at hc
    simp only [decide_eq_true_eq]
    tauto
  · split at h
    · rename_i _ hc
      cases h
      refine ⟨rfl, [], (List.append_nil _).symm, ?_⟩
      rw [if_neg]
      rw [t2 _ ht] at hc
      simp only [decide_eq_true_eq]
      tauto
    · split at h
      · rename_i _ _ hc
        have hnot : ¬ (decide (visible chunk ≠ [] ∧ (visible chunk).head? ≠ some '\n'
            ∧ (visible chunk).head? ≠ some '\t' ∧ ¬ "function".toList <+: visible chunk
            ∧ '<' ∈ visible chunk ∧ '-' ∈ visible chunk) = true) := by
          rw [t3] at hc
          simp only [decide_eq_true_eq]
          tauto
        split at h
        · cases h
        · split at h
          · cases h
          · split at h
            · cases h
            · cases h
              exact ⟨rfl, [], (List.append_nil _).symm, by rw [if_neg hnot]⟩
      · split at h
        · rename_i hc1 hc2 hc3 hc4
          have hyes : decide (visible chunk ≠ [] ∧ (visible chunk).head? ≠ some '\n'
              ∧ (visible chunk).head? ≠ some '\t' ∧ ¬ "function".toList <+: visible chunk
              ∧ '<' ∈ visible chunk ∧ '-' ∈ visible chunk) = true := by
            rw [t1, t2 _ hn] at hc1
            rw [t2 _ ht] at hc2
            rw [t3] at hc3
            rw [t4, t4] at hc4
            simp only [decide_eq_true_eq]
            tauto
          split at h
          · cases h
          · split at h
            · cases h
            · split at h
              · cases h
              · split at h
                · cases h
                · cases h
                  refine ⟨rfl, _, rfl, ?_⟩
                  rw [if_pos hyes]
                  exact ⟨_, _, rfl⟩
        · rename_i hc1 hc2 hc3 hc4
          cases h
          refine ⟨rfl, [], (List.append_nil _).symm, ?_⟩
          rw [if_neg]
          rw [t4, t4] at hc4
          simp only [decide_eq_true_eq]
          tauto

/-- The loop over the parameters only appends to the output. -/
theorem paramLoop_emit : ∀ (fuel : Nat) (st : State) (buf : List Char) (tok : Option Nat)
    (save : Nat) (first : Bool) (st1 : State),
    paramLoop fuel st buf tok save first = .ok st1 →
    st1.in_function = st.in_function ∧ ∃ o, st1.c_file = st.c_file ++ o
  | fuel, st, buf, none, save, first, st1, h => by
    rw [paramLoop_none] at h
    cases h
    exact ⟨rfl, [], (List.append_nil _).symm⟩
  | 0, st, buf, some p, save, first, st1, h => by
    simp only [paramLoop] at h
    cases h
  | fuel + 1, st, buf, some p, save, first, st1, h => by
    simp only [paramLoop] at h
    split at h
    · cases h
    · obtain ⟨h1, o, h2⟩ := paramLoop_emit fuel _ _ _ _ _ _ h
      refine ⟨h1.trans ?_, ?_⟩
      · cases first <;> rfl
      · cases first
        · refine ⟨", ".toList ++ ("double ".toList ++ cstr buf p ++ " ".toList) ++ o, ?_⟩
          rw [h2]
          simp only [State.fprintf, Bool.false_eq_true, if_false, List.append_assoc]
        · refine ⟨("double ".toList ++ cstr buf p ++ " ".toList) ++ o, ?_⟩
          rw [h2]
          simp only [State.fprintf, if_true, List.append_assoc]

/-- What a successful header step writes: the close of the function that was open, if any,
then the signature up to the opening brace; the flag `in_function` is set. -/
theorem headerLine_emit {st st1 : State} {buf : List Char} (h : headerLine st buf = .ok st1) :
    st1.in_function = true
      ∧ ∃ name params, st1.c_file = st.c_file ++ (if st.in_function then closeText else [])
        ++ ("double ".toList ++ name ++ "(".toList ++ params ++ ") \x7b\n".toList) := by
  unfold headerLine at h
  simp only [] at h
  split at h
  · cases h
  · rename_i name _
    split at h
    · cases h
    · rename_i hpl
      cases h
      obtain ⟨_, o, ho⟩ := paramLoop_emit _ _ _ _ _ _ _ hpl
      refine ⟨rfl, cstr (strtok (strtok buf 9 [' ']).buf (strtok buf 9 [' ']).save ['\n']).buf
        name, o, ?_⟩
      simp only [State.fprintf, ho]
      cases st.in_function
      · simp only [Bool.false_eq_true, if_false, List.append_assoc, List.nil_append]
      · simp only [if_true, State.fprintf, List.append_assoc]

/-- A successful step on a body line only appends to the output. -/
theorem bodyLine_emit {st st1 : State} {buf : List Char} {p : Nat}
    (h : bodyLine st buf p = .ok st1) :
    st1.in_function = st.in_function ∧ ∃ o, st1.c_file = st.c_file ++ o := by
  unfold bodyLine at h
  split at h
  · unfold printStmt at h
    split at h
    · cases h
    · cases h; exact ⟨rfl, _, rfl⟩
  · split at h
    · unfold returnStmt at h
      split at h
      · cases h
      · cases h; exact ⟨rfl, _, rfl⟩
    · split at h
      · unfold localAssignment at h
        simp only [] at h
        split at h
        · cases h
        · split at h
          · cases h
          · cases h; exact ⟨rfl, _, rfl⟩
      · split at h
        · unfold callStmt at h
          simp only [] at h
          split at h
          · cases h
          · cases h; exact ⟨rfl, _, rfl⟩
        · cases h; exact ⟨rfl, [], (List.append_nil _).symm⟩

/-- What a successful step of the second pass does.  On a header line: the function that
was open is closed, the signature is written and the flag is set.  On any other line the
flag is kept, and nothing is written outside a function. -/
theorem secondPassLine_emit {st st1 : State} {chunk : List Char}
    (h : secondPassLine st chunk = .ok st1) :
    if isHeaderLine chunk then
      st1.in_function = true
        ∧ ∃ name params, st1.c_file = st.c_file ++ (if st.in_function then closeText else [])
          ++ ("double ".toList ++ name ++ "(".toList ++ params ++ ") \x7b\n".toList)
    else
      st1.in_function = st.in_function
        ∧ ∃ o, st1.c_file = st.c_file ++ o ∧ (st.in_function = false → o = []) := by
  obtain ⟨t, hbuf, t1, t2, t3, t4⟩ := line_buffer st.line chunk
  unfold secondPassLine at h
  simp only [hbuf] at h
  unfold isHeaderLine
  have hn : ('\n' : Char) ≠ NUL := by decide
  split at h
  · rename_i hc
    cases h
    rw [if_neg]
    · exact ⟨rfl, [], (List.append_nil _).symm, fun _ => rfl⟩
    · rw [t1, t2 _ hn] at hc
      simp only [decide_eq_true_eq]
      rintro ⟨z, hz⟩
      rcases hc with hc | hc
      · rw [hc] at hz; cases hz
      · rw [← hz] at hc; cases hc
  · split at h
    · rename_i _ hc
      rw [t3] at hc
      rw [if_pos (by simpa using hc)]
      have hh := headerLine_emit h
      exact hh
    · rename_i _ hc
      rw [t3] at hc
      rw [if_neg (by simpa using hc)]
      split at h
      · rename_i hin
        obtain ⟨h1, o, h2⟩ := bodyLine_emit h
        refine ⟨h1, o, h2, ?_⟩
        intro hf
        have := hin.2
        simp only [hf] at this
        cases this
      · cases h
        exact ⟨rfl, [], (List.append_nil _).symm, fun _ => rfl⟩

/-- A successful step of the third pass only appends to the output; the flag `in_function`
is not touched. -/
theorem thirdPassLine_emit {st st1 : State} {chunk : List Char}
    (h : thirdPassLine st chunk = .ok st1) :
    st1.in_function = st.in_function ∧ ∃ o, st1.c_file = st.c_file ++ o := by
  unfold thirdPassLine at h
  simp only [] at h
  split at h
  · cases h; exact ⟨rfl, [], (List.append_nil _).symm⟩
  · split at h
    · cases h; exact ⟨rfl, [], (List.append_nil _).symm⟩
    · split at h
      · split at h
        · cases h
        · cases h; exact ⟨rfl, _, rfl⟩
      · split at h
        · split at h
          · cases h
          · cases h; exact ⟨rfl, _, rfl⟩
        · cases h; exact ⟨rfl, [], (List.append_nil _).symm⟩

/-- A successful loop whose steps only append to the output appends, chunk by chunk, texts
related to the chunks by `R`. -/
theorem forChunks_outputs (body : State → List Char → Except Failure State)
    (R : List Char → List Char → Prop)
    (hstep : ∀ st chunk st1, body st chunk = .ok st1 →
      st1.in_function = st.in_function ∧ ∃ o, st1.c_file = st.c_file ++ o ∧ R chunk o) :
    ∀ (chunks : List (List Char)) (st st1 : State), forChunks body st chunks = .ok st1 →
      st1.in_function = st.in_function
        ∧ ∃ os, st1.c_file = st.c_file ++ os.flatten ∧ List.Forall₂ R chunks os
  | [], st, st1, h => by
    simp only [forChunks] at h
    cases h
    exact ⟨rfl, [], by simp, List.Forall₂.nil⟩
  | chunk :: rest, st, st1, h => by
    simp only [forChunks] at h
    cases hs : body st chunk with
    | error e => rw [hs] at h; cases h
    | ok s2 =>
      rw [hs] at h
      obtain ⟨a1, o, a2, a3⟩ := hstep _ _ _ hs
      obtain ⟨b1, os, b2, b3⟩ := forChunks_outputs body R hstep rest s2 st1 h
      refine ⟨b1.trans a1, o :: os, ?_, List.Forall₂.cons a3 b3⟩
      rw [b2, a2]
      simp

/-- A successful run of the second loop: the text written, followed by the close of the
function left open, is the text `pre` written for the function that was open at the start,
its close, and one block per header line: signature, body, close. -/
theorem forChunks_secondPass_blocks : ∀ (chunks : List (List Char)) (st st1 : State),
    forChunks secondPassLine st chunks = .ok st1 →
    ∃ (pre : List Char) (blocks : List (List Char × List Char)),
      blocks.length = (chunks.filter isHeaderLine).length
        ∧ (st.in_function = false → pre = [])
        ∧ (∀ b ∈ blocks, ∃ name params,
          b.1 = "double ".toList ++ name ++ "(".toList ++ params ++ ") \x7b\n".toList)
        ∧ st1.c_file ++ (if st1.in_function then closeText else [])
          = st.c_file ++ pre ++ (if st.in_function then closeText else [])
            ++ (blocks.map (fun b => b.1 ++ b.2 ++ closeText)).flatten
  | [], st, st1, h => by
    simp only [forChunks] at h
    cases h
    exact ⟨[], [], rfl, fun _ => rfl, by simp, by simp⟩
  | chunk :: rest, st, st1, h => by
    simp only [forChunks] at h
    cases hs : secondPassLine st chunk with
    | error e => rw [hs] at h; cases h
    | ok s2 =>
      rw [hs] at h
      obtain ⟨pre1, blocks1, c1, c2, c3, c4⟩ := forChunks_secondPass_blocks rest s2 st1 h
      have hem := secondPassLine_emit hs
      by_cases hh : isHeaderLine chunk = true
      · rw [if_pos hh] at hem
        obtain ⟨d1, name, params, d2⟩ := hem
        refine ⟨[], ("double ".toList ++ name ++ "(".toList ++ params ++ ") \x7b\n".toList,
          pre1) :: blocks1, ?_, fun _ => rfl, ?_, ?_⟩
        · simp only [List.length_cons, List.filter_cons, hh, if_true, c1]
        · intro b hb
          rcases List.mem_cons.1 hb with e | e
          · subst e; exact ⟨name, params, rfl⟩
          · exact c3 b e
        · rw [c4, d2, d1]
          simp only [if_true, List.map_cons, List.flatten_cons, List.append_assoc,
            List.append_nil, List.nil_append]
      · rw [if_neg hh] at hem
        obtain ⟨d1, o, d2, d3⟩ := hem
        refine ⟨o ++ pre1, blocks1, ?_, ?_, c3, ?_⟩
        · simp only [List.filter_cons, hh, c1]
          rfl
        · intro hf
          rw [d3 hf, c2 (d1.trans hf)]
          rfl
        · rw [c4, d2, d1]
          simp only [List.append_assoc]

/-! ## Lines that begin with a tab in the first and third pass -/

/-- The first and the third pass skip a line that begins with a tab. -/
theorem tab_line_skipped (st : State) (rest : List Char) :
    (∃ buf, firstPassLine st ('\t' :: rest) = .ok ⟨st.identifiers, st.c_file, buf,
        st.in_function⟩)
      ∧ ∃ buf, thirdPassLine st ('\t' :: rest) = .ok ⟨st.identifiers, st.c_file, buf,
        st.in_function⟩ := by
  obtain ⟨t, hbuf, _, t2, t3, _⟩ := line_buffer st.line ('\t' :: rest)
  have hv : visible ('\t' :: rest) = '\t' :: visible rest := by
    unfold visible
    rw [List.takeWhile_cons_of_pos (by decide)]
  have hc : charAt (visible ('\t' :: rest) ++ NUL :: t) 0 = '\t' :=
    (t2 '\t' (by decide)).2 (by rw [hv]; rfl)
  constructor
  · unfold firstPassLine
    simp only [hbuf]
    simp only [hc, if_true]
    split <;> exact ⟨_, rfl⟩
  · unfold thirdPassLine
    simp only [hbuf]
    simp only [hc, or_true, if_true]
    split <;> exact ⟨_, rfl⟩

/-! ## The registry influences a translation only through the capacity error -/

theorem sameButRegistry_ok {s s1 : State} (h1 : s.c_file = s1.c_file) (h2 : s.line = s1.line)
    (h3 : s.in_function = s1.in_function) : sameButRegistry (.ok s) (.ok s1) :=
  Or.inr (Or.inr (Or.inr ⟨s, s1, rfl, rfl, h1, h2, h3⟩))

theorem sameButRegistry_error (e : Failure) : sameButRegistry (.error e) (.error e) :=
  Or.inr (Or.inr (Or.inl ⟨e, rfl, rfl⟩))

theorem sameButRegistry_add (ids ids1 : List (List Char)) (id : List Char)
    (f g : List (List Char) → Except Failure State)
    (hf : ∀ a b, sameButRegistry (f a) (g b)) :
    sameButRegistry
      (match add_identifier ids id with
        | .error e => .error e
        | .ok a => f a)
      (match add_identifier ids1 id with
        | .error e => .error e
        | .ok a => g a) := by
  rcases add_identifier_cases ids id with ⟨_, h⟩ | ⟨_, _, h⟩ | ⟨_, _, h⟩
  · rw [h]; exact Or.inl rfl
  all_goals
    rcases add_identifier_cases ids1 id with ⟨_, h1⟩ | ⟨_, _, h1⟩ | ⟨_, _, h1⟩
    · rw [h1]; exact Or.inr (Or.inl rfl)
    · rw [h, h1]; exact hf _ _
    · rw [h, h1]; exact hf _ _

theorem sameButRegistry_bind (r r1 : Except Failure State)
    (k : State → Except Failure State)
    (hk : ∀ s s1 : State, s.c_file = s1.c_file → s.line = s1.line →
      s.in_function = s1.in_function → sameButRegistry (k s) (k s1)) :
    sameButRegistry r r1 →
    sameButRegistry
      (match r with
        | .error e => .error e
        | .ok s => k s)
      (match r1 with
        | .error e => .error e
        | .ok s => k s) := by
  intro h
  rcases h with h | h | ⟨e, h, h1⟩ | ⟨s, s1, h, h1, a, b, c⟩
  · subst h; exact Or.inl rfl
  · subst h; exact Or.inr (Or.inl rfl)
  · subst h h1; exact sameButRegistry_error e
  · subst h h1; exact hk s s1 a b c

theorem firstPassLine_sameButRegistry (st st1 : State) (chunk : List Char)
    (h1 : st.c_file = st1.c_file) (h2 : st.line = st1.line)
    (h3 : st.in_function = st1.in_function) :
    sameButRegistry (firstPassLine st chunk) (firstPassLine st1 chunk) := by
  obtain ⟨ids, out, line, inf⟩ := st
  obtain ⟨ids1, out1, line1, inf1⟩ := st1
  simp only at h1 h2 h3
  subst h1 h2 h3
  unfold firstPassLine
  simp only []
  split
  · exact sameButRegistry_ok rfl rfl rfl
  · split
    · exact sameButRegistry_ok rfl rfl rfl
    · split
      · split
        · exact sameButRegistry_error _
        · split
          · exact sameButRegistry_error _
          · exact sameButRegistry_add _ _ _ _ _ (fun a b => sameButRegistry_ok rfl rfl rfl)
      · split
        · split
          · exact sameButRegistry_error _
          · split
            · exact sameButRegistry_error _
            · split
              · exact sameButRegistry_error _
              · exact sameButRegistry_add _ _ _ _ _ (fun a b => sameButRegistry_ok rfl rfl rfl)
        · exact sameButRegistry_ok rfl rfl rfl

theorem paramLoop_sameButRegistry : ∀ (fuel : Nat) (st st1 : State) (buf : List Char)
    (tok : Option Nat) (save : Nat) (first : Bool),
    st.c_file = st1.c_file → st.line = st1.line → st.in_function = st1.in_function →
    sameButRegistry (paramLoop fuel st buf tok save first)
      (paramLoop fuel st1 buf tok save first)
  | fuel, st, st1, buf, none, save, first, h1, h2, h3 => by
    rw [paramLoop_none, paramLoop_none]
    exact sameButRegistry_ok h1 rfl h3
  | 0, st, st1, buf, some p, save, first, h1, h2, h3 => by
    simp only [paramLoop]
    exact sameButRegistry_error _
  | fuel + 1, st, st1, buf, some p, save, first, h1, h2, h3 => by
    simp only [paramLoop]
    refine sameButRegistry_add _ _ _ _ _
      (fun a b => paramLoop_sameButRegistry fuel _ _ _ _ _ _ ?_ ?_ ?_)
    · cases first <;> simp [State.fprintf, h1]
    · cases first <;> simp [State.fprintf, h2]
    · cases first <;> simp [State.fprintf, h3]

theorem headerLine_sameButRegistry (st st1 : State) (buf : List Char)
    (h1 : st.c_file = st1.c_file) (h2 : st.line = st1.line)
    (h3 : st.in_function = st1.in_function) :
    sameButRegistry (headerLine st buf) (headerLine st1 buf) := by
  unfold headerLine
  simp only []
  split
  · exact sameButRegistry_error _
  · refine sameButRegistry_bind _ _ _ ?_ (paramLoop_sameButRegistry _ _ _ _ _ _ _ ?_ ?_ ?_)
    · intro s s1 a b c
      exact sameButRegistry_ok (by simp [State.fprintf, a]) (by simp [State.fprintf, b]) rfl
    · rw [h3]; cases st1.in_function <;> simp [State.fprintf, h1]
    · rw [h3]; cases st1.in_function <;> simp [State.fprintf, h2]
    · rw [h3]; cases st1.in_function <;> simp [State.fprintf, h3]

theorem bodyLine_sameButRegistry (st st1 : State) (buf : List Char) (p : Nat)
    (h1 : st.c_file = st1.c_file) (h2 : st.line = st1.line)
    (h3 : st.in_function = st1.in_function) :
    sameButRegistry (bodyLine st buf p) (bodyLine st1 buf p) := by
  unfold bodyLine
  split
  · unfold printStmt
    split
    · exact sameButRegistry_error _
    · exact sameButRegistry_ok (by simp [State.fprintf, h1]) rfl h3
  · split
    · unfold returnStmt
      split
      · exact sameButRegistry_error _
      · exact sameButRegistry_ok (by simp [State.fprintf, h1]) rfl h3
    · split
      · unfold localAssignment
        simp only []
        split
        · exact sameButRegistry_error _
        · split
          · exact sameButRegistry_error _
          · exact sameButRegistry_ok (by simp [State.fprintf, h1]) rfl h3
      · split
        · unfold callStmt
          simp only []
          split
          · exact sameButRegistry_error _
          · exact sameButRegistry_ok (by simp [State.fprintf, h1]) rfl h3
        · exact sameButRegistry_ok h1 h2 h3

theorem secondPassLine_sameButRegistry (st st1 : State) (chunk : List Char)
    (h1 : st.c_file = st1.c_file) (h2 : st.line = st1.line)
    (h3 : st.in_function = st1.in_function) :
    sameButRegistry (secondPassLine st chunk) (secondPassLine st1 chunk) := by
  obtain ⟨ids, out, line, inf⟩ := st
  obtain ⟨ids1, out1, line1, inf1⟩ := st1
  simp only at h1 h2 h3
  subst h1 h2 h3
  unfold secondPassLine
  simp only []
  split
  · exact sameButRegistry_ok rfl rfl rfl
  · split
    · exact headerLine_sameButRegistry _ _ _ rfl rfl rfl
    · split
      · exact bodyLine_sameButRegistry _ _ _ _ rfl rfl rfl
      · exact sameButRegistry_ok rfl rfl rfl

theorem thirdPassLine_sameButRegistry (st st1 : State) (chunk : List Char)
    (h1 : st.c_file = st1.c_file) (h2 : st.line = st1.line)
    (h3 : st.in_function = st1.in_function) :
    sameButRegistry (thirdPassLine st chunk) (thirdPassLine st1 chunk) := by
  obtain ⟨ids, out, line, inf⟩ := st
  obtain ⟨ids1, out1, line1, inf1⟩ := st1
  simp only at h1 h2 h3
  subst h1 h2 h3
  unfold thirdPassLine
  simp only []
  split
  · exact sameButRegistry_ok rfl rfl rfl
  · split
    · exact sameButRegistry_ok rfl rfl rfl
    · split
      · split
        · exact sameButRegistry_error _
        · exact sameButRegistry_ok rfl rfl rfl
      · split
        · split
          · exact sameButRegistry_error _
          · exact sameButRegistry_ok rfl rfl rfl
        · exact sameButRegistry_ok rfl rfl rfl

theorem forChunks_sameButRegistry (body : State → List Char → Except Failure State)
    (hbody : ∀ (st st1 : State) (chunk : List Char), st.c_file = st1.c_file →
      st.line = st1.line → st.in_function = st1.in_function →
      sameButRegistry (body st chunk) (body st1 chunk)) :
    ∀ (chunks : List (List Char)) (st st1 : State), st.c_file = st1.c_file →
      st.line = st1.line → st.in_function = st1.in_function →
      sameButRegistry (forChunks body st chunks) (forChunks body st1 chunks)
  | [], st, st1, h1, h2, h3 => sameButRegistry_ok h1 h2 h3
  | chunk :: rest, st, st1, h1, h2, h3 => by
    simp only [forChunks]
    exact sameButRegistry_bind _ _ _
      (fun s s1 a b c => forChunks_sameButRegistry body hbody rest s s1 a b c)
      (hbody st st1 chunk h1 h2 h3)

/-- The translation from two registries, with the same source and the same content of the
line buffer. -/
theorem generate_c_code_sameButRegistry (ids ids1 : List (List Char))
    (line ml_file : List Char) :
    sameButRegistry (generate_c_code ids line ml_file) (generate_c_code ids1 line ml_file) := by
  unfold generate_c_code
  refine sameButRegistry_bind _ _ _ ?_ ?_
  · intro s s1 a b c
    refine sameButRegistry_bind _ _ _ ?_ ?_
    · intro t t1 a1 b1 c1
      unfold thirdPass
      refine sameButRegistry_bind _ _ _ ?_
        (forChunks_sameButRegistry _ thirdPassLine_sameButRegistry _ _ _
          (by simp [State.fprintf, a1]) b1 c1)
      intro u u1 a2 b2 c2
      exact sameButRegistry_ok (by simp [State.fprintf, a2]) b2 c2
    · unfold secondPass
      refine sameButRegistry_bind _ _ _ ?_
        (forChunks_sameButRegistry _ secondPassLine_sameButRegistry _ _ _ a b c)
      intro t t1 a1 b1 c1
      rw [c1]
      cases t1.in_function
      · exact sameButRegistry_ok a1 b1 c1
      · exact sameButRegistry_ok (by simp [State.fprintf, a1]) b1 c1
  · unfold firstPass
    refine sameButRegistry_bind _ _ _ ?_
      (forChunks_sameButRegistry _ firstPassLine_sameButRegistry _ _ _ rfl rfl rfl)
    intro s s1 a b c
    exact sameButRegistry_ok (by simp [State.fprintf, a]) b c

/-! ## The content of the buffer behind the line read does not matter -/

theorem takeWhile_append_stop (q : Char → Bool) (r t : List Char) {c : Char}
    (hc : q c = false) : (r ++ c :: t).takeWhile q = r.takeWhile q := by
  induction r with
  | nil => simp [List.takeWhile_cons, hc]
  | cons x xs ih =>
    simp only [List.cons_append, List.takeWhile_cons]
    split
    · rw [ih]
    · rfl

theorem BufEq.symm {n : Nat} {b b1 : List Char} (h : BufEq n b b1) : BufEq n b1 b := by
  obtain ⟨X, t, t1, hn, hb, hb1⟩ := h
  exact ⟨X, t1, t, hn, hb1, hb⟩

/-- The string at an offset within the line, in terms of the common part. -/
theorem cstr_common {X t : List Char} {p : Nat} (hp : p ≤ X.length) :
    cstr (X ++ NUL :: t) p = (X.drop p).takeWhile (fun c => c ≠ NUL) := by
  unfold cstr
  rw [List.drop_append_of_le_length hp]
  exact takeWhile_append_stop _ _ _ (by simp)

theorem cstr_bufEq {n p : Nat} {b b1 : List Char} (h : BufEq n b b1) (hp : p ≤ n) :
    cstr b p = cstr b1 p := by
  obtain ⟨X, t, t1, hn, hb, hb1⟩ := h
  subst hn hb hb1
  rw [cstr_common hp, cstr_common hp]

theorem strlen_bound {n p : Nat} {b b1 : List Char} (h : BufEq n b b1) (hp : p ≤ n) :
    p + strlen b p ≤ n := by
  obtain ⟨X, t, t1, hn, hb, hb1⟩ := h
  subst hn hb hb1
  unfold strlen
  rw [cstr_common hp]
  have h1 := (List.takeWhile_prefix (fun c => decide (c ≠ NUL)) (l := X.drop p)).length_le
  rw [List.length_drop] at h1
  omega

theorem charAt_bufEq {n i : Nat} {b b1 : List Char} (h : BufEq n b b1) (hi : i ≤ n) :
    charAt b i = charAt b1 i := by
  obtain ⟨X, t, t1, hn, hb, hb1⟩ := h
  subst hn hb hb1
  rcases Nat.lt_or_ge i X.length with hlt | hge
  · unfold charAt
    simp [List.getD_eq_getElem?_getD, List.getElem?_append_left hlt]
  · have : i = X.length := Nat.le_antisymm hi hge
    rw [charAt_eq rfl this, charAt_eq rfl this]

theorem charAt_end {n : Nat} {b b1 : List Char} (h : BufEq n b b1) : charAt b n = NUL := by
  obtain ⟨X, t, t1, hn, hb, hb1⟩ := h
  subst hn hb hb1
  exact charAt_eq rfl rfl

theorem set_bufEq {n i : Nat} {b b1 : List Char} (h : BufEq n b b1) :
    BufEq n (b.set i NUL) (b1.set i NUL) := by
  obtain ⟨X, t, t1, hn, hb, hb1⟩ := h
  subst hn hb hb1
  rcases Nat.lt_or_ge i X.length with hlt | hge
  · refine ⟨X.set i NUL, t, t1, by simp, ?_, ?_⟩
    · rw [List.set_append_left _ _ hlt]
    · rw [List.set_append_left _ _ hlt]
  · rcases Nat.eq_or_lt_of_le hge with he | hgt
    · subst he
      refine ⟨X, t, t1, rfl, ?_, ?_⟩ <;> simp
    · refine ⟨X, (NUL :: t).set (i - X.length) NUL |>.tail, (NUL :: t1).set (i - X.length) NUL
        |>.tail, rfl, ?_, ?_⟩
      · rw [List.set_append_right _ _ (Nat.le_of_lt hgt)]
        obtain ⟨k, hk⟩ : ∃ k, i - X.length = k + 1 := ⟨i - X.length - 1, by omega⟩
        rw [hk]
        simp
      · rw [List.set_append_right _ _ (Nat.le_of_lt hgt)]
        obtain ⟨k, hk⟩ : ∃ k, i - X.length = k + 1 := ⟨i - X.length - 1, by omega⟩
        rw [hk]
        simp

theorem skipBlanks_bufEq {n p : Nat} {b b1 : List Char} (h : BufEq n b b1) (hp : p ≤ n) :
    skipBlanks b p = skipBlanks b1 p ∧ skipBlanks b p ≤ n := by
  obtain ⟨X, t, t1, hn, hb, hb1⟩ := h
  subst hn hb hb1
  unfold skipBlanks
  rw [List.drop_append_of_le_length hp, List.drop_append_of_le_length hp,
    takeWhile_append_stop _ _ _ (by decide), takeWhile_append_stop _ _ _ (by decide)]
  refine ⟨rfl, ?_⟩
  have h1 := (List.takeWhile_prefix (fun c => decide (c = ' ' ∨ c = '\t'))
    (l := X.drop p)).length_le
  rw [List.length_drop] at h1
  omega

theorem tabs_bufEq {n : Nat} {b b1 : List Char} (h : BufEq n b b1) :
    (b.takeWhile (fun c => c = '\t')).length = (b1.takeWhile (fun c => c = '\t')).length
      ∧ (b.takeWhile (fun c => c = '\t')).length ≤ n := by
  obtain ⟨X, t, t1, hn, hb, hb1⟩ := h
  subst hn hb hb1
  rw [takeWhile_append_stop _ _ _ (by decide), takeWhile_append_stop _ _ _ (by decide)]
  exact ⟨rfl, (List.takeWhile_prefix _).length_le⟩

theorem strlen_bufEq {n p : Nat} {b b1 : List Char} (h : BufEq n b b1) (hp : p ≤ n) :
    strlen b p = strlen b1 p := by
  unfold strlen; rw [cstr_bufEq h hp]

theorem strchr_bufEq {n p : Nat} {b b1 : List Char} (h : BufEq n b b1) (hp : p ≤ n)
    (c : Char) : strchr b p c = strchr b1 p c := by
  unfold strchr; rw [cstr_bufEq h hp]

theorem strchr_bound {n p r : Nat} {b b1 : List Char} {c : Char} (h : BufEq n b b1)
    (hp : p ≤ n) (hr : strchr b p c = some r) : r + 1 ≤ n := by
  unfold strchr at hr
  split at hr
  · rename_i hc
    simp only [Option.some.injEq] at hr
    have h1 := List.indexOf_lt_length.2 hc
    have h2 := strlen_bound h hp
    unfold strlen at h2
    omega
  · cases hr

theorem strstr_bufEq {n p : Nat} {b b1 : List Char} (h : BufEq n b b1) (hp : p ≤ n)
    (needle : List Char) : strstr b p needle = strstr b1 p needle := by
  unfold strstr; rw [cstr_bufEq h hp]

theorem findSub_bound (needle : List Char) :
    ∀ (l : List Char) (i : Nat), findSub needle l = some i → i + needle.length ≤ l.length
  | [], i, h => by
    unfold findSub at h
    split at h
    · rename_i hn
      cases h
      simp [hn]
    · cases h
  | c :: cs, i, h => by
    unfold findSub at h
    split at h
    · rename_i hp
      cases h
      have := (List.isPrefixOf_iff_prefix.1 hp).length_le
      simpa using this
    · cases hf : findSub needle cs with
      | none => rw [hf] at h; cases h
      | some j =>
        rw [hf] at h
        simp only [Option.map_some', Option.some.injEq] at h
        have := findSub_bound needle cs j hf
        simp only [List.length_cons]
        omega

theorem strstr_bound {n p r : Nat} {b b1 : List Char} {needle : List Char}
    (h : BufEq n b b1) (hp : p ≤ n) (hr : strstr b p needle = some r) :
    r + needle.length ≤ n := by
  unfold strstr at hr
  cases hf : findSub needle (cstr b p) with
  | none => rw [hf] at hr; cases hr
  | some i =>
    rw [hf] at hr
    simp only [Option.map_some', Option.some.injEq] at hr
    have h1 := findSub_bound needle _ i hf
    have h2 := strlen_bound h hp
    unfold strlen at h2
    omega

theorem strncmpEq_bufEq {n p : Nat} {b b1 : List Char} (h : BufEq n b b1) (hp : p ≤ n)
    (lit : List Char) : strncmpEq b p lit = strncmpEq b1 p lit := by
  unfold strncmpEq; rw [cstr_bufEq h hp]

theorem strncmpEq_bound {n p : Nat} {b b1 : List Char} {lit : List Char}
    (h : BufEq n b b1) (hp : p ≤ n) (hr : strncmpEq b p lit = true) :
    p + lit.length ≤ n := by
  unfold strncmpEq at hr
  simp only [decide_eq_true_eq] at hr
  have h1 : lit.length ≤ (cstr b p).length := by
    have := congrArg List.length hr
    rw [List.length_take] at this
    omega
  have h2 := strlen_bound h hp
  unfold strlen at h2
  omega

theorem strtok_bufEq {n s : Nat} {b b1 : List Char} (h : BufEq n b b1) (hs : s ≤ n)
    (delim : List Char) :
    (strtok b s delim).tok = (strtok b1 s delim).tok
      ∧ (strtok b s delim).save = (strtok b1 s delim).save
      ∧ BufEq n (strtok b s delim).buf (strtok b1 s delim).buf
      ∧ (∀ q, (strtok b s delim).tok = some q → q ≤ n)
      ∧ (strtok b s delim).save ≤ n := by
  have hspn : strspn b s delim = strspn b1 s delim := by
    unfold strspn; rw [cstr_bufEq h hs]
  have hspn_le : s + strspn b s delim ≤ n := by
    have h1 := strlen_bound h hs
    have h2 : strspn b s delim ≤ strlen b s := by
      unfold strspn strlen
      exact (List.takeWhile_prefix _).length_le
    omega
  have hc1 := charAt_bufEq h hspn_le
  have hcspn : strcspn b (s + strspn b s delim) delim
      = strcspn b1 (s + strspn b s delim) delim := by
    unfold strcspn; rw [cstr_bufEq h hspn_le]
  have hcspn_le : s + strspn b s delim + strcspn b (s + strspn b s delim) delim ≤ n := by
    have h1 := strlen_bound h hspn_le
    have h2 : strcspn b (s + strspn b s delim) delim ≤ strlen b (s + strspn b s delim) := by
      unfold strcspn strlen
      exact (List.takeWhile_prefix _).length_le
    omega
  have hc2 := charAt_bufEq h hcspn_le
  unfold strtok
  simp only [← hspn, ← hc1, ← hcspn, ← hc2]
  split
  · exact ⟨rfl, rfl, h, fun q hq => (by cases hq), hspn_le⟩
  · split
    · refine ⟨rfl, rfl, h, fun q hq => ?_, hcspn_le⟩
      simp only [Option.some.injEq] at hq
      omega
    · rename_i hne
      refine ⟨rfl, rfl, set_bufEq h, fun q hq => ?_, ?_⟩
      · simp only [Option.some.injEq] at hq
        omega
      · have hend := charAt_end h
        have : s + strspn b s delim + strcspn b (s + strspn b s delim) delim ≠ n := by
          intro e
          rw [e] at hne
          exact hne hend
        show s + strspn b s delim + strcspn b (s + strspn b s delim) delim + 1 ≤ n
        omega

theorem trimBack_bufEq (ws : Char → Bool) {n p : Nat} {b b1 : List Char} (h : BufEq n b b1) :
    ∀ k : Nat, p + k ≤ n → trimBack ws b p k = trimBack ws b1 p k ∧ trimBack ws b p k ≤ k
  | 0, _ => ⟨rfl, Nat.le_refl _⟩
  | k + 1, hk => by
    have hc := charAt_bufEq h (show p + k ≤ n by omega)
    obtain ⟨ih1, ih2⟩ := trimBack_bufEq ws (p := p) h k (by omega)
    unfold trimBack
    rw [← hc, ← ih1]
    split
    · exact ⟨rfl, Nat.le_succ_of_le ih2⟩
    · exact ⟨rfl, Nat.le_refl _⟩

theorem trimEnd_bufEq (ws : Char → Bool) {n p : Nat} {b b1 : List Char} (h : BufEq n b b1)
    (hp : p ≤ n) : BufEq n (trimEnd ws b p) (trimEnd ws b1 p) := by
  unfold trimEnd
  rw [← strlen_bufEq h hp,
    ← (trimBack_bufEq ws (p := p) h (strlen b p) (strlen_bound h hp)).1]
  exact set_bufEq h

theorem dropLine_eq {st st1 : State} (h : dropLine st = dropLine st1) :
    st.identifiers = st1.identifiers ∧ st.c_file = st1.c_file
      ∧ st.in_function = st1.in_function := by
  obtain ⟨a, b, c, d⟩ := st
  obtain ⟨a1, b1, c1, d1⟩ := st1
  simp only [dropLine, State.mk.injEq] at h
  exact ⟨h.1, h.2.1, h.2.2.2⟩

theorem dropLine_mk (ids : List (List Char)) (out l l1 : List Char) (inf : Bool) :
    dropLine ⟨ids, out, l, inf⟩ = dropLine ⟨ids, out, l1, inf⟩ := rfl

/-- The expression of a print or return statement does not depend on the content of the
buffer behind the line. -/
theorem bodyExpr_bufEq {n p : Nat} {b b1 : List Char} (h : BufEq n b b1) (hp : p ≤ n) :
    (bodyExpr b p = none ∧ bodyExpr b1 p = none)
      ∨ ∃ b2 b3 e, bodyExpr b p = some (b2, e) ∧ bodyExpr b1 p = some (b3, e)
        ∧ cstr b2 e = cstr b3 e := by
  have h1 := strchr_bufEq h hp ' '
  cases hsp : strchr b p ' ' with
  | none =>
    left
    rw [hsp] at h1
    exact ⟨by simp only [bodyExpr, hsp], by simp only [bodyExpr, ← h1]⟩
  | some sp =>
    right
    rw [hsp] at h1
    have hb := strchr_bound h hp hsp
    have h2 := strchr_bufEq h hb '\n'
    obtain ⟨C, hC⟩ : ∃ C, C = (match strchr b (sp + 1) '\n' with
        | some newline => b.set newline NUL
        | none => b) := ⟨_, rfl⟩
    obtain ⟨D, hD⟩ : ∃ D, D = (match strchr b1 (sp + 1) '\n' with
        | some newline => b1.set newline NUL
        | none => b1) := ⟨_, rfl⟩
    have hcut : BufEq n C D := by
      rw [hC, hD, ← h2]
      cases strchr b (sp + 1) '\n' with
      | none => exact h
      | some nl => exact set_bufEq h
    obtain ⟨h3, h4⟩ := skipBlanks_bufEq hcut hb
    refine ⟨trimEnd isSpaceNl C (skipBlanks C (sp + 1)),
      trimEnd isSpaceNl D (skipBlanks D (sp + 1)), skipBlanks C (sp + 1), ?_, ?_, ?_⟩
    · subst hC
      simp only [bodyExpr, hsp]
    · subst hD
      rw [h3]
      simp only [bodyExpr, ← h1]
    · exact cstr_bufEq (h3 ▸ trimEnd_bufEq _ hcut h4) h4

theorem printStmt_bufEq {n p : Nat} {b b1 : List Char} (st st1 : State)
    (hst : dropLine st = dropLine st1) (h : BufEq n b b1) (hp : p ≤ n) :
    (printStmt st b p).map dropLine = (printStmt st1 b1 p).map dropLine := by
  obtain ⟨e1, e2, e3⟩ := dropLine_eq hst
  unfold printStmt
  rcases bodyExpr_bufEq h hp with ⟨a, a1⟩ | ⟨b2, b3, e, a, a1, a2⟩
  · rw [a, a1]
  · rw [a, a1]
    simp only [Except.map, dropLine, State.fprintf, a2, e1, e2, e3]

theorem returnStmt_bufEq {n p : Nat} {b b1 : List Char} (st st1 : State)
    (hst : dropLine st = dropLine st1) (h : BufEq n b b1) (hp : p ≤ n) :
    (returnStmt st b p).map dropLine = (returnStmt st1 b1 p).map dropLine := by
  obtain ⟨e1, e2, e3⟩ := dropLine_eq hst
  unfold returnStmt
  rcases bodyExpr_bufEq h hp with ⟨a, a1⟩ | ⟨b2, b3, e, a, a1, a2⟩
  · rw [a, a1]
  · rw [a, a1]
    simp only [Except.map, dropLine, State.fprintf, a2, e1, e2, e3]

theorem callStmt_bufEq {n p : Nat} {b b1 : List Char} (st st1 : State)
    (hst : dropLine st = dropLine st1) (h : BufEq n b b1) (hp : p ≤ n) :
    (callStmt st b p).map dropLine = (callStmt st1 b1 p).map dropLine := by
  obtain ⟨e1, e2, e3⟩ := dropLine_eq hst
  obtain ⟨t1, t2, t3, t4, t5⟩ := strtok_bufEq h hp ['\n']
  unfold callStmt
  simp only []
  rw [← t1]
  cases htok : (strtok b p ['\n']).tok with
  | none => rfl
  | some q =>
    have hq := t4 q htok
    simp only [Except.map, dropLine, State.fprintf, cstr_bufEq t3 hq, e1, e2, e3]

/-- The name and the expression of an assignment do not depend on the content of the buffer
behind the line: the result of the steps from `strtok(line, "<-")` to the trimmed
expression. -/
theorem assignment_bufEq {n : Nat} {b b1 : List Char} (h : BufEq n b b1) (op : Nat)
    (hop : op + 2 ≤ n) (q : Nat) (hq : q ≤ n) :
    let t := strtok b 0 ['<', '-']
    let t1 := strtok b1 0 ['<', '-']
    cstr (trimEnd isBlank t.buf (skipBlanks t.buf q)) (skipBlanks t.buf q)
        = cstr (trimEnd isBlank t1.buf (skipBlanks t1.buf q)) (skipBlanks t1.buf q)
      ∧ skipBlanks t.buf q = skipBlanks t1.buf q
      ∧ skipBlanks (trimEnd isBlank t.buf (skipBlanks t.buf q)) (op + 2)
        = skipBlanks (trimEnd isBlank t1.buf (skipBlanks t1.buf q)) (op + 2)
      ∧ cstr (trimEnd isSpaceNl (trimEnd isBlank t.buf (skipBlanks t.buf q))
            (skipBlanks (trimEnd isBlank t.buf (skipBlanks t.buf q)) (op + 2)))
          (skipBlanks t.buf q)
        = cstr (trimEnd isSpaceNl (trimEnd isBlank t1.buf (skipBlanks t1.buf q))
            (skipBlanks (trimEnd isBlank t1.buf (skipBlanks t1.buf q)) (op + 2)))
          (skipBlanks t1.buf q)
      ∧ cstr (trimEnd isSpaceNl (trimEnd isBlank t.buf (skipBlanks t.buf q))
            (skipBlanks (trimEnd isBlank t.buf (skipBlanks t.buf q)) (op + 2)))
          (skipBlanks (trimEnd isBlank t.buf (skipBlanks t.buf q)) (op + 2))
        = cstr (trimEnd isSpaceNl (trimEnd isBlank t1.buf (skipBlanks t1.buf q))
            (skipBlanks (trimEnd isBlank t1.buf (skipBlanks t1.buf q)) (op + 2)))
          (skipBlanks (trimEnd isBlank t1.buf (skipBlanks t1.buf q)) (op + 2)) := by
  intro t t1
  obtain ⟨_, _, t3, _, _⟩ := strtok_bufEq h (Nat.zero_le n) ['<', '-']
  obtain ⟨s1, s2⟩ := skipBlanks_bufEq t3 hq
  have hb1 := trimEnd_bufEq isBlank t3 s2
  have s1a : skipBlanks t.buf q = skipBlanks t1.buf q := s1
  rw [← s1a]
  obtain ⟨s3, s4⟩ := skipBlanks_bufEq hb1 (show op + 2 ≤ n from hop)
  have hb2 := trimEnd_bufEq isSpaceNl hb1 s4
  rw [← s3]
  exact ⟨cstr_bufEq hb1 s2, rfl, rfl, cstr_bufEq hb2 s2, cstr_bufEq hb2 s4⟩

theorem localAssignment_bufEq {n : Nat} {b b1 : List Char} (st st1 : State)
    (hst : dropLine st = dropLine st1) (h : BufEq n b b1) (op : Nat) (hop : op + 2 ≤ n) :
    (localAssignment st b op).map dropLine = (localAssignment st1 b1 op).map dropLine := by
  obtain ⟨e1, e2, e3⟩ := dropLine_eq hst
  obtain ⟨t1, _, _, t4, _⟩ := strtok_bufEq h (Nat.zero_le n) ['<', '-']
  unfold localAssignment
  simp only []
  rw [← t1]
  cases htok : (strtok b 0 ['<', '-']).tok with
  | none => rfl
  | some q =>
    obtain ⟨a1, a2, a3, a4, a5⟩ := assignment_bufEq h op hop q (t4 q htok)
    simp only []
    rw [← a5, ← a4, ← a1]
    split
    · rfl
    · simp only [Except.map, dropLine, State.fprintf, e1, e2, e3]

theorem bodyLine_bufEq {n p : Nat} {b b1 : List Char} (st st1 : State)
    (hst : dropLine st = dropLine st1) (h : BufEq n b b1) (hp : p ≤ n) :
    (bodyLine st b p).map dropLine = (bodyLine st1 b1 p).map dropLine := by
  have hpr := strncmpEq_bufEq h hp "print".toList
  have hcond : (strncmpEq b p "print".toList = true
        ∧ (charAt b (p + 5) = ' ' ∨ charAt b (p + 5) = '\t' ∨ charAt b (p + 5) = NUL))
      ↔ (strncmpEq b1 p "print".toList = true
        ∧ (charAt b1 (p + 5) = ' ' ∨ charAt b1 (p + 5) = '\t' ∨ charAt b1 (p + 5) = NUL)) := by
    rw [← hpr]
    constructor
    · rintro ⟨a, c⟩
      have hb : p + 5 ≤ n := strncmpEq_bound h hp a
      rw [← charAt_bufEq h hb]
      exact ⟨a, c⟩
    · rintro ⟨a, c⟩
      have hb : p + 5 ≤ n := strncmpEq_bound h hp a
      rw [charAt_bufEq h hb]
      exact ⟨a, c⟩
  unfold bodyLine
  by_cases hA : strncmpEq b p "print".toList = true
      ∧ (charAt b (p + 5) = ' ' ∨ charAt b (p + 5) = '\t' ∨ charAt b (p + 5) = NUL)
  · rw [if_pos hA, if_pos (hcond.1 hA)]
    exact printStmt_bufEq st st1 hst h hp
  · rw [if_neg hA, if_neg (fun c => hA (hcond.2 c))]
    rw [← strncmpEq_bufEq h hp "return".toList, ← strstr_bufEq h (Nat.zero_le n) "<-".toList,
      ← strchr_bufEq h hp '(']
    split
    · exact returnStmt_bufEq st st1 hst h hp
    · cases hop : strstr b 0 "<-".toList with
      | some op =>
        exact localAssignment_bufEq st st1 hst h op (strstr_bound h (Nat.zero_le n) hop)
      | none =>
        simp only []
        split
        · exact callStmt_bufEq st st1 hst h hp
        · simp only [Except.map, hst]

theorem paramLoop_bufEq {n : Nat} : ∀ (fuel : Nat) (st st1 : State) (b b1 : List Char)
    (tok : Option Nat) (save : Nat) (first : Bool),
    dropLine st = dropLine st1 → BufEq n b b1 → (∀ q, tok = some q → q ≤ n) → save ≤ n →
    (paramLoop fuel st b tok save first).map dropLine
      = (paramLoop fuel st1 b1 tok save first).map dropLine
  | fuel, st, st1, b, b1, none, save, first, hst, h, hq, hs => by
    obtain ⟨e1, e2, e3⟩ := dropLine_eq hst
    rw [paramLoop_none, paramLoop_none]
    simp only [Except.map, dropLine, e1, e2, e3]
  | 0, st, st1, b, b1, some q, save, first, hst, h, hq, hs => by
    simp only [paramLoop]
  | fuel + 1, st, st1, b, b1, some q, save, first, hst, h, hq, hs => by
    obtain ⟨e1, e2, e3⟩ := dropLine_eq hst
    obtain ⟨t1, t2, t3, t4, t5⟩ := strtok_bufEq h hs [' ']
    have hc := cstr_bufEq h (hq q rfl)
    have hids : ((if first then st else st.fprintf ", ".toList).fprintf
        ("double ".toList ++ cstr b q ++ " ".toList)).identifiers
        = ((if first then st1 else st1.fprintf ", ".toList).fprintf
        ("double ".toList ++ cstr b q ++ " ".toList)).identifiers := by
      cases first <;> simp [State.fprintf, e1]
    simp only [paramLoop]
    rw [← hc, ← hids, ← t1, ← t2]
    cases add_identifier ((if first then st else st.fprintf ", ".toList).fprintf
        ("double ".toList ++ cstr b q ++ " ".toList)).identifiers (cstr b q) with
    | error e => rfl
    | ok ids =>
      simp only []
      refine paramLoop_bufEq fuel _ _ _ _ _ _ _ ?_ t3 t4 t5
      cases first <;> simp [dropLine, State.fprintf, e2, e3]

theorem except_bind_dropLine (k : State → State)
    (hk : ∀ s s1 : State, dropLine s = dropLine s1 → dropLine (k s) = dropLine (k s1)) :
    ∀ r r1 : Except Failure State, r.map dropLine = r1.map dropLine →
      Except.map dropLine
          (match r with
            | Except.error e => Except.error e
            | Except.ok s => Except.ok (k s))
        = Except.map dropLine
          (match r1 with
            | Except.error e => Except.error e
            | Except.ok s => Except.ok (k s)) := by
  intro r r1 hr
  cases r with
  | error e =>
    cases r1 with
    | error e1 => exact hr
    | ok s1 => cases hr
  | ok s =>
    cases r1 with
    | error e1 => cases hr
    | ok s1 =>
      simp only [Except.map, Except.ok.injEq] at hr ⊢
      exact hk s s1 hr

theorem headerLine_bufEq {n : Nat} {b b1 : List Char} (st st1 : State)
    (hst : dropLine st = dropLine st1) (h : BufEq n b b1) (h9 : 9 ≤ n) :
    (headerLine st b).map dropLine = (headerLine st1 b1).map dropLine := by
  obtain ⟨e1, e2, e3⟩ := dropLine_eq hst
  obtain ⟨t1, t2, t3, t4, t5⟩ := strtok_bufEq h h9 [' ']
  obtain ⟨u1, u2, u3, u4, u5⟩ := strtok_bufEq t3 t5 ['\n']
  unfold headerLine
  simp only []
  generalize MAX_LINE_LEN = fuel
  rw [← t1, ← t2]
  cases hname : (strtok b 9 [' ']).tok with
  | none => rfl
  | some name =>
    simp only []
    have hc := cstr_bufEq u3 (t4 name hname)
    rw [← hc, ← u1, ← u2]
    refine except_bind_dropLine
      (fun st3 => { st3.fprintf ") \x7b\n".toList with in_function := true }) ?_ _ _ ?_
    · intro s s1 hs
      obtain ⟨f1, f2, f3⟩ := dropLine_eq hs
      simp only [dropLine, State.fprintf, f1, f2]
    · have hS : dropLine ((if st.in_function then st.fprintf closeText else st).fprintf
          ("double ".toList
            ++ cstr (strtok (strtok b 9 [' ']).buf (strtok b 9 [' ']).save ['\n']).buf name
            ++ "(".toList))
          = dropLine ((if st1.in_function then st1.fprintf closeText else st1).fprintf
          ("double ".toList
            ++ cstr (strtok (strtok b 9 [' ']).buf (strtok b 9 [' ']).save ['\n']).buf name
            ++ "(".toList)) := by
        rw [e3]
        cases st1.in_function <;> simp [dropLine, State.fprintf, e1, e2, e3]
      cases hp : (strtok (strtok b 9 [' ']).buf (strtok b 9 [' ']).save ['\n']).tok with
      | none =>
        simp only []
        obtain ⟨v1, v2, v3, v4, v5⟩ := strtok_bufEq u3 u5 [' ']
        rw [← v1, ← v2]
        exact paramLoop_bufEq fuel _ _ _ _ _ _ _ hS v3 v4 v5
      | some params =>
        simp only []
        obtain ⟨v1, v2, v3, v4, v5⟩ := strtok_bufEq u3 (u4 params hp) [' ']
        rw [← v1, ← v2]
        exact paramLoop_bufEq fuel _ _ _ _ _ _ _ hS v3 v4 v5

/-- The buffers of two runs after the same line was read agree up to the terminator stored
by `fgets`. -/
theorem line_bufEq (l l1 chunk : List Char) :
    BufEq chunk.length (stripComment (fgetsStore l chunk))
      (stripComment (fgetsStore l1 chunk)) := by
  have h : BufEq chunk.length (fgetsStore l chunk) (fgetsStore l1 chunk) :=
    ⟨chunk, _, _, rfl, rfl, rfl⟩
  unfold stripComment
  rw [← strchr_bufEq h (Nat.zero_le _) '#']
  cases strchr (fgetsStore l chunk) 0 '#' with
  | none => exact h
  | some i => exact set_bufEq h

/-- A header line that is more than the bare keyword has a character at offset 8, so that
`line + 9` is within the text read or at its terminator. -/
theorem header_bound (l chunk : List Char) (hbare : chunk ≠ "function".toList)
    (h : strncmpEq (stripComment (fgetsStore l chunk)) 0 "function".toList = true) :
    9 ≤ chunk.length := by
  obtain ⟨t, hbuf, _, _, t3, _⟩ := line_buffer l chunk
  rw [hbuf, t3] at h
  have hp : "function".toList <+: chunk := h.trans (List.takeWhile_prefix _)
  have h1 := hp.length_le
  rcases Nat.lt_or_ge 8 chunk.length with h2 | h2
  · exact h2
  · exfalso
    apply hbare
    exact (hp.eq_of_length (Nat.le_antisymm h1 h2)).symm

theorem firstPassLine_bufEq (st st1 : State) (chunk : List Char)
    (hst : dropLine st = dropLine st1) (hbare : chunk ≠ "function".toList) :
    (firstPassLine st chunk).map dropLine = (firstPassLine st1 chunk).map dropLine := by
  obtain ⟨e1, e2, e3⟩ := dropLine_eq hst
  have hB := line_bufEq st.line st1.line chunk
  have h9 := header_bound st.line chunk hbare
  have z : 0 ≤ chunk.length := Nat.zero_le _
  unfold firstPassLine
  simp only []
  generalize stripComment (fgetsStore st.line chunk) = B at hB h9
  generalize stripComment (fgetsStore st1.line chunk) = B1 at hB
  rw [← strlen_bufEq hB z, ← charAt_bufEq hB z, ← strncmpEq_bufEq hB z,
    ← strchr_bufEq hB z, ← strchr_bufEq hB z, ← strstr_bufEq hB z]
  split
  · simp only [Except.map, dropLine, e1, e2, e3]
  · split
    · simp only [Except.map, dropLine, e1, e2, e3]
    · split
      · rename_i hf
        obtain ⟨t1, t2, t3, t4, t5⟩ := strtok_bufEq hB (h9 hf) [' ']
        rw [← t1]
        cases htok : (strtok B 9 [' ']).tok with
        | none => rfl
        | some name =>
          simp only []
          rw [← cstr_bufEq t3 (t4 name htok), ← e1]
          split
          · rfl
          · cases add_identifier st.identifiers (cstr (strtok B 9 [' ']).buf name) with
            | error e => rfl
            | ok ids => simp only [Except.map, dropLine, e2, e3]
      · split
        · cases hop : strstr B 0 "<-".toList with
          | none => rfl
          | some op =>
            simp only []
            obtain ⟨t1, _, _, t4, _⟩ := strtok_bufEq hB z ['<', '-']
            rw [← t1]
            cases htok : (strtok B 0 ['<', '-']).tok with
            | none => rfl
            | some q =>
              obtain ⟨a1, a2, a3, a4, a5⟩ := assignment_bufEq hB op
                (strstr_bound hB z hop) q (t4 q htok)
              simp only []
              rw [← a5, ← a4, ← a1, ← e1]
              split
              · rfl
              · cases add_identifier st.identifiers
                    (cstr (trimEnd isBlank (strtok B 0 ['<', '-']).buf
                      (skipBlanks (strtok B 0 ['<', '-']).buf q))
                      (skipBlanks (strtok B 0 ['<', '-']).buf q)) with
                | error e => rfl
                | ok ids => simp only [Except.map, dropLine, State.fprintf, e2, e3]
        · simp only [Except.map, dropLine, e1, e2, e3]

theorem secondPassLine_bufEq (st st1 : State) (chunk : List Char)
    (hst : dropLine st = dropLine st1) (hbare : chunk ≠ "function".toList) :
    (secondPassLine st chunk).map dropLine = (secondPassLine st1 chunk).map dropLine := by
  obtain ⟨e1, e2, e3⟩ := dropLine_eq hst
  have hB := line_bufEq st.line st1.line chunk
  have h9 := header_bound st.line chunk hbare
  have z : 0 ≤ chunk.length := Nat.zero_le _
  unfold secondPassLine
  simp only []
  generalize stripComment (fgetsStore st.line chunk) = B at hB h9
  generalize stripComment (fgetsStore st1.line chunk) = B1 at hB
  obtain ⟨i1, i2⟩ := tabs_bufEq hB
  rw [← strlen_bufEq hB z, ← charAt_bufEq hB z, ← strncmpEq_bufEq hB z, ← i1, ← e3]
  have hS : dropLine { st with line := B }
      = dropLine ⟨st1.identifiers, st1.c_file, B1, st.in_function⟩ := by
    simp only [dropLine, e1, e2]
  split
  · exact congrArg Except.ok hS
  · split
    · rename_i hf
      exact headerLine_bufEq _ _ hS hB (h9 hf)
    · split
      · exact bodyLine_bufEq _ _ hS hB i2
      · exact congrArg Except.ok hS

theorem thirdPassLine_bufEq (st st1 : State) (chunk : List Char)
    (hst : dropLine st = dropLine st1) :
    (thirdPassLine st chunk).map dropLine = (thirdPassLine st1 chunk).map dropLine := by
  obtain ⟨e1, e2, e3⟩ := dropLine_eq hst
  have hB := line_bufEq st.line st1.line chunk
  have z : 0 ≤ chunk.length := Nat.zero_le _
  unfold thirdPassLine
  simp only []
  generalize stripComment (fgetsStore st.line chunk) = B at hB
  generalize stripComment (fgetsStore st1.line chunk) = B1 at hB
  have hpr := strncmpEq_bufEq hB z "print".toList
  have hcond : (strncmpEq B 0 "print".toList = true
        ∧ (charAt B 5 = ' ' ∨ charAt B 5 = '\t' ∨ charAt B 5 = NUL))
      ↔ (strncmpEq B1 0 "print".toList = true
        ∧ (charAt B1 5 = ' ' ∨ charAt B1 5 = '\t' ∨ charAt B1 5 = NUL)) := by
    rw [← hpr]
    constructor
    · rintro ⟨a, c⟩
      have hb : 0 + 5 ≤ chunk.length := strncmpEq_bound hB z a
      rw [← charAt_bufEq hB (show 5 ≤ _ by omega)]
      exact ⟨a, c⟩
    · rintro ⟨a, c⟩
      have hb : 0 + 5 ≤ chunk.length := strncmpEq_bound hB z a
      rw [charAt_bufEq hB (show 5 ≤ _ by omega)]
      exact ⟨a, c⟩
  have hS : dropLine { st with line := B } = dropLine { st1 with line := B1 } := by
    simp only [dropLine, e1, e2, e3]
  rw [← strlen_bufEq hB z, ← charAt_bufEq hB z, ← strncmpEq_bufEq hB z "function".toList]
  split
  · exact congrArg Except.ok hS
  · split
    · exact congrArg Except.ok hS
    · by_cases hA : strncmpEq B 0 "print".toList = true
          ∧ (charAt B 5 = ' ' ∨ charAt B 5 = '\t' ∨ charAt B 5 = NUL)
      · rw [if_pos hA, if_pos (hcond.1 hA), ← strchr_bufEq hB z ' ']
        cases hsp : strchr B 0 ' ' with
        | none => rfl
        | some sp =>
          simp only []
          rw [← cstr_bufEq hB (strchr_bound hB z hsp)]
          simp only [Except.map, dropLine, State.fprintf, e1, e2, e3]
      · rw [if_neg hA, if_neg (fun c => hA (hcond.2 c)), ← strchr_bufEq hB z '(']
        split
        · obtain ⟨t1, t2, t3, t4, t5⟩ := strtok_bufEq hB z ['\n']
          rw [← t1]
          cases htok : (strtok B 0 ['\n']).tok with
          | none => rfl
          | some q =>
            simp only []
            rw [← cstr_bufEq t3 (t4 q htok)]
            simp only [Except.map, dropLine, State.fprintf, e1, e2, e3]
        · exact congrArg Except.ok hS

/-- A loop whose steps do not depend on the content of the buffer behind the line read does
not depend on the content of the buffer at its start. -/
theorem forChunks_bufEq (body : State → List Char → Except Failure State) :
    ∀ (chunks : List (List Char)),
    (∀ chunk ∈ chunks, ∀ st st1, dropLine st = dropLine st1 →
      (body st chunk).map dropLine = (body st1 chunk).map dropLine) →
    ∀ st st1, dropLine st = dropLine st1 →
      (forChunks body st chunks).map dropLine = (forChunks body st1 chunks).map dropLine
  | [], _, st, st1, hst => congrArg Except.ok hst
  | chunk :: rest, hbody, st, st1, hst => by
    have h1 := hbody chunk (List.mem_cons_self _ _) st st1 hst
    simp only [forChunks]
    cases hr : body st chunk with
    | error e =>
      cases hr1 : body st1 chunk with
      | error e1 => rw [hr, hr1] at h1; exact h1
      | ok s1 => rw [hr, hr1] at h1; cases h1
    | ok s =>
      cases hr1 : body st1 chunk with
      | error e1 => rw [hr, hr1] at h1; cases h1
      | ok s1 =>
        rw [hr, hr1] at h1
        simp only [Except.map, Except.ok.injEq] at h1
        exact forChunks_bufEq body rest
          (fun c hc => hbody c (List.mem_cons_of_mem _ hc)) s s1 h1

/-- A loop over `a ++ x :: b` in which the step on `x` changes nothing but the buffer gives
the result of the loop over `a ++ b`, up to the buffer. -/
theorem forChunks_skip (body : State → List Char → Except Failure State)
    (a : List (List Char)) (x : List Char) (b : List (List Char))
    (hx : ∀ st, ∃ s2, body st x = .ok s2 ∧ dropLine s2 = dropLine st)
    (hbody : ∀ chunk ∈ a ++ b, ∀ st st1, dropLine st = dropLine st1 →
      (body st chunk).map dropLine = (body st1 chunk).map dropLine)
    (st st1 : State) (hst : dropLine st = dropLine st1) :
    (forChunks body st (a ++ x :: b)).map dropLine
      = (forChunks body st1 (a ++ b)).map dropLine := by
  rw [forChunks_append, forChunks_append]
  have ha := forChunks_bufEq body a (fun c hc => hbody c (List.mem_append_left _ hc)) st st1 hst
  cases hr : forChunks body st a with
  | error e =>
    cases hr1 : forChunks body st1 a with
    | error e1 => rw [hr, hr1] at ha; exact ha
    | ok s1 => rw [hr, hr1] at ha; cases ha
  | ok s =>
    cases hr1 : forChunks body st1 a with
    | error e1 => rw [hr, hr1] at ha; cases ha
    | ok s1 =>
      rw [hr, hr1] at ha
      simp only [Except.map, Except.ok.injEq] at ha
      obtain ⟨s2, h2, h3⟩ := hx s
      simp only [forChunks, h2]
      exact forChunks_bufEq body b (fun c hc => hbody c (List.mem_append_right _ hc)) s2 s1
        (h3.trans ha)

/-- A line that is empty or a newline after the comment is cut changes nothing but the
buffer, in each pass. -/
theorem empty_line_skipped (chunk : List Char)
    (h : visible chunk = [] ∨ (visible chunk).head? = some '\n') (st : State) :
    (∃ s2, firstPassLine st chunk = .ok s2 ∧ dropLine s2 = dropLine st)
      ∧ (∃ s2, secondPassLine st chunk = .ok s2 ∧ dropLine s2 = dropLine st)
      ∧ ∃ s2, thirdPassLine st chunk = .ok s2 ∧ dropLine s2 = dropLine st := by
  obtain ⟨t, hbuf, t1, t2, _, _⟩ := line_buffer st.line chunk
  have hc : strlen (visible chunk ++ NUL :: t) 0 = 0
      ∨ charAt (visible chunk ++ NUL :: t) 0 = '\n' := by
    rcases h with h | h
    · exact Or.inl (t1.2 h)
    · exact Or.inr ((t2 '\n' (by decide)).2 h)
  refine ⟨?_, ?_, ?_⟩
  · unfold firstPassLine
    simp only [hbuf]
    rw [if_pos hc]
    exact ⟨_, rfl, rfl⟩
  · unfold secondPassLine
    simp only [hbuf]
    rw [if_pos hc]
    exact ⟨_, rfl, rfl⟩
  · unfold thirdPassLine
    simp only [hbuf]
    rw [if_pos hc]
    exact ⟨_, rfl, rfl⟩

theorem except_bind_bufEq (k k1 : State → Except Failure State)
    (r r1 : Except Failure State)
    (hk : ∀ s s1 : State, r = .ok s → dropLine s = dropLine s1 →
      (k s).map dropLine = (k1 s1).map dropLine) :
    r.map dropLine = r1.map dropLine →
      Except.map dropLine
          (match r with
            | Except.error e => Except.error e
            | Except.ok s => k s)
        = Except.map dropLine
          (match r1 with
            | Except.error e => Except.error e
            | Except.ok s => k1 s) := by
  intro hr
  cases r with
  | error e =>
    cases r1 with
    | error e1 => exact hr
    | ok s1 => cases hr
  | ok s =>
    cases r1 with
    | error e1 => cases hr
    | ok s1 =>
      simp only [Except.map, Except.ok.injEq] at hr
      exact hk s s1 rfl hr

theorem firstPass_in_function {st s : State} {f : List Char} (h : firstPass st f = .ok s) :
    s.in_function = st.in_function := by
  unfold firstPass at h
  cases h0 : forChunks firstPassLine st (fileChunks f) with
  | error e => rw [h0] at h; cases h
  | ok s0 =>
    rw [h0] at h
    simp only [Except.ok.injEq] at h
    rw [← h]
    exact (forChunks_outputs firstPassLine (fun _ _ => True)
      (fun st chunk st1 hh => by
        obtain ⟨a1, o, a2, _⟩ := firstPassLine_emit hh
        exact ⟨a1, o, a2, trivial⟩) _ _ _ h0).1

/-- Two programs whose loops give the same results up to the buffer, pass by pass, have the
same translation, whatever the content of the buffer at the start. -/
theorem translate_congr (f1 f2 : List Char)
    (h1 : ∀ st st1, dropLine st = dropLine st1 →
      (forChunks firstPassLine st (fileChunks f1)).map dropLine
        = (forChunks firstPassLine st1 (fileChunks f2)).map dropLine)
    (h2 : ∀ st st1, dropLine st = dropLine st1 → st.in_function = false →
      (forChunks secondPassLine st (fileChunks f1)).map dropLine
        = (forChunks secondPassLine st1 (fileChunks f2)).map dropLine)
    (h3 : ∀ st st1, dropLine st = dropLine st1 →
      (forChunks thirdPassLine st (fileChunks f1)).map dropLine
        = (forChunks thirdPassLine st1 (fileChunks f2)).map dropLine)
    (line line1 : List Char) :
    translate line f1 = translate line1 f2 := by
  have p1 : (firstPass ⟨[], preamble, line, false⟩ f1).map dropLine
      = (firstPass ⟨[], preamble, line1, false⟩ f2).map dropLine := by
    unfold firstPass
    exact except_bind_dropLine (fun s => s.fprintf "\n".toList)
      (fun s s1 hs => by
        obtain ⟨a, b, c⟩ := dropLine_eq hs
        simp only [dropLine, State.fprintf, a, b, c]) _ _
      (h1 ⟨[], preamble, line, false⟩ ⟨[], preamble, line1, false⟩ rfl)
  have p2 : ∀ s s1 : State, dropLine s = dropLine s1 → s.in_function = false →
      (secondPass s f1).map dropLine = (secondPass s1 f2).map dropLine := by
    intro s s1 hs hin
    unfold secondPass
    exact except_bind_dropLine (fun s => if s.in_function then s.fprintf closeText else s)
      (fun s s1 hs => by
        obtain ⟨a, b, c⟩ := dropLine_eq hs
        show dropLine (if s.in_function then s.fprintf closeText else s)
          = dropLine (if s1.in_function then s1.fprintf closeText else s1)
        rw [c]
        cases s1.in_function <;> simp [dropLine, State.fprintf, a, b, c]) _ _
      (h2 s s1 hs hin)
  have p3 : ∀ s s1 : State, dropLine s = dropLine s1 →
      (thirdPass s f1).map dropLine = (thirdPass s1 f2).map dropLine := by
    intro s s1 hs
    obtain ⟨a, b, c⟩ := dropLine_eq hs
    unfold thirdPass
    exact except_bind_dropLine (fun s => s.fprintf mainClose)
      (fun s s1 hs => by
        obtain ⟨a, b, c⟩ := dropLine_eq hs
        simp only [dropLine, State.fprintf, a, b, c]) _ _
      (h3 _ _ (by simp only [dropLine, State.fprintf, a, b, c]))
  have hg : (generate_c_code [] line f1).map dropLine
      = (generate_c_code [] line1 f2).map dropLine := by
    unfold generate_c_code
    refine except_bind_bufEq _ _ _ _ ?_ p1
    intro s s1 hs hd
    exact except_bind_bufEq _ _ _ _ (fun t t1 _ ht => p3 t t1 ht)
      (p2 s s1 hd (firstPass_in_function hs))
  unfold translate
  cases hr : generate_c_code [] line f1 with
  | error e =>
    cases hr1 : generate_c_code [] line1 f2 with
    | error e1 =>
      rw [hr, hr1] at hg
      simp only [Except.map, Except.error.injEq] at hg
      rw [hg]
    | ok s1 => rw [hr, hr1] at hg; cases hg
  | ok s =>
    cases hr1 : generate_c_code [] line1 f2 with
    | error e1 => rw [hr, hr1] at hg; cases hg
    | ok s1 =>
      rw [hr, hr1] at hg
      simp only [Except.map, Except.ok.injEq] at hg
      simp only [(dropLine_eq hg).2.1]

/-! ## Comment lines and blank lines -/

set_option maxRecDepth 100000 in
/-- C14, counterexample.  A comment line of 261 characters is read by two calls of `fgets`;
the second call returns the end of the comment, `y <- 2`, which is translated as a line of
the program: inserting the comment before `x <- 1` adds the declaration of `y`. -/
theorem long_comment_line_is_split :
    translate []
        (('#' :: List.replicate 254 'a' ++ "y <- 2".toList) ++ ['\n'] ++ "x <- 1\n".toList)
        = .ok (preamble ++ "double y = 2;\ndouble x = 1;\n".toList ++ "\n".toList ++ mainOpen
          ++ mainClose)
      ∧ translate [] "x <- 1\n".toList
        = .ok (preamble ++ "double x = 1;\n".toList ++ "\n".toList ++ mainOpen ++ mainClose) :=
  ⟨rfl, rfl⟩

/-- C14, amended.  Inserting at a line boundary an empty line, or a line that begins with
`#` and fits the line buffer, does not change the result of the translation (the output or
the failure), for every program of which no call of `fgets` returns the bare text
`function` (an unterminated last line `function`). -/
theorem comment_or_blank_line_inert (line0 pre c post : List Char)
    (hpre : ∀ x ∈ pre.getLast?, x = '\n')
    (hc : c = [] ∨ c.head? = some '#')
    (hcn : ∀ x ∈ c, x ≠ '\n')
    (hlen : (c ++ ['\n']).length < MAX_LINE_LEN)
    (hbare : "function".toList ∉ fileChunks (pre ++ post)) :
    translate line0 (pre ++ (c ++ ['\n']) ++ post) = translate line0 (pre ++ post) := by
  have hchunks1 := fileChunks_middle pre c ['\n'] post hpre hcn (Or.inl rfl) hlen
  have hchunks2 := fileChunks_append pre post hpre
  have hvis : visible (c ++ ['\n']) = [] ∨ (visible (c ++ ['\n'])).head? = some '\n' := by
    rcases hc with h | h
    · subst h
      right
      rfl
    · left
      cases c with
      | nil => cases h
      | cons x r =>
        simp only [List.head?_cons, Option.some.injEq] at h
        subst h
        rfl
  have hne : ∀ chunk ∈ fileChunks pre ++ fileChunks post, chunk ≠ "function".toList := by
    intro chunk hm e
    apply hbare
    rw [hchunks2, ← e]
    exact hm
  apply translate_congr
  · intro st st1 hst
    rw [hchunks1, hchunks2]
    exact forChunks_skip firstPassLine _ _ _ (fun s => (empty_line_skipped _ hvis s).1)
      (fun chunk hm s s1 hs => firstPassLine_bufEq s s1 chunk hs (hne chunk hm)) st st1 hst
  · intro st st1 hst _
    rw [hchunks1, hchunks2]
    exact forChunks_skip secondPassLine _ _ _ (fun s => (empty_line_skipped _ hvis s).2.1)
      (fun chunk hm s s1 hs => secondPassLine_bufEq s s1 chunk hs (hne chunk hm)) st st1 hst
  · intro st st1 hst
    rw [hchunks1, hchunks2]
    exact forChunks_skip thirdPassLine _ _ _ (fun s => (empty_line_skipped _ hvis s).2.2)
      (fun chunk hm s s1 hs => thirdPassLine_bufEq s s1 chunk hs) st st1 hst

/-- C14, witness: a comment line between a declaration and a function. -/
theorem comment_or_blank_line_inert_witness :
    translate [] ("x <- 1\n".toList ++ ("# the function f".toList ++ ['\n'])
        ++ "function f a\n\treturn a + x\nprint f(2)\n".toList)
      = translate [] ("x <- 1\n".toList
        ++ "function f a\n\treturn a + x\nprint f(2)\n".toList) :=
  comment_or_blank_line_inert [] "x <- 1\n".toList "# the function f".toList
    "function f a\n\treturn a + x\nprint f(2)\n".toList (by decide) (Or.inr rfl) (by decide)
    (by decide) (by decide)

/-! ## Determinism -/

set_option maxRecDepth 100000 in
/-- C16, counterexample.  The program `x <- 1` is translated from the empty registry and
rejected with the capacity error from a registry that holds 50 other names. -/
theorem translation_depends_on_registry :
    (generate_c_code [] [] "x <- 1\n".toList).map (fun st => st.c_file)
        = .ok (preamble ++ "double x = 1;\n".toList ++ "\n".toList ++ mainOpen ++ mainClose)
      ∧ (generate_c_code
          ((List.range 50).map (fun i =>
            ['v', Char.ofNat (97 + i / 26), Char.ofNat (97 + i % 26)]))
          [] "x <- 1\n".toList).map (fun st => st.c_file)
        = .error .tooManyIdentifiers :=
  ⟨rfl, rfl⟩

/-- C16, amended.  With the same source text and the same content of the line buffer, the
translations from any two registries give the same output text or the same failure, unless
one of them stops with the capacity error.  The content of the line buffer at the start
does not matter either, for every program of which no call of `fgets` returns the bare text
`function`. -/
theorem translation_deterministic :
    (∀ (ids ids1 : List (List Char)) (line ml_file : List Char),
        generate_c_code ids line ml_file = .error .tooManyIdentifiers
          ∨ generate_c_code ids1 line ml_file = .error .tooManyIdentifiers
          ∨ (generate_c_code ids line ml_file).map (fun st => st.c_file)
            = (generate_c_code ids1 line ml_file).map (fun st => st.c_file))
      ∧ ∀ (line line1 ml_file : List Char), "function".toList ∉ fileChunks ml_file →
        translate line ml_file = translate line1 ml_file := by
  constructor
  · intro ids ids1 line ml_file
    rcases generate_c_code_sameButRegistry ids ids1 line ml_file with
      h | h | ⟨e, h, h1⟩ | ⟨s, s1, h, h1, a, _, _⟩
    · exact Or.inl h
    · exact Or.inr (Or.inl h)
    · right; right
      rw [h, h1]
    · right; right
      rw [h, h1]
      simp only [Except.map, a]
  · intro line line1 ml_file hbare
    have hne : ∀ chunk ∈ fileChunks ml_file, chunk ≠ "function".toList :=
      fun chunk hm e => hbare (e ▸ hm)
    apply translate_congr
    · intro st st1 hst
      exact forChunks_bufEq firstPassLine _
        (fun chunk hm s s1 hs => firstPassLine_bufEq s s1 chunk hs (hne chunk hm)) st st1 hst
    · intro st st1 hst _
      exact forChunks_bufEq secondPassLine _
        (fun chunk hm s s1 hs => secondPassLine_bufEq s s1 chunk hs (hne chunk hm)) st st1 hst
    · intro st st1 hst
      exact forChunks_bufEq thirdPassLine _
        (fun chunk hm s s1 hs => thirdPassLine_bufEq s s1 chunk hs) st st1 hst

/-- C16, witness: a program translated from two contents of the line buffer. -/
theorem translation_deterministic_witness :
    translate [] "x <- 1\nfunction f a\n\treturn a + x\nprint f(2)\n".toList
      = translate "function g b c d e".toList
        "x <- 1\nfunction f a\n\treturn a + x\nprint f(2)\n".toList :=
  translation_deterministic.2 [] "function g b c d e".toList
    "x <- 1\nfunction f a\n\treturn a + x\nprint f(2)\n".toList (by decide)

/-! ## Tab-indented lines before the first function header -/

/-- A loop over `P ++ Q` and the loop over `P` without the chunks that `keep` rejects,
followed by `Q`: the results agree up to the buffer when the step on a rejected chunk
changes nothing but the buffer in the states that satisfy `I`, and the other steps do not
depend on the buffer and keep `I`. -/
theorem forChunks_filter (body : State → List Char → Except Failure State)
    (I : State → Prop) (keep : List Char → Bool)
    (hI : ∀ s s1, dropLine s = dropLine s1 → I s → I s1) (Q : List (List Char))
    (hQ : ∀ x ∈ Q, ∀ st st1, dropLine st = dropLine st1 →
      (body st x).map dropLine = (body st1 x).map dropLine) :
    ∀ (P : List (List Char)),
    (∀ x ∈ P, keep x = false → ∀ st, I st →
      ∃ s2, body st x = .ok s2 ∧ dropLine s2 = dropLine st) →
    (∀ x ∈ P, keep x = true → ∀ st st1, dropLine st = dropLine st1 →
      (body st x).map dropLine = (body st1 x).map dropLine) →
    (∀ x ∈ P, keep x = true → ∀ st s2, I st → body st x = .ok s2 → I s2) →
    ∀ st st1, dropLine st = dropLine st1 → I st →
      (forChunks body st (P ++ Q)).map dropLine
        = (forChunks body st1 (P.filter keep ++ Q)).map dropLine
  | [], _, _, _, st, st1, hst, _ => forChunks_bufEq body Q hQ st st1 hst
  | x :: P, hskip, hkeep, hinv, st, st1, hst, hi => by
    have ih := forChunks_filter body I keep hI Q hQ P
      (fun y hy => hskip y (List.mem_cons_of_mem _ hy))
      (fun y hy => hkeep y (List.mem_cons_of_mem _ hy))
      (fun y hy => hinv y (List.mem_cons_of_mem _ hy))
    by_cases hk : keep x = true
    · have h1 := hkeep x (List.mem_cons_self _ _) hk st st1 hst
      simp only [List.cons_append, List.filter_cons, hk, if_true, forChunks]
      cases hr : body st x with
      | error e =>
        cases hr1 : body st1 x with
        | error e1 => rw [hr, hr1] at h1; exact h1
        | ok s1 => rw [hr, hr1] at h1; cases h1
      | ok s =>
        cases hr1 : body st1 x with
        | error e1 => rw [hr, hr1] at h1; cases h1
        | ok s1 =>
          rw [hr, hr1] at h1
          simp only [Except.map, Except.ok.injEq] at h1
          exact ih s s1 h1 (hinv x (List.mem_cons_self _ _) hk st s hi hr)
    · have hk0 : keep x = false := by simpa using hk
      obtain ⟨s2, h2, h3⟩ := hskip x (List.mem_cons_self _ _) hk0 st hi
      simp only [List.cons_append, List.filter_cons, hk0, Bool.false_eq_true, if_false,
        forChunks, h2]
      exact ih s2 st1 (h3.trans hst) (hI st s2 h3.symm hi)

/-- Outside a function the second pass changes nothing but the buffer on a line that is not
a header. -/
theorem secondPassLine_outside (st : State) (chunk : List Char)
    (hin : st.in_function = false) (hh : isHeaderLine chunk = false) :
    ∃ s2, secondPassLine st chunk = .ok s2 ∧ dropLine s2 = dropLine st := by
  obtain ⟨ids, out, line, inf⟩ := st
  simp only at hin
  subst hin
  obtain ⟨t, hbuf, _, _, t3, _⟩ := line_buffer line chunk
  have hf : strncmpEq (visible chunk ++ NUL :: t) 0 "function".toList = false := by
    rw [Bool.eq_false_iff]
    intro h
    have := (t3 _).1 h
    unfold isHeaderLine at hh
    simp only [decide_eq_false_iff_not] at hh
    exact hh this
  unfold secondPassLine
  simp only [hbuf, hf, Bool.false_eq_true, and_false, if_false]
  split <;> exact ⟨_, rfl, rfl⟩

theorem not_header_of_line {l : List Char} (h : ¬ "function".toList <+: l) :
    isHeaderLine (l ++ ['\n']) = false := by
  unfold isHeaderLine
  simp only [decide_eq_false_iff_not]
  intro hp
  have h1 : "function".toList <+: l ++ ['\n'] := hp.trans (List.takeWhile_prefix _)
  exact h (prefix_of_prefix_snoc (by decide) (by decide) h1)

set_option maxRecDepth 100000 in
/-- C19, counterexample.  A tab-indented line of 261 characters is read by two calls of
`fgets`; the second call returns its end, `y <- 2`, which is translated as a top-level
line: deleting the tab-indented line removes the declaration of `y`. -/
theorem long_tab_line_is_split :
    translate []
        (('\t' :: List.replicate 254 'a' ++ "y <- 2".toList) ++ ['\n'] ++ "x <- 1\n".toList)
        = .ok (preamble ++ "double y = 2;\ndouble x = 1;\n".toList ++ "\n".toList ++ mainOpen
          ++ mainClose)
      ∧ translate [] ("x <- 1\n".toList)
        = .ok (preamble ++ "double x = 1;\n".toList ++ "\n".toList ++ mainOpen ++ mainClose)
      ∧ ('\t' :: List.replicate 254 'a' ++ "y <- 2".toList).head? = some '\t' :=
  ⟨rfl, rfl, rfl⟩

/-! ## The bound of the parameter loop is never reached -/

theorem fgetsChunk_length_le_bound : ∀ (n : Nat) (s : List Char), (fgetsChunk n s).length ≤ n
  | 0, _ => by simp [fgetsChunk]
  | n + 1, [] => by simp [fgetsChunk]
  | n + 1, c :: cs => by
    unfold fgetsChunk
    split
    · simp
    · simp only [List.length_cons, Nat.add_le_add_iff_right]
      exact fgetsChunk_length_le_bound n cs

theorem readChunks_length : ∀ (fuel : Nat) (s : List Char),
    ∀ chunk ∈ readChunks fuel s, chunk.length < MAX_LINE_LEN
  | 0, _ => by simp [readChunks]
  | f + 1, [] => by simp [readChunks]
  | f + 1, c :: cs => by
    intro chunk h
    simp only [readChunks, List.mem_cons] at h
    rcases h with h | h
    · subst h
      have := fgetsChunk_length_le_bound (MAX_LINE_LEN - 1) (c :: cs)
      show _ < 256
      have e : MAX_LINE_LEN - 1 = 255 := rfl
      omega
    · exact readChunks_length f _ chunk h

/-- A call of `fgets` returns fewer characters than the size of the buffer. -/
theorem fileChunks_length (f : List Char) : ∀ chunk ∈ fileChunks f, chunk.length < MAX_LINE_LEN :=
  readChunks_length _ _

theorem charAt_lt {buf : List Char} {i : Nat} (h : charAt buf i ≠ NUL) : i < buf.length := by
  by_contra hge
  apply h
  unfold charAt
  rw [List.getD_eq_getElem?_getD, List.getElem?_eq_none (Nat.le_of_not_lt hge)]
  rfl

theorem cstr_length_le (buf : List Char) (p : Nat) : (cstr buf p).length ≤ buf.length - p := by
  unfold cstr
  have := (List.takeWhile_prefix (fun c => decide (c ≠ NUL)) (l := buf.drop p)).length_le
  rw [List.length_drop] at this
  exact this

theorem strtok_length (buf : List Char) (s : Nat) (d : List Char) :
    (strtok buf s d).buf.length = buf.length := by
  unfold strtok
  simp only []
  split
  · rfl
  · split
    · rfl
    · simp

/-- A call of `strtok` that returns a token moves the saved pointer past the start of the
token and leaves it within the buffer. -/
theorem strtok_progress {buf : List Char} {s q : Nat} {d : List Char}
    (h : (strtok buf s d).tok = some q) :
    s ≤ q ∧ q + 1 ≤ (strtok buf s d).save ∧ (strtok buf s d).save ≤ buf.length := by
  have hlen : strcspn buf (s + strspn buf s d) d ≤ buf.length - (s + strspn buf s d) := by
    unfold strcspn
    exact Nat.le_trans (List.takeWhile_prefix _).length_le (cstr_length_le _ _)
  unfold strtok at h ⊢
  simp only [] at h ⊢
  split at h
  · cases h
  · rename_i h1
    have hlt := charAt_lt h1
    split at h
    · rename_i h2
      simp only [Option.some.injEq] at h
      rw [if_neg h1, if_pos h2]
      subst h
      refine ⟨Nat.le_add_right _ _, ?_, ?_⟩
      · show s + strspn buf s d + 1 ≤ s + strspn buf s d + strcspn buf (s + strspn buf s d) d
        rcases Nat.eq_zero_or_pos (strcspn buf (s + strspn buf s d) d) with h0 | h0
        · rw [h0, Nat.add_zero] at h2
          exact absurd h2 h1
        · omega
      · show s + strspn buf s d + strcspn buf (s + strspn buf s d) d ≤ buf.length
        omega
    · rename_i h2
      simp only [Option.some.injEq] at h
      rw [if_neg h1, if_neg h2]
      subst h
      have hlt2 := charAt_lt h2
      refine ⟨Nat.le_add_right _ _, ?_, ?_⟩
      · show s + strspn buf s d + 1
          ≤ s + strspn buf s d + strcspn buf (s + strspn buf s d) d + 1
        omega
      · show s + strspn buf s d + strcspn buf (s + strspn buf s d) d + 1 ≤ buf.length
        omega

/-- The loop over the parameters does not stop for lack of fuel when the fuel covers the
part of the buffer after the saved pointer; its result keeps the length of the buffer. -/
theorem paramLoop_fuel : ∀ (fuel : Nat) (st : State) (buf : List Char) (tok : Option Nat)
    (save : Nat) (first : Bool),
    (∀ q, tok = some q → save ≤ buf.length ∧ buf.length + 1 ≤ fuel + save) →
    paramLoop fuel st buf tok save first ≠ .error .outOfFuel
      ∧ ∀ st1, paramLoop fuel st buf tok save first = .ok st1 → st1.line.length = buf.length
  | fuel, st, buf, none, save, first, _ => by
    rw [paramLoop_none]
    refine ⟨fun h => (by cases h), fun st1 h => ?_⟩
    cases h
    rfl
  | 0, st, buf, some q, save, first, h => by
    obtain ⟨a, b⟩ := h q rfl
    omega
  | fuel + 1, st, buf, some q, save, first, h => by
    obtain ⟨a, b⟩ := h q rfl
    simp only [paramLoop]
    split
    · rename_i e he
      refine ⟨fun hh => ?_, fun st1 hh => (by cases hh)⟩
      have := (add_identifier_error he).1
      rw [this] at hh
      cases hh
    · have ih := paramLoop_fuel fuel
        { (if first then st else st.fprintf ", ".toList).fprintf
            ("double ".toList ++ cstr buf q ++ " ".toList) with identifiers := ‹_› }
        (strtok buf save [' ']).buf (strtok buf save [' ']).tok (strtok buf save [' ']).save
        false
        (by
          intro q1 hq1
          obtain ⟨p1, p2, p3⟩ := strtok_progress hq1
          rw [strtok_length]
          omega)
      rw [strtok_length] at ih
      exact ih

theorem inBounds_ok {s : State} (h : s.line.length ≤ MAX_LINE_LEN) : inBounds (.ok s) :=
  ⟨fun hh => (by cases hh), fun s1 hs => (by cases hs; exact h)⟩

theorem inBounds_error {e : Failure} (h : e ≠ .outOfFuel) : inBounds (.error e) :=
  ⟨fun hh => (by cases hh; exact h rfl), fun s1 hs => (by cases hs)⟩

theorem stripComment_length (buf : List Char) : (stripComment buf).length = buf.length := by
  unfold stripComment
  cases strchr buf 0 '#' with
  | none => rfl
  | some i => simp

theorem line_buffer_length (line chunk : List Char) (hc : chunk.length < MAX_LINE_LEN)
    (hl : line.length ≤ MAX_LINE_LEN) :
    (stripComment (fgetsStore line chunk)).length ≤ MAX_LINE_LEN := by
  rw [stripComment_length]
  unfold fgetsStore
  simp only [List.length_append, List.length_cons, List.length_drop]
  have h1 : chunk.length < 256 := hc
  have h2 : line.length ≤ 256 := hl
  show _ ≤ 256
  omega

theorem trimEnd_length (ws : Char → Bool) (buf : List Char) (p : Nat) :
    (trimEnd ws buf p).length = buf.length := by
  unfold trimEnd
  simp

theorem bodyExpr_length {buf b2 : List Char} {p e : Nat} (h : bodyExpr buf p = some (b2, e)) :
    b2.length = buf.length := by
  unfold bodyExpr at h
  split at h
  · cases h
  · simp only [Option.some.injEq, Prod.mk.injEq] at h
    rw [← h.1, trimEnd_length]
    split <;> simp

theorem headerLine_inBounds (st : State) (buf : List Char) (h : buf.length ≤ MAX_LINE_LEN) :
    inBounds (headerLine st buf) := by
  have key : ∀ (fuel : Nat) (s : State) (b : List Char) (p : Nat), buf.length ≤ fuel →
      b.length = buf.length →
      inBounds (match paramLoop fuel s (strtok b p [' ']).buf (strtok b p [' ']).tok
          (strtok b p [' ']).save true with
        | Except.error e => Except.error e
        | Except.ok st3 =>
          Except.ok { st3.fprintf ") \x7b\n".toList with in_function := true }) := by
    intro fuel s b p hf hb
    obtain ⟨f1, f2⟩ := paramLoop_fuel fuel s (strtok b p [' ']).buf
      (strtok b p [' ']).tok (strtok b p [' ']).save true
      (by
        intro q hq
        obtain ⟨p1, p2, p3⟩ := strtok_progress hq
        rw [strtok_length, hb]
        refine ⟨by rw [← hb]; exact p3, ?_⟩
        omega)
    rw [strtok_length, hb] at f2
    generalize paramLoop fuel s (strtok b p [' ']).buf (strtok b p [' ']).tok
      (strtok b p [' ']).save true = r at f1 f2
    cases r with
    | error e => exact inBounds_error (fun he => f1 (by rw [he]))
    | ok s3 =>
      refine inBounds_ok ?_
      show s3.line.length ≤ MAX_LINE_LEN
      rw [f2 s3 rfl]
      exact h
  have h0 := h
  unfold headerLine
  simp only []
  generalize MAX_LINE_LEN = fuel at h0 ⊢
  split
  · exact inBounds_error (by decide)
  · cases hp : (strtok (strtok buf 9 [' ']).buf (strtok buf 9 [' ']).save ['\n']).tok with
    | none =>
      simp only []
      exact key _ _ _ _ h0 (by rw [strtok_length, strtok_length])
    | some params =>
      simp only []
      exact key _ _ _ _ h0 (by rw [strtok_length, strtok_length])

theorem bodyLine_inBounds (st : State) (buf : List Char) (p : Nat)
    (h : buf.length ≤ MAX_LINE_LEN) (hst : st.line.length ≤ MAX_LINE_LEN) :
    inBounds (bodyLine st buf p) := by
  unfold bodyLine
  split
  · unfold printStmt
    split
    · exact inBounds_error (by decide)
    · rename_i hb
      refine inBounds_ok ?_
      simp only [State.fprintf, bodyExpr_length hb]
      exact h
  · split
    · unfold returnStmt
      split
      · exact inBounds_error (by decide)
      · rename_i hb
        refine inBounds_ok ?_
        simp only [State.fprintf, bodyExpr_length hb]
        exact h
    · split
      · unfold localAssignment
        simp only []
        split
        · exact inBounds_error (by decide)
        · split
          · exact inBounds_error (by simp)
          · refine inBounds_ok ?_
            simp only [State.fprintf, trimEnd_length, strtok_length]
            exact h
      · split
        · unfold callStmt
          simp only []
          split
          · exact inBounds_error (by decide)
          · refine inBounds_ok ?_
            simp only [State.fprintf, strtok_length]
            exact h
        · exact inBounds_ok hst

theorem firstPassLine_inBounds (st : State) (chunk : List Char)
    (hc : chunk.length < MAX_LINE_LEN) (hl : st.line.length ≤ MAX_LINE_LEN) :
    inBounds (firstPassLine st chunk) := by
  have hB := line_buffer_length st.line chunk hc hl
  unfold firstPassLine
  simp only []
  generalize stripComment (fgetsStore st.line chunk) = B at hB
  split
  · exact inBounds_ok hB
  · split
    · exact inBounds_ok hB
    · split
      · split
        · exact inBounds_error (by decide)
        · split
          · exact inBounds_error (by simp)
          · split
            · rename_i e he
              exact inBounds_error (by rw [(add_identifier_error he).1]; decide)
            · refine inBounds_ok ?_
              simp only [State.fprintf, strtok_length]
              exact hB
      · split
        · split
          · exact inBounds_error (by decide)
          · split
            · exact inBounds_error (by decide)
            · split
              · exact inBounds_error (by simp)
              · split
                · rename_i e he
                  exact inBounds_error (by rw [(add_identifier_error he).1]; decide)
                · refine inBounds_ok ?_
                  simp only [State.fprintf, trimEnd_length, strtok_length]
                  exact hB
        · exact inBounds_ok hB

theorem secondPassLine_inBounds (st : State) (chunk : List Char)
    (hc : chunk.length < MAX_LINE_LEN) (hl : st.line.length ≤ MAX_LINE_LEN) :
    inBounds (secondPassLine st chunk) := by
  have hB := line_buffer_length st.line chunk hc hl
  unfold secondPassLine
  simp only []
  generalize stripComment (fgetsStore st.line chunk) = B at hB
  split
  · exact inBounds_ok hB
  · split
    · exact headerLine_inBounds _ _ hB
    · split
      · exact bodyLine_inBounds _ _ _ hB hB
      · exact inBounds_ok hB

theorem thirdPassLine_inBounds (st : State) (chunk : List Char)
    (hc : chunk.length < MAX_LINE_LEN) (hl : st.line.length ≤ MAX_LINE_LEN) :
    inBounds (thirdPassLine st chunk) := by
  have hB := line_buffer_length st.line chunk hc hl
  unfold thirdPassLine
  simp only []
  generalize stripComment (fgetsStore st.line chunk) = B at hB
  split
  · exact inBounds_ok hB
  · split
    · exact inBounds_ok hB
    · split
      · split
        · exact inBounds_error (by decide)
        · exact inBounds_ok hB
      · split
        · split
          · exact inBounds_error (by decide)
          · refine inBounds_ok ?_
            simp only [State.fprintf, strtok_length]
            exact hB
        · exact inBounds_ok hB

theorem forChunks_inBounds (body : State → List Char → Except Failure State) :
    ∀ (chunks : List (List Char)),
    (∀ chunk ∈ chunks, ∀ st : State, st.line.length ≤ MAX_LINE_LEN → inBounds (body st chunk)) →
    ∀ st : State, st.line.length ≤ MAX_LINE_LEN → inBounds (forChunks body st chunks)
  | [], _, st, hl => inBounds_ok hl
  | chunk :: rest, hbody, st, hl => by
    have h1 := hbody chunk (List.mem_cons_self _ _) st hl
    simp only [forChunks]
    cases hr : body st chunk with
    | error e =>
      rw [hr] at h1
      exact h1
    | ok s =>
      rw [hr] at h1
      exact forChunks_inBounds body rest (fun c hc => hbody c (List.mem_cons_of_mem _ hc)) s
        (h1.2 s rfl)

theorem firstPass_inBounds (st : State) (ml_file : List Char)
    (hst : st.line.length ≤ MAX_LINE_LEN) : inBounds (firstPass st ml_file) := by
  have := forChunks_inBounds firstPassLine _
    (fun c hc s hs => firstPassLine_inBounds s c (fileChunks_length ml_file c hc) hs) st hst
  unfold firstPass
  cases hr : forChunks firstPassLine st (fileChunks ml_file) with
  | error e => rw [hr] at this; exact this
  | ok s => rw [hr] at this; exact inBounds_ok (this.2 s rfl)

/-- The definitions pass never stops for lack of fuel in the parameter loop of the model,
when the buffer has at most the size of the array `line`. -/
theorem secondPass_inBounds (st : State) (ml_file : List Char)
    (hst : st.line.length ≤ MAX_LINE_LEN) : inBounds (secondPass st ml_file) := by
  have := forChunks_inBounds secondPassLine _
    (fun c hc s hs => secondPassLine_inBounds s c (fileChunks_length ml_file c hc) hs) st hst
  unfold secondPass
  cases hr : forChunks secondPassLine st (fileChunks ml_file) with
  | error e => rw [hr] at this; exact this
  | ok s =>
    rw [hr] at this
    refine inBounds_ok ?_
    cases s.in_function
    · exact this.2 s rfl
    · exact this.2 s rfl

theorem thirdPass_inBounds (st : State) (ml_file : List Char)
    (hst : st.line.length ≤ MAX_LINE_LEN) : inBounds (thirdPass st ml_file) := by
  have := forChunks_inBounds thirdPassLine _
    (fun c hc s hs => thirdPassLine_inBounds s c (fileChunks_length ml_file c hc) hs)
    (st.fprintf mainOpen) hst
  unfold thirdPass
  cases hr : forChunks thirdPassLine (st.fprintf mainOpen) (fileChunks ml_file) with
  | error e => rw [hr] at this; exact this
  | ok s => rw [hr] at this; exact inBounds_ok (this.2 s rfl)

/-- The translation never stops for lack of fuel in the parameter loop of the model, when
the buffer at the start has at most the size of the array `line`. -/
theorem generate_c_code_inBounds (ids : List (List Char)) (line ml_file : List Char)
    (hl : line.length ≤ MAX_LINE_LEN) : inBounds (generate_c_code ids line ml_file) := by
  unfold generate_c_code
  have h1 := firstPass_inBounds ⟨ids, preamble, line, false⟩ ml_file hl
  cases hr1 : firstPass ⟨ids, preamble, line, false⟩ ml_file with
  | error e => rw [hr1] at h1; exact h1
  | ok s1 =>
    rw [hr1] at h1
    have h2 := secondPass_inBounds s1 ml_file (h1.2 s1 rfl)
    simp only []
    cases hr2 : secondPass s1 ml_file with
    | error e => rw [hr2] at h2; exact h2
    | ok s2 =>
      rw [hr2] at h2
      exact thirdPass_inBounds s2 ml_file (h2.2 s2 rfl)

theorem translate_fuel (line ml_file : List Char) (hl : line.length ≤ MAX_LINE_LEN) :
    translate line ml_file ≠ .error .outOfFuel := by
  have h := (generate_c_code_inBounds [] line ml_file hl).1
  unfold translate
  cases hr : generate_c_code [] line ml_file with
  | error e =>
    intro he
    simp only [Except.error.injEq] at he
    exact h (by rw [hr, he])
  | ok s =>
    intro he
    cases he

/-! ## The texts written are pieces of the line read -/

theorem cut_bufEq {chunk b : List Char} (h : Cut chunk b) : BufEq chunk.length b b := by
  obtain ⟨X, t, hb, hf⟩ := h
  exact ⟨X, t, t, hf.length_eq, hb, hb⟩

theorem cut_fgetsStore (line chunk : List Char) : Cut chunk (fgetsStore line chunk) :=
  ⟨chunk, line.drop (chunk.length + 1), rfl, List.forall₂_same.2 (fun _ _ => Or.inl rfl)⟩

theorem forall₂_set_nul : ∀ {X chunk : List Char} (i : Nat),
    List.Forall₂ (fun x c => x = c ∨ x = NUL) X chunk →
    List.Forall₂ (fun x c => x = c ∨ x = NUL) (X.set i NUL) chunk
  | _, _, _, List.Forall₂.nil => List.Forall₂.nil
  | _, _, 0, List.Forall₂.cons _ h => List.Forall₂.cons (Or.inr rfl) h
  | _, _, i + 1, List.Forall₂.cons h0 h => List.Forall₂.cons h0 (forall₂_set_nul i h)

theorem cut_set {chunk b : List Char} (i : Nat) (h : Cut chunk b) : Cut chunk (b.set i NUL) := by
  obtain ⟨X, t, hb, hf⟩ := h
  subst hb
  rcases Nat.lt_or_ge i X.length with hlt | hge
  · refine ⟨X.set i NUL, t, ?_, forall₂_set_nul i hf⟩
    rw [List.set_append_left _ _ hlt]
  · rcases Nat.eq_or_lt_of_le hge with he | hgt
    · subst he
      refine ⟨X, t, ?_, hf⟩
      simp
    · refine ⟨X, (NUL :: t).set (i - X.length) NUL |>.tail, ?_, hf⟩
      rw [List.set_append_right _ _ (Nat.le_of_lt hgt)]
      obtain ⟨k, hk⟩ : ∃ k, i - X.length = k + 1 := ⟨i - X.length - 1, by omega⟩
      rw [hk]
      simp

theorem cut_stripComment (line chunk : List Char) :
    Cut chunk (stripComment (fgetsStore line chunk)) := by
  unfold stripComment
  split
  · exact cut_set _ (cut_fgetsStore line chunk)
  · exact cut_fgetsStore line chunk

theorem cut_strtok {chunk b : List Char} (s : Nat) (delim : List Char) (h : Cut chunk b) :
    Cut chunk (strtok b s delim).buf := by
  unfold strtok
  simp only []
  split
  · exact h
  · split
    · exact h
    · exact cut_set _ h

theorem cut_trimEnd {chunk b : List Char} (ws : Char → Bool) (p : Nat) (h : Cut chunk b) :
    Cut chunk (trimEnd ws b p) :=
  cut_set _ h

theorem takeWhile_cut_initial : ∀ {Y C : List Char},
    List.Forall₂ (fun x c => x = c ∨ x = NUL) Y C → Y.takeWhile (fun c => c ≠ NUL) <+: C
  | _, _, List.Forall₂.nil => List.prefix_refl _
  | x :: Y, c :: C, List.Forall₂.cons h0 h => by
    by_cases hx : x = NUL
    · rw [List.takeWhile_cons_of_neg (by simpa using hx)]
      exact List.nil_prefix
    · rw [List.takeWhile_cons_of_pos (by simpa using hx)]
      rcases h0 with h0 | h0
      · subst h0
        exact (List.prefix_cons_inj x).2 (takeWhile_cut_initial h)
      · exact absurd h0 hx

/-- The C string at an offset within the line read is a piece of the line. -/
theorem cstr_cut {chunk b : List Char} {p : Nat} (h : Cut chunk b) (hp : p ≤ chunk.length) :
    cstr b p <+: chunk.drop p ∧ cstr b p <:+: chunk := by
  obtain ⟨X, t, hb, hf⟩ := h
  subst hb
  have hp1 : p ≤ X.length := by rw [hf.length_eq]; exact hp
  rw [cstr_common hp1]
  have h1 : (X.drop p).takeWhile (fun c => decide (c ≠ NUL)) <+: chunk.drop p :=
    takeWhile_cut_initial (List.forall₂_drop p hf)
  refine ⟨h1, ?_⟩
  obtain ⟨z, hz⟩ := h1
  refine ⟨chunk.take p, z, ?_⟩
  rw [List.append_assoc, hz, List.take_append_drop]

theorem cut_bodyExpr {chunk b b2 : List Char} {p e : Nat} (h : Cut chunk b)
    (hp : p ≤ chunk.length) (hb : bodyExpr b p = some (b2, e)) :
    Cut chunk b2 ∧ e ≤ chunk.length := by
  unfold bodyExpr at hb
  split at hb
  · cases hb
  · rename_i sp hsp
    have hsp1 := strchr_bound (cut_bufEq h) hp hsp
    simp only [Option.some.injEq, Prod.mk.injEq] at hb
    obtain ⟨hb2, he⟩ := hb
    have hc1 : Cut chunk (match strchr b (sp + 1) '\n' with
        | some newline => b.set newline NUL
        | none => b) := by
      split
      · exact cut_set _ h
      · exact h
    subst hb2 he
    exact ⟨cut_trimEnd _ _ hc1, (skipBlanks_bufEq (cut_bufEq hc1) hsp1).2⟩

/-- The name and the expression of an assignment are pieces of the line. -/
theorem assignment_pieces {chunk b : List Char} (h : Cut chunk b) (op : Nat)
    (hop : op + 2 ≤ chunk.length) (q : Nat) (hq : q ≤ chunk.length) :
    cstr (trimEnd isSpaceNl
          (trimEnd isBlank (strtok b 0 ['<', '-']).buf (skipBlanks (strtok b 0 ['<', '-']).buf q))
          (skipBlanks
            (trimEnd isBlank (strtok b 0 ['<', '-']).buf
              (skipBlanks (strtok b 0 ['<', '-']).buf q)) (op + 2)))
        (skipBlanks (strtok b 0 ['<', '-']).buf q) <:+: chunk
      ∧ cstr (trimEnd isSpaceNl
          (trimEnd isBlank (strtok b 0 ['<', '-']).buf (skipBlanks (strtok b 0 ['<', '-']).buf q))
          (skipBlanks
            (trimEnd isBlank (strtok b 0 ['<', '-']).buf
              (skipBlanks (strtok b 0 ['<', '-']).buf q)) (op + 2)))
        (skipBlanks
          (trimEnd isBlank (strtok b 0 ['<', '-']).buf
            (skipBlanks (strtok b 0 ['<', '-']).buf q)) (op + 2)) <:+: chunk := by
  have c1 := cut_strtok 0 ['<', '-'] h
  have s2 := (skipBlanks_bufEq (cut_bufEq c1) hq).2
  have c2 := cut_trimEnd isBlank (skipBlanks (strtok b 0 ['<', '-']).buf q) c1
  have s4 := (skipBlanks_bufEq (cut_bufEq c2) hop).2
  have c3 := cut_trimEnd isSpaceNl (skipBlanks
    (trimEnd isBlank (strtok b 0 ['<', '-']).buf
      (skipBlanks (strtok b 0 ['<', '-']).buf q)) (op + 2)) c2
  exact ⟨(cstr_cut c3 s2).2, (cstr_cut c3 s4).2⟩

/-- What a successful step of the first pass writes: one declaration for a line handled as
an assignment, which holds the marker `<-` and whose name and expression are pieces of the
line, and nothing for any other line; the flag `in_function` is not touched. -/
theorem firstPassLine_pieces {st st1 : State} {chunk : List Char}
    (h : firstPassLine st chunk = .ok st1) :
    st1.in_function = st.in_function
      ∧ ∃ o, st1.c_file = st.c_file ++ o
        ∧ if isAssignmentLine chunk then
            ∃ n e, o = "double ".toList ++ n ++ " = ".toList ++ e ++ ";\n".toList
              ∧ n <:+: chunk ∧ e <:+: chunk ∧ "<-".toList <:+: visible chunk
          else o = [] := by
  obtain ⟨t, hbuf, t1, t2, t3, t4⟩ := line_buffer st.line chunk
  have hcut : Cut chunk (visible chunk ++ NUL :: t) := by
    rw [← hbuf]; exact cut_stripComment st.line chunk
  unfold firstPassLine at h
  simp only [hbuf] at h
  unfold isAssignmentLine
  have hn : ('\n' : Char) ≠ NUL := by decide
  have ht : ('\t' : Char) ≠ NUL := by decide
  split at h
  · rename_i hc
    cases h
    refine ⟨rfl, [], (List.append_nil _).symm, ?_⟩
    rw [if_neg]
    rw [t1, t2 _ hn] at hc
    simp only [decide_eq_true_eq]
    tauto
  · split at h
    · rename_i _ hc
      cases h
      refine ⟨rfl, [], (List.append_nil _).symm, ?_⟩
      rw [if_neg]
      rw [t2 _ ht] at hc
      simp only [decide_eq_true_eq]
      tauto
    · split at h
      · rename_i _ _ hc
        have hnot : ¬ (decide (visible chunk ≠ [] ∧ (visible chunk).head? ≠ some '\n'
            ∧ (visible chunk).head? ≠ some '\t' ∧ ¬ "function".toList <+: visible chunk
            ∧ '<' ∈ visible chunk ∧ '-' ∈ visible chunk) = true) := by
          rw [t3] at hc
          simp only [decide_eq_true_eq]
          tauto
        split at h
        · cases h
        · split at h
          · cases h
          · split at h
            · cases h
            · cases h
              exact ⟨rfl, [], (List.append_nil _).symm, by rw [if_neg hnot]⟩
      · split at h
        · rename_i hc1 hc2 hc3 hc4
          have hyes : decide (visible chunk ≠ [] ∧ (visible chunk).head? ≠ some '\n'
              ∧ (visible chunk).head? ≠ some '\t' ∧ ¬ "function".toList <+: visible chunk
              ∧ '<' ∈ visible chunk ∧ '-' ∈ visible chunk) = true := by
            rw [t1, t2 _ hn] at hc1
            rw [t2 _ ht] at hc2
            rw [t3] at hc3
            rw [t4, t4] at hc4
            simp only [decide_eq_true_eq]
            tauto
          split at h
          · cases h
          · rename_i op hop
            split at h
            · cases h
            · rename_i q hq
              have hop2 := strstr_bound (cut_bufEq hcut) (Nat.zero_le _) hop
              have hq2 := (strtok_bufEq (cut_bufEq hcut) (Nat.zero_le _) ['<', '-']).2.2.2.1 q hq
              obtain ⟨p1, p2⟩ := assignment_pieces hcut op hop2 q hq2
              have hm : "<-".toList <:+: visible chunk := by
                apply (findSub_isSome_iff _ _).1
                unfold strstr at hop
                have hz : cstr (visible chunk ++ NUL :: t) 0 = visible chunk :=
                  cstr_zero (fun x hx => (visible_mem hx).1)
                rw [hz] at hop
                cases hf : findSub "<-".toList (visible chunk) with
                | none => rw [hf] at hop; cases hop
                | some i => rfl
              split at h
              · cases h
              · split at h
                · cases h
                · cases h
                  refine ⟨rfl, _, rfl, ?_⟩
                  rw [if_pos hyes]
                  exact ⟨_, _, rfl, p1, p2, hm⟩
        · rename_i hc1 hc2 hc3 hc4
          cases h
          refine ⟨rfl, [], (List.append_nil _).symm, ?_⟩
          rw [if_neg]
          rw [t4, t4] at hc4
          simp only [decide_eq_true_eq]
          tauto

/-- The calls of `fgets` on a program whose lines fit the line buffer return the lines: each
complete line with its newline, then the unterminated last line if there is one. -/
theorem fileChunks_program (ls : List (List Char)) (tail : List Char)
    (hls : ∀ l ∈ ls, (∀ c ∈ l, c ≠ '\n') ∧ (l ++ ['\n']).length < MAX_LINE_LEN)
    (htail : (∀ c ∈ tail, c ≠ '\n') ∧ tail.length < MAX_LINE_LEN) :
    fileChunks ((ls.map (fun l => l ++ ['\n'])).flatten ++ tail)
      = ls.map (fun l => l ++ ['\n']) ++ (if tail = [] then [] else [tail]) := by
  rw [fileChunks_lines ls tail hls]
  congr 1
  by_cases ht : tail = []
  · rw [if_pos ht, ht]
    rfl
  · rw [if_neg ht]
    have h2 : tail.length < 256 := htail.2
    exact fileChunks_last ht htail.1 (by simp; omega)

/-! ## The layout of the output -/

/-- The output of a successful translation, pass by pass; the declarations pass is described
for each piece of the file returned by `fgets`. -/
theorem translate_layout (line0 ml_file out : List Char)
    (h : translate line0 ml_file = .ok out) :
    ∃ (os : List (List Char)) (defs body : List Char),
      out = "#include <stdio.h>\n#include <math.h>\n\ndouble arg0 = 0.0, arg1 = 0.0;\n\n".toList
          ++ (os.flatten ++ "\n".toList) ++ defs
          ++ ("int main(int argc, char *argv[]) \x7b\n".toList ++ body
            ++ "    return 0;\n\x7d\n".toList)
        ∧ List.Forall₂
          (fun chunk o =>
            (∃ st st1, firstPassLine st chunk = .ok st1 ∧ st1.c_file = st.c_file ++ o)
              ∧ if isAssignmentLine chunk then
                  ∃ n e, o = "double ".toList ++ n ++ " = ".toList ++ e ++ ";\n".toList
                    ∧ n <:+: chunk ∧ e <:+: chunk ∧ "<-".toList <:+: visible chunk
                else o = [])
          (fileChunks ml_file) os
        ∧ ∃ st1 st2 st3,
          firstPass ⟨[], preamble, line0, false⟩ ml_file = .ok st1
            ∧ st1.c_file = preamble ++ (os.flatten ++ "\n".toList)
            ∧ secondPass st1 ml_file = .ok st2
            ∧ st2.c_file = st1.c_file ++ defs
            ∧ thirdPass st2 ml_file = .ok st3
            ∧ st3.c_file = st2.c_file ++ (mainOpen ++ body ++ mainClose)
            ∧ out = st3.c_file := by
  unfold translate generate_c_code at h
  cases h1 : firstPass ⟨[], preamble, line0, false⟩ ml_file with
  | error e => rw [h1] at h; cases h
  | ok st1 =>
    rw [h1] at h
    simp only [] at h
    cases h2 : secondPass st1 ml_file with
    | error e => rw [h2] at h; cases h
    | ok st2 =>
      rw [h2] at h
      simp only [] at h
      cases h3 : thirdPass st2 ml_file with
      | error e => rw [h3] at h; cases h
      | ok st3 =>
        rw [h3] at h
        simp only [Except.ok.injEq] at h
        have h1a := h1
        unfold firstPass at h1a
        cases f1 : forChunks firstPassLine ⟨[], preamble, line0, false⟩ (fileChunks ml_file) with
        | error e => rw [f1] at h1a; cases h1a
        | ok s1 =>
          rw [f1] at h1a
          simp only [Except.ok.injEq] at h1a
          obtain ⟨i1, os, o1, o2⟩ := forChunks_outputs firstPassLine
            (fun chunk o =>
              (∃ st st1, firstPassLine st chunk = .ok st1 ∧ st1.c_file = st.c_file ++ o)
                ∧ if isAssignmentLine chunk then
                    ∃ n e, o = "double ".toList ++ n ++ " = ".toList ++ e ++ ";\n".toList
                      ∧ n <:+: chunk ∧ e <:+: chunk ∧ "<-".toList <:+: visible chunk
                  else o = [])
            (by
              intro st chunk st1 hs
              obtain ⟨a1, o, a2, a3⟩ := firstPassLine_pieces hs
              exact ⟨a1, o, a2, ⟨st, st1, hs, a2⟩, a3⟩)
            _ _ _ f1
          have hc1 : st1.c_file = preamble ++ (os.flatten ++ "\n".toList) := by
            rw [← h1a]
            simp only [State.fprintf, o1, List.append_assoc]
          have hin1 : st1.in_function = false := by
            rw [← h1a]
            exact i1
          have h2a := h2
          unfold secondPass at h2a
          cases f2 : forChunks secondPassLine st1 (fileChunks ml_file) with
          | error e => rw [f2] at h2a; cases h2a
          | ok s2 =>
            rw [f2] at h2a
            simp only [Except.ok.injEq] at h2a
            obtain ⟨pre, blocks, _, b2, _, b4⟩ := forChunks_secondPass_blocks _ _ _ f2
            have hc2 : st2.c_file
                = st1.c_file ++ (blocks.map (fun b => b.1 ++ b.2 ++ closeText)).flatten := by
              rw [b2 hin1, hin1] at b4
              simp only [Bool.false_eq_true, if_false, List.append_nil] at b4
              rw [← b4, ← h2a]
              cases s2.in_function
              · simp
              · simp [State.fprintf]
            have h3a := h3
            unfold thirdPass at h3a
            cases f3 : forChunks thirdPassLine (st2.fprintf mainOpen) (fileChunks ml_file) with
            | error e => rw [f3] at h3a; cases h3a
            | ok s3 =>
              rw [f3] at h3a
              simp only [Except.ok.injEq] at h3a
              obtain ⟨_, os3, p1, _⟩ := forChunks_outputs thirdPassLine (fun _ _ => True)
                (by
                  intro st chunk st1 hs
                  obtain ⟨a1, o, a2⟩ := thirdPassLine_emit hs
                  exact ⟨a1, o, a2, trivial⟩)
                _ _ _ f3
              have hc3 : st3.c_file
                  = st2.c_file ++ (mainOpen ++ os3.flatten ++ mainClose) := by
                rw [← h3a]
                simp only [State.fprintf, p1, List.append_assoc]
              refine ⟨os, _, os3.flatten, ?_, o2, st1, st2, st3, rfl, hc1, h2, hc2, h3, hc3,
                h.symm⟩
              rw [← h, hc3, hc2, hc1]
              rfl

set_option maxRecDepth 100000 in
/-- C13, counterexample.  The program of the single top-level assignment line
`x <- 1...1y <- 2` with 250 digits `1`: the line is longer than the line buffer, `fgets`
returns it in two pieces, each of which is handled as an assignment, and the declarations
section holds two declarations for the one line. -/
theorem long_assignment_line_declared_twice :
    '\n' ∉ "x <- ".toList ++ List.replicate 250 '1' ++ "y <- 2".toList
      ∧ fileChunks ("x <- ".toList ++ List.replicate 250 '1' ++ "y <- 2".toList ++ ['\n'])
        = ["x <- ".toList ++ List.replicate 250 '1', "y <- 2\n".toList]
      ∧ translate [] ("x <- ".toList ++ List.replicate 250 '1' ++ "y <- 2".toList ++ ['\n'])
        = .ok (preamble
          ++ ("double x = ".toList ++ List.replicate 250 '1' ++ ";\n".toList
            ++ "double y = 2;\n".toList)
          ++ "\n".toList ++ mainOpen ++ mainClose) :=
  ⟨by decide, rfl, rfl⟩

/-- C13, amended.  The output of a successful translation is the preamble (the two includes
and `double arg0 = 0.0, arg1 = 0.0;`), the output of the declarations pass (the text written
for each piece of the file returned by `fgets`, in source order, then an empty line), the
output of the definitions pass, and the entry point, which opens `main` and ends with
`return 0;` and the closing brace.  For a program whose lines fit the line buffer the pieces
are the lines, and the declarations pass writes exactly one declaration `double N = E;`,
with `N` and `E` pieces of the line, for each line it handles as a top-level assignment (a
line that holds the marker `<-`), and nothing for any other line.  A translation that does
not succeed has stopped at one of the errors of the program: the bound of the parameter loop
of the model is not reached. -/
theorem output_layout (line0 ml_file : List Char) :
    (line0.length ≤ MAX_LINE_LEN → translate line0 ml_file ≠ .error .outOfFuel)
    ∧ (∀ out : List Char, translate line0 ml_file = .ok out →
      ∃ (os : List (List Char)) (defs body : List Char),
        out = "#include <stdio.h>\n#include <math.h>\n\ndouble arg0 = 0.0, arg1 = 0.0;\n\n".toList
            ++ (os.flatten ++ "\n".toList) ++ defs
            ++ ("int main(int argc, char *argv[]) \x7b\n".toList ++ body
              ++ "    return 0;\n\x7d\n".toList)
          ∧ List.Forall₂
            (fun chunk o =>
              (∃ st st1, firstPassLine st chunk = .ok st1 ∧ st1.c_file = st.c_file ++ o)
                ∧ if isAssignmentLine chunk then
                    ∃ n e, o = "double ".toList ++ n ++ " = ".toList ++ e ++ ";\n".toList
                      ∧ n <:+: chunk ∧ e <:+: chunk ∧ "<-".toList <:+: visible chunk
                  else o = [])
            (fileChunks ml_file) os
          ∧ ∃ st1 st2 st3,
            firstPass ⟨[], preamble, line0, false⟩ ml_file = .ok st1
              ∧ st1.c_file = preamble ++ (os.flatten ++ "\n".toList)
              ∧ secondPass st1 ml_file = .ok st2
              ∧ st2.c_file = st1.c_file ++ defs
              ∧ thirdPass st2 ml_file = .ok st3
              ∧ st3.c_file = st2.c_file ++ (mainOpen ++ body ++ mainClose)
              ∧ out = st3.c_file)
    ∧ ∀ (ls : List (List Char)) (tail : List Char),
      (∀ l ∈ ls, (∀ c ∈ l, c ≠ '\n') ∧ (l ++ ['\n']).length < MAX_LINE_LEN) →
      ((∀ c ∈ tail, c ≠ '\n') ∧ tail.length < MAX_LINE_LEN) →
      ml_file = (ls.map (fun l => l ++ ['\n'])).flatten ++ tail →
      ∀ out : List Char, translate line0 ml_file = .ok out →
      ∃ (os : List (List Char)) (defs body : List Char),
        out = "#include <stdio.h>\n#include <math.h>\n\ndouble arg0 = 0.0, arg1 = 0.0;\n\n".toList
            ++ (os.flatten ++ "\n".toList) ++ defs
            ++ ("int main(int argc, char *argv[]) \x7b\n".toList ++ body
              ++ "    return 0;\n\x7d\n".toList)
          ∧ List.Forall₂
            (fun line o =>
              if isAssignmentLine line then
                ∃ n e, o = "double ".toList ++ n ++ " = ".toList ++ e ++ ";\n".toList
                  ∧ n <:+: line ∧ e <:+: line ∧ "<-".toList <:+: visible line
              else o = [])
            (ls.map (fun l => l ++ ['\n']) ++ (if tail = [] then [] else [tail])) os := by
  refine ⟨translate_fuel line0 ml_file, translate_layout line0 ml_file, ?_⟩
  intro ls tail hls htail e out h
  obtain ⟨os, defs, body, h1, h2, _⟩ := translate_layout line0 ml_file out h
  refine ⟨os, defs, body, h1, ?_⟩
  rw [e, fileChunks_program ls tail hls htail] at h2
  exact h2.imp (fun _ _ hx => hx.2)

/-- C13, witness: a program with one declaration, one function and one print statement. -/
theorem output_layout_witness :
    ∃ (os : List (List Char)) (defs body : List Char),
      "#include <stdio.h>\n#include <math.h>\n\ndouble arg0 = 0.0, arg1 = 0.0;\n\n".toList
          ++ "double x = 1;\n".toList ++ "\n".toList
          ++ ("double f(double a ) \x7b\n".toList ++ returnText "a".toList ++ closeText)
          ++ "int main(int argc, char *argv[]) \x7b\n".toList ++ printBlockMain "f(x)\n".toList
          ++ "    return 0;\n\x7d\n".toList
        = "#include <stdio.h>\n#include <math.h>\n\ndouble arg0 = 0.0, arg1 = 0.0;\n\n".toList
          ++ (os.flatten ++ "\n".toList) ++ defs
          ++ ("int main(int argc, char *argv[]) \x7b\n".toList ++ body
            ++ "    return 0;\n\x7d\n".toList)
        ∧ List.Forall₂
          (fun line o =>
            if isAssignmentLine line then
              ∃ n e, o = "double ".toList ++ n ++ " = ".toList ++ e ++ ";\n".toList
                ∧ n <:+: line ∧ e <:+: line ∧ "<-".toList <:+: visible line
            else o = [])
          (["x <- 1".toList, "function f a".toList, "\treturn a".toList,
              "print f(x)".toList].map (fun l => l ++ ['\n'])
            ++ (if ([] : List Char) = [] then [] else [[]])) os :=
  (output_layout [] "x <- 1\nfunction f a\n\treturn a\nprint f(x)\n".toList).2.2
    ["x <- 1".toList, "function f a".toList, "\treturn a".toList, "print f(x)".toList] []
    (by decide) (by decide) rfl
    ("#include <stdio.h>\n#include <math.h>\n\ndouble arg0 = 0.0, arg1 = 0.0;\n\n".toList
      ++ "double x = 1;\n".toList ++ "\n".toList
      ++ ("double f(double a ) \x7b\n".toList ++ returnText "a".toList ++ closeText)
      ++ "int main(int argc, char *argv[]) \x7b\n".toList ++ printBlockMain "f(x)\n".toList
      ++ "    return 0;\n\x7d\n".toList) rfl

/-! ## Print and return statements on any line -/

theorem visible_prepend {a : List Char} (b : List Char) (ha : ∀ c ∈ a, c ≠ NUL ∧ c ≠ '#') :
    visible (a ++ b) = a ++ visible b :=
  visible_append ha

/-- The buffer of a pass for a chunk `print `, `X`: the keyword, the space and the visible
part of `X`. -/
theorem print_chunk_buffer (line X : List Char) :
    ∃ t, stripComment (fgetsStore line ("print ".toList ++ X))
        = "print ".toList ++ visible X ++ NUL :: t
      ∧ ∀ c ∈ "print ".toList ++ visible X, c ≠ NUL := by
  obtain ⟨t, ht⟩ := stripComment_fgetsStore line ("print ".toList ++ X)
  have hv : visible ("print ".toList ++ X) = "print ".toList ++ visible X :=
    visible_prepend X (by decide)
  refine ⟨t, by rw [ht]; exact congrArg (fun l => l ++ NUL :: t) hv, ?_⟩
  intro c hc
  rw [← hv] at hc
  exact (visible_mem hc).1

/-- The third pass writes the print block of a top-level line `print `, `X`, with the
visible text after the space. -/
theorem thirdPassLine_print_chunk (st : State) (X : List Char) :
    ∃ buf, thirdPassLine st ("print ".toList ++ X)
      = .ok ⟨st.identifiers, st.c_file ++ printBlockMain (visible X), buf, st.in_function⟩ := by
  obtain ⟨t, hbuf, hs0⟩ := print_chunk_buffer st.line X
  have hs1 : ∀ c ∈ visible X, c ≠ NUL := fun c hc => hs0 c (List.mem_append_right _ hc)
  have hlen : strlen ("print ".toList ++ visible X ++ NUL :: t) 0 ≠ 0 := by
    unfold strlen; rw [cstr_zero hs0]; simp
  have hc0 : charAt ("print ".toList ++ visible X ++ NUL :: t) 0 = 'p' := rfl
  have hc5 : charAt ("print ".toList ++ visible X ++ NUL :: t) 5 = ' ' := rfl
  have hfn : strncmpEq ("print ".toList ++ visible X ++ NUL :: t) 0 "function".toList
      = false := by
    rw [Bool.eq_false_iff]
    intro h
    exact not_function_of_print ((strncmpEq_iff _ rfl hs0).1 h)
  have hpr : strncmpEq ("print ".toList ++ visible X ++ NUL :: t) 0 "print".toList = true := by
    rw [strncmpEq_iff _ rfl hs0]
    exact ⟨' ' :: visible X, rfl⟩
  have hsp : strchr ("print ".toList ++ visible X ++ NUL :: t) 0 ' ' = some 5 :=
    strchr_some_zero (s := "print".toList) (c := ' ') (r := visible X) (t := t) (by decide) hs1
      (by decide) (by decide)
  have hex : cstr ("print ".toList ++ visible X ++ NUL :: t) (5 + 1) = visible X :=
    cstr_eq (a := "print ".toList) (s := visible X) (t := t) (by simp) rfl hs1
  unfold thirdPassLine
  simp only [hbuf, hlen, hc0, hc5, hfn, hpr, hsp, hex, false_or, if_false, Bool.false_eq_true,
    true_or, and_self, if_true]
  rw [if_neg (by decide)]
  exact ⟨_, rfl⟩

/-- The second pass writes nothing for a top-level line `print `, `X`. -/
theorem secondPassLine_print_chunk (st : State) (X : List Char) :
    ∃ buf, secondPassLine st ("print ".toList ++ X)
      = .ok ⟨st.identifiers, st.c_file, buf, st.in_function⟩ := by
  obtain ⟨t, hbuf, hs0⟩ := print_chunk_buffer st.line X
  have hlen : strlen ("print ".toList ++ visible X ++ NUL :: t) 0 ≠ 0 := by
    unfold strlen; rw [cstr_zero hs0]; simp
  have hc0 : charAt ("print ".toList ++ visible X ++ NUL :: t) 0 = 'p' := rfl
  have hfn : strncmpEq ("print ".toList ++ visible X ++ NUL :: t) 0 "function".toList
      = false := by
    rw [Bool.eq_false_iff]
    intro h
    exact not_function_of_print ((strncmpEq_iff _ rfl hs0).1 h)
  have hind : (("print ".toList ++ visible X ++ NUL :: t).takeWhile
      (fun c => decide (c = '\t'))).length = 0 := by
    have h1 : "print ".toList ++ visible X ++ NUL :: t
        = 'p' :: ("rint ".toList ++ visible X ++ NUL :: t) := rfl
    rw [h1, List.takeWhile_cons_of_neg (by decide)]
    rfl
  unfold secondPassLine
  simp only [hbuf, hlen, hc0, hfn, hind, false_or, if_false, Bool.false_eq_true,
    Nat.lt_irrefl, false_and]
  rw [if_neg (by decide)]
  exact ⟨_, rfl⟩

/-- The first pass writes nothing for a top-level line `print `, `X` whose visible text does
not hold both a `<` and a `-`. -/
theorem firstPassLine_print_chunk (st : State) (X : List Char)
    (hm : ¬ ('<' ∈ visible X ∧ '-' ∈ visible X)) :
    ∃ buf, firstPassLine st ("print ".toList ++ X)
      = .ok ⟨st.identifiers, st.c_file, buf, st.in_function⟩ := by
  obtain ⟨t, hbuf, hs0⟩ := print_chunk_buffer st.line X
  have hlen : strlen ("print ".toList ++ visible X ++ NUL :: t) 0 ≠ 0 := by
    unfold strlen; rw [cstr_zero hs0]; simp
  have hc0 : charAt ("print ".toList ++ visible X ++ NUL :: t) 0 = 'p' := rfl
  have hfn : strncmpEq ("print ".toList ++ visible X ++ NUL :: t) 0 "function".toList
      = false := by
    rw [Bool.eq_false_iff]
    intro h
    exact not_function_of_print ((strncmpEq_iff _ rfl hs0).1 h)
  have hmem : ∀ x : Char, x ∉ "print ".toList → x ∉ visible X →
      strchr ("print ".toList ++ visible X ++ NUL :: t) 0 x = none := by
    intro x hx1 hx3
    apply strchr_none_zero hs0
    intro hx
    rcases List.mem_append.1 hx with h | h
    · exact hx1 h
    · exact hx3 h
  have hcond : ¬ ((strchr ("print ".toList ++ visible X ++ NUL :: t) 0 '<').isSome = true
      ∧ (strchr ("print ".toList ++ visible X ++ NUL :: t) 0 '-').isSome = true) := by
    rintro ⟨h1, h2⟩
    apply hm
    constructor
    · by_contra hn
      rw [hmem '<' (by decide) hn] at h1
      simp at h1
    · by_contra hn
      rw [hmem '-' (by decide) hn] at h2
      simp at h2
  unfold firstPassLine
  simp only [hbuf, hlen, hc0, hfn, false_or, if_false, Bool.false_eq_true]
  rw [if_neg (by decide), if_neg (by decide), if_neg hcond]
  exact ⟨_, rfl⟩

theorem takeWhile_tabs {Ts r : List Char} {c : Char} (hTs : ∀ x ∈ Ts, x = '\t')
    (hc : c ≠ '\t') : ((Ts ++ c :: r).takeWhile (fun x => decide (x = '\t'))).length
      = Ts.length := by
  rw [takeWhile_stop (by simpa using hTs) (by simpa using hc)]

/-- The buffer of the second pass for a body line: tabs, a keyword, a space and the text
`E`, of which the visible part is kept, with or without the newline of the line. -/
theorem body_line_buffer (line Ts K E eol : List Char) (hTs : ∀ x ∈ Ts, x = '\t')
    (hK : ∀ c ∈ K, c ≠ NUL ∧ c ≠ '#') (hE : ∀ c ∈ E, c ≠ '\n')
    (heol : eol = ['\n'] ∨ eol = []) :
    ∃ O t, (O = ['\n'] ∨ O = [])
      ∧ stripComment (fgetsStore line (Ts ++ (K ++ ' ' :: (E ++ eol))))
        = Ts ++ (K ++ ' ' :: (visible E ++ (O ++ NUL :: t)))
      ∧ (∀ c ∈ visible E, c ≠ NUL ∧ c ≠ '\n')
      ∧ ∀ c ∈ Ts ++ (K ++ ' ' :: (visible E ++ O)), c ≠ NUL := by
  obtain ⟨t, ht⟩ := stripComment_fgetsStore line (Ts ++ (K ++ ' ' :: (E ++ eol)))
  have hpre : ∀ c ∈ Ts ++ (K ++ [' ']), c ≠ NUL ∧ c ≠ '#' := by
    intro c hc
    rcases List.mem_append.1 hc with h | h
    · rw [hTs c h]; decide
    · rcases List.mem_append.1 h with h1 | h1
      · exact hK c h1
      · have : c = ' ' := by simpa using h1
        rw [this]; decide
  have hv : visible (Ts ++ (K ++ ' ' :: (E ++ eol)))
      = Ts ++ (K ++ [' ']) ++ visible (E ++ eol) := by
    have e : Ts ++ (K ++ ' ' :: (E ++ eol)) = (Ts ++ (K ++ [' '])) ++ (E ++ eol) := by simp
    rw [e]
    exact visible_prepend _ hpre
  have hvE : ∀ c ∈ visible E, c ≠ NUL ∧ c ≠ '\n' := by
    intro c hc
    exact ⟨(visible_mem hc).1, hE c ((List.takeWhile_sublist _).subset hc)⟩
  have hform : ∀ O : List Char, visible (E ++ eol) = visible E ++ O →
      stripComment (fgetsStore line (Ts ++ (K ++ ' ' :: (E ++ eol))))
        = Ts ++ (K ++ ' ' :: (visible E ++ (O ++ NUL :: t))) := by
    intro O hO
    rw [ht]
    show visible (Ts ++ (K ++ ' ' :: (E ++ eol))) ++ NUL :: t = _
    rw [hv, hO]
    simp
  have hnul : ∀ O : List Char, visible (E ++ eol) = visible E ++ O →
      ∀ c ∈ Ts ++ (K ++ ' ' :: (visible E ++ O)), c ≠ NUL := by
    intro O hO c hc
    have hc1 : c ∈ visible (Ts ++ (K ++ ' ' :: (E ++ eol))) := by
      rw [hv, hO]
      simpa using hc
    exact (visible_mem hc1).1
  rcases visible_line E eol heol with h | h
  · exact ⟨[], t, Or.inr rfl, hform [] (by rw [h, List.append_nil]), hvE,
      hnul [] (by rw [h, List.append_nil])⟩
  · exact ⟨['\n'], t, Or.inl rfl, hform ['\n'] h, hvE, hnul ['\n'] h⟩

/-- The second pass on a body line of tabs, `print`, one space and the text `E`, inside a
function: the print block is written with the visible part of `E` trimmed. -/
theorem secondPassLine_body_print_chunk (st : State) (Ts E eol : List Char)
    (hin : st.in_function = true) (hne : Ts ≠ []) (hTs : ∀ x ∈ Ts, x = '\t')
    (hE : ∀ c ∈ E, c ≠ '\n') (heol : eol = ['\n'] ∨ eol = []) :
    ∃ buf, secondPassLine st (Ts ++ "print ".toList ++ E ++ eol)
      = .ok ⟨st.identifiers, st.c_file ++ printBlockFn (trimmed (visible E)), buf,
          st.in_function⟩ := by
  have hchunk : Ts ++ "print ".toList ++ E ++ eol
      = Ts ++ ("print".toList ++ ' ' :: (E ++ eol)) := by simp
  rw [hchunk]
  obtain ⟨O, t, hO, hbuf, hvE, hs0⟩ := body_line_buffer st.line Ts "print".toList E eol hTs
    (by decide) hE heol
  obtain ⟨x, Tr, rfl⟩ := List.exists_cons_of_ne_nil hne
  have hx : x = '\t' := hTs x (List.mem_cons_self _ _)
  subst hx
  have hs1 : ∀ c ∈ "print".toList ++ ' ' :: (visible E ++ O), c ≠ NUL :=
    fun c hc => hs0 c (List.mem_append_right _ hc)
  have hb0 : ('\t' :: Tr) ++ ("print".toList ++ ' ' :: (visible E ++ (O ++ NUL :: t)))
      = ('\t' :: Tr ++ ("print".toList ++ ' ' :: (visible E ++ O))) ++ NUL :: t := by simp
  have hlen : strlen (('\t' :: Tr) ++ ("print".toList ++ ' ' :: (visible E ++ (O ++ NUL :: t)))) 0
      ≠ 0 := by
    unfold strlen; rw [hb0, cstr_zero hs0]; simp
  have hc0 : charAt (('\t' :: Tr) ++ ("print".toList ++ ' ' :: (visible E ++ (O ++ NUL :: t)))) 0
      = '\t' := rfl
  have hfn : strncmpEq (('\t' :: Tr) ++ ("print".toList ++ ' ' :: (visible E ++ (O ++ NUL :: t))))
      0 "function".toList = false := by
    rw [Bool.eq_false_iff]
    intro h
    obtain ⟨z, hz⟩ := (strncmpEq_iff _ hb0 hs0).1 h
    have := congrArg List.head? hz
    simp at this
  have hind : ((('\t' :: Tr)
      ++ ("print".toList ++ ' ' :: (visible E ++ (O ++ NUL :: t)))).takeWhile
      (fun c => decide (c = '\t'))).length = ('\t' :: Tr).length :=
    takeWhile_tabs (c := 'p') (r := "rint".toList ++ ' ' :: (visible E ++ (O ++ NUL :: t)))
      hTs (by decide)
  have hb1 : ('\t' :: Tr) ++ ("print".toList ++ ' ' :: (visible E ++ (O ++ NUL :: t)))
      = ('\t' :: Tr) ++ (("print".toList ++ ' ' :: (visible E ++ O)) ++ NUL :: t) := by simp
  have hpr : strncmpEq (('\t' :: Tr) ++ ("print".toList ++ ' ' :: (visible E ++ (O ++ NUL :: t))))
      ('\t' :: Tr).length "print".toList = true :=
    (strncmpEq_at _ hb1 rfl hs1).2 ⟨' ' :: (visible E ++ O), rfl⟩
  have hc6 : charAt (('\t' :: Tr) ++ ("print".toList ++ ' ' :: (visible E ++ (O ++ NUL :: t))))
      (('\t' :: Tr).length + 5) = ' ' :=
    charAt_eq (a := ('\t' :: Tr) ++ "print".toList) (t := visible E ++ (O ++ NUL :: t))
      (by simp) (by simp)
  obtain ⟨buf2, e, hbe, hcs⟩ := bodyExpr_spec (a := '\t' :: Tr) (K := "print".toList)
    (E := visible E) (O := O) (t := t) rfl (by decide) hvE hO
  unfold secondPassLine
  simp only [hbuf, hlen, hc0, hfn, hind, false_or, if_false, Bool.false_eq_true, hin]
  rw [if_neg (by decide), if_pos ⟨by simp, trivial⟩]
  unfold bodyLine
  rw [if_pos ⟨hpr, Or.inl hc6⟩]
  unfold printStmt
  rw [hbe]
  simp only [hcs]
  exact ⟨_, rfl⟩

/-- The second pass on a body line of tabs, `return`, one space and the text `E`, inside a
function: the return statement is written with the visible part of `E` trimmed. -/
theorem secondPassLine_body_return_chunk (st : State) (Ts E eol : List Char)
    (hin : st.in_function = true) (hne : Ts ≠ []) (hTs : ∀ x ∈ Ts, x = '\t')
    (hE : ∀ c ∈ E, c ≠ '\n') (heol : eol = ['\n'] ∨ eol = []) :
    ∃ buf, secondPassLine st (Ts ++ "return ".toList ++ E ++ eol)
      = .ok ⟨st.identifiers, st.c_file ++ returnText (trimmed (visible E)), buf,
          st.in_function⟩ := by
  have hchunk : Ts ++ "return ".toList ++ E ++ eol
      = Ts ++ ("return".toList ++ ' ' :: (E ++ eol)) := by simp
  rw [hchunk]
  obtain ⟨O, t, hO, hbuf, hvE, hs0⟩ := body_line_buffer st.line Ts "return".toList E eol hTs
    (by decide) hE heol
  obtain ⟨x, Tr, rfl⟩ := List.exists_cons_of_ne_nil hne
  have hx : x = '\t' := hTs x (List.mem_cons_self _ _)
  subst hx
  have hs1 : ∀ c ∈ "return".toList ++ ' ' :: (visible E ++ O), c ≠ NUL :=
    fun c hc => hs0 c (List.mem_append_right _ hc)
  have hb0 : ('\t' :: Tr) ++ ("return".toList ++ ' ' :: (visible E ++ (O ++ NUL :: t)))
      = ('\t' :: Tr ++ ("return".toList ++ ' ' :: (visible E ++ O))) ++ NUL :: t := by simp
  have hlen : strlen (('\t' :: Tr) ++ ("return".toList ++ ' ' :: (visible E ++ (O ++ NUL :: t)))) 0
      ≠ 0 := by
    unfold strlen; rw [hb0, cstr_zero hs0]; simp
  have hc0 : charAt (('\t' :: Tr) ++ ("return".toList ++ ' ' :: (visible E ++ (O ++ NUL :: t)))) 0
      = '\t' := rfl
  have hfn : strncmpEq (('\t' :: Tr) ++ ("return".toList ++ ' ' :: (visible E ++ (O ++ NUL :: t))))
      0 "function".toList = false := by
    rw [Bool.eq_false_iff]
    intro h
    obtain ⟨z, hz⟩ := (strncmpEq_iff _ hb0 hs0).1 h
    have := congrArg List.head? hz
    simp at this
  have hind : ((('\t' :: Tr)
      ++ ("return".toList ++ ' ' :: (visible E ++ (O ++ NUL :: t)))).takeWhile
      (fun c => decide (c = '\t'))).length = ('\t' :: Tr).length :=
    takeWhile_tabs (c := 'r') (r := "eturn".toList ++ ' ' :: (visible E ++ (O ++ NUL :: t)))
      hTs (by decide)
  have hb1 : ('\t' :: Tr) ++ ("return".toList ++ ' ' :: (visible E ++ (O ++ NUL :: t)))
      = ('\t' :: Tr) ++ (("return".toList ++ ' ' :: (visible E ++ O)) ++ NUL :: t) := by simp
  have hpr : strncmpEq (('\t' :: Tr) ++ ("return".toList ++ ' ' :: (visible E ++ (O ++ NUL :: t))))
      ('\t' :: Tr).length "print".toList = false := by
    rw [Bool.eq_false_iff]
    intro h
    obtain ⟨z, hz⟩ := (strncmpEq_at _ hb1 rfl hs1).1 h
    have := congrArg List.head? hz
    simp at this
  have hret : strncmpEq (('\t' :: Tr) ++ ("return".toList ++ ' ' :: (visible E ++ (O ++ NUL :: t))))
      ('\t' :: Tr).length "return".toList = true :=
    (strncmpEq_at _ hb1 rfl hs1).2 ⟨' ' :: (visible E ++ O), rfl⟩
  obtain ⟨buf2, e, hbe, hcs⟩ := bodyExpr_spec (a := '\t' :: Tr) (K := "return".toList)
    (E := visible E) (O := O) (t := t) rfl (by decide) hvE hO
  unfold secondPassLine
  simp only [hbuf, hlen, hc0, hfn, hind, false_or, if_false, Bool.false_eq_true, hin]
  rw [if_neg (by decide), if_pos ⟨by simp, trivial⟩]
  unfold bodyLine
  rw [if_neg (by rw [hpr]; simp), if_pos hret]
  unfold returnStmt
  rw [hbe]
  simp only [hcs]
  exact ⟨_, rfl⟩

set_option maxRecDepth 100000 in
/-- C15, counterexample.  The top-level print statement `print 1 - 2 < 3` holds a `<` and a
`-`: the first pass takes the line for an assignment without marker and stops the
translation, so that no block is written for it, while the same statement in a function
body is written as a block.  The top-level print statement `print 1...1` with 260 digits is
longer than the line buffer: the block holds the first 249 digits only. -/
theorem print_statement_not_emitted :
    translate [] "print 1 - 2 < 3\n".toList = .error .invalidAssignment
      ∧ translate [] "function f a\n\tprint 1 - 2 < 3\n".toList
        = .ok (preamble ++ "\n".toList ++ "double f(double a ) \x7b\n".toList
          ++ printBlockFn "1 - 2 < 3".toList ++ closeText ++ mainOpen ++ mainClose)
      ∧ translate [] ("print ".toList ++ List.replicate 260 '1' ++ "\n".toList)
        = .ok (preamble ++ "\n".toList ++ mainOpen ++ printBlockMain (List.replicate 249 '1')
          ++ mainClose) :=
  ⟨rfl, rfl, rfl⟩

/-- C15, amended.  A print statement whose keyword is followed by a space, on a line that
fits the line buffer (such a line is read by one call of `fgets`), is written as one block,
once.  A top-level line `print `, `X` is written by the third pass as the block of `main`
with the visible text after the space, and the second pass writes nothing for it, nor does
the first when that text does not hold both a `<` and a `-`.  A body line of tabs, `print `
and `E` inside a function is written by the second pass as the block of a function with the
visible part of `E` trimmed, and the first and third pass write nothing for it.  Each block
assigns the expression text, inserted once, to a `double` temporary and prints it with
`%d` after a cast to `int` when it equals its truncation, otherwise with `%.6f`, each
followed by a newline. -/
theorem print_statement_block (st : State) :
    (∀ X : List Char, ∃ buf, thirdPassLine st ("print ".toList ++ X)
        = .ok ⟨st.identifiers, st.c_file ++ printBlockMain (visible X), buf, st.in_function⟩)
      ∧ (∀ X : List Char, ∃ buf, secondPassLine st ("print ".toList ++ X)
        = .ok ⟨st.identifiers, st.c_file, buf, st.in_function⟩)
      ∧ (∀ X : List Char, ¬ ('<' ∈ visible X ∧ '-' ∈ visible X) →
        ∃ buf, firstPassLine st ("print ".toList ++ X)
          = .ok ⟨st.identifiers, st.c_file, buf, st.in_function⟩)
      ∧ (∀ Ts E eol : List Char, st.in_function = true → Ts ≠ [] → (∀ x ∈ Ts, x = '\t') →
        (∀ c ∈ E, c ≠ '\n') → (eol = ['\n'] ∨ eol = []) →
        ∃ buf, secondPassLine st (Ts ++ "print ".toList ++ E ++ eol)
          = .ok ⟨st.identifiers, st.c_file ++ printBlockFn (trimmed (visible E)), buf,
              st.in_function⟩)
      ∧ (∀ rest : List Char, ∃ buf, firstPassLine st ('\t' :: rest)
        = .ok ⟨st.identifiers, st.c_file, buf, st.in_function⟩)
      ∧ (∀ rest : List Char, ∃ buf, thirdPassLine st ('\t' :: rest)
        = .ok ⟨st.identifiers, st.c_file, buf, st.in_function⟩)
      ∧ (∀ e : List Char, printBlockMain e
        = "    \x7b\n        double value = (double)(".toList ++ e
          ++ (");\n        if (value == (int)value) \x7b\n".toList
            ++ "            printf(\"%d\\n\", (int)value);\n        \x7d else \x7b\n".toList
            ++ "            printf(\"%.6f\\n\", value);\n        \x7d\n    \x7d\n".toList))
      ∧ (∀ e : List Char, printBlockFn e
        = "    \x7b\n        double t_value = ".toList ++ e
          ++ (";\n        if (t_value == (int)t_value) \x7b\n".toList
            ++ "            printf(\"%d\\n\", (int)t_value);\n        \x7d else \x7b\n".toList
            ++ "            printf(\"%.6f\\n\", t_value);\n        \x7d\n    \x7d\n".toList))
      ∧ (∀ pre l eol post : List Char, (∀ c ∈ pre.getLast?, c = '\n') → (∀ c ∈ l, c ≠ '\n') →
        (eol = ['\n'] ∨ (eol = [] ∧ post = [] ∧ l ≠ [])) →
        (l ++ eol).length < MAX_LINE_LEN →
        fileChunks (pre ++ (l ++ eol) ++ post)
          = fileChunks pre ++ (l ++ eol) :: fileChunks post) := by
  refine ⟨thirdPassLine_print_chunk st, secondPassLine_print_chunk st,
    firstPassLine_print_chunk st,
    fun Ts E eol hin hne hTs hE heol =>
      secondPassLine_body_print_chunk st Ts E eol hin hne hTs hE heol,
    fun rest => (tab_line_skipped st rest).1, fun rest => (tab_line_skipped st rest).2,
    ?_, ?_, fileChunks_middle⟩
  · intro e
    unfold printBlockMain
    simp only [List.append_assoc]
    rfl
  · intro e
    unfold printBlockFn
    simp only [List.append_assoc]
    rfl

/-- C15, witness: the line `print x + 1 # sum` at top level and, in a function, the line
`<TAB>print x + 1 # sum`. -/
theorem print_statement_block_witness :
    (∃ buf, firstPassLine ⟨[], [], [], true⟩ ("print ".toList ++ "x + 1 # sum\n".toList)
        = .ok ⟨[], [], buf, true⟩)
      ∧ (∃ buf, thirdPassLine ⟨[], [], [], true⟩ ("print ".toList ++ "x + 1 # sum\n".toList)
        = .ok ⟨[], [] ++ printBlockMain "x + 1 ".toList, buf, true⟩)
      ∧ (∃ buf, secondPassLine ⟨[], [], [], true⟩
          (['\t'] ++ "print ".toList ++ "x + 1 # sum".toList ++ ['\n'])
        = .ok ⟨[], [] ++ printBlockFn "x + 1".toList, buf, true⟩)
      ∧ fileChunks ("a <- 1\n".toList ++ ("print a".toList ++ ['\n']) ++ "print 2\n".toList)
        = fileChunks "a <- 1\n".toList ++ ("print a".toList ++ ['\n'])
          :: fileChunks "print 2\n".toList :=
  ⟨(print_statement_block ⟨[], [], [], true⟩).2.2.1 "x + 1 # sum\n".toList (by decide),
    (print_statement_block ⟨[], [], [], true⟩).1 "x + 1 # sum\n".toList,
    (print_statement_block ⟨[], [], [], true⟩).2.2.2.1 ['\t'] "x + 1 # sum".toList ['\n'] rfl
      (by decide) (by decide) (by decide) (Or.inl rfl),
    (print_statement_block ⟨[], [], [], true⟩).2.2.2.2.2.2.2.2 "a <- 1\n".toList
      "print a".toList ['\n'] "print 2\n".toList (by decide) (by decide) (Or.inl rfl)
      (by decide)⟩

/-! ## Deleting the tab-indented lines before the first function header -/

/-- Two programs whose pieces are `P ++ Q` and `P` without its tab-indented pieces followed
by `Q` have the same translation, when no piece of `P` begins with the function keyword and
no piece is the bare text `function`. -/
theorem tab_chunks_inert (line0 f1 f2 : List Char) (P Q : List (List Char))
    (h1 : fileChunks f1 = P ++ Q)
    (h2 : fileChunks f2 = P.filter (fun chunk => chunk.head? ≠ some '\t') ++ Q)
    (hP : ∀ x ∈ P, x ≠ "function".toList ∧ isHeaderLine x = false)
    (hQ : ∀ chunk ∈ Q, chunk ≠ "function".toList) :
    translate line0 f1 = translate line0 f2 := by
  have htab : ∀ x : List Char, decide (x.head? ≠ some '\t') = false →
      ∃ rest, x = '\t' :: rest := by
    intro x hx
    cases x with
    | nil => simp at hx
    | cons c r =>
      simp only [List.head?_cons, ne_eq, Option.some.injEq, decide_not, Bool.not_eq_false',
        decide_eq_true_eq] at hx
      exact ⟨r, by rw [hx]⟩
  apply translate_congr
  · intro st st1 hst
    rw [h1, h2]
    refine forChunks_filter firstPassLine (fun _ => True) _ (fun _ _ _ _ => trivial) _
      (fun chunk hm s s1 hs => firstPassLine_bufEq s s1 chunk hs (hQ chunk hm)) _
      ?_ ?_ (fun _ _ _ _ _ _ _ => trivial) st st1 hst trivial
    · intro x _ hk s _
      obtain ⟨rest, rfl⟩ := htab x hk
      obtain ⟨buf, hb⟩ := (tab_line_skipped s rest).1
      exact ⟨_, hb, rfl⟩
    · intro x hx _ s s1 hs
      exact firstPassLine_bufEq s s1 x hs (hP x hx).1
  · intro st st1 hst hin
    rw [h1, h2]
    refine forChunks_filter secondPassLine (fun s => s.in_function = false) _
      (fun s s1 hs h => ((dropLine_eq hs).2.2).symm.trans h) _
      (fun chunk hm s s1 hs => secondPassLine_bufEq s s1 chunk hs (hQ chunk hm)) _
      ?_ ?_ ?_ st st1 hst hin
    · intro x hx _ s hs
      exact secondPassLine_outside s x hs (hP x hx).2
    · intro x hx _ s s1 hs
      exact secondPassLine_bufEq s s1 x hs (hP x hx).1
    · intro x hx _ s s2 hs hstep
      have hem := secondPassLine_emit hstep
      rw [(hP x hx).2] at hem
      simp only [Bool.false_eq_true, if_false] at hem
      rw [hem.1]
      exact hs
  · intro st st1 hst
    rw [h1, h2]
    refine forChunks_filter thirdPassLine (fun _ => True) _ (fun _ _ _ _ => trivial) _
      (fun chunk hm s s1 hs => thirdPassLine_bufEq s s1 chunk hs) _
      ?_ ?_ (fun _ _ _ _ _ _ _ => trivial) st st1 hst trivial
    · intro x _ hk s _
      obtain ⟨rest, rfl⟩ := htab x hk
      obtain ⟨buf, hb⟩ := (tab_line_skipped s rest).2
      exact ⟨_, hb, rfl⟩
    · intro x hx _ s s1 hs
      exact thirdPassLine_bufEq s s1 x hs

theorem filter_map_lines (pre : List (List Char)) :
    (pre.filter (fun l => l.head? ≠ some '\t')).map (fun l => l ++ ['\n'])
      = (pre.map (fun l => l ++ ['\n'])).filter (fun chunk => chunk.head? ≠ some '\t') := by
  rw [List.filter_map]
  congr 1
  apply List.filter_congr
  intro l _
  cases l <;> simp

/-- C19, amended.  For a program whose lines before the first function header all fit the
line buffer: deleting every tab-indented line that precedes the first function header does
not change the result of the translation (the output or the failure), whatever those lines
contain.  The lines `pre` are lines of the program before its first header (none begins with
the function keyword); they are followed by the rest `post` of the program, of which no call
of `fgets` returns the bare text `function`, or by an unterminated last line that begins with
a tab and is deleted with the others. -/
theorem tab_lines_before_first_header_inert (line0 : List Char) (pre : List (List Char))
    (hpre : ∀ l ∈ pre, (∀ c ∈ l, c ≠ '\n') ∧ (l ++ ['\n']).length < MAX_LINE_LEN
      ∧ ¬ "function".toList <+: l) :
    (∀ post : List Char, "function".toList ∉ fileChunks post →
      translate line0 ((pre.map (fun l => l ++ ['\n'])).flatten ++ post)
        = translate line0
          (((pre.filter (fun l => l.head? ≠ some '\t')).map (fun l => l ++ ['\n'])).flatten
            ++ post))
    ∧ ∀ last : List Char, last.head? = some '\t' → (∀ c ∈ last, c ≠ '\n') →
      last.length < MAX_LINE_LEN →
      translate line0 ((pre.map (fun l => l ++ ['\n'])).flatten ++ last)
        = translate line0
          ((pre.filter (fun l => l.head? ≠ some '\t')).map (fun l => l ++ ['\n'])).flatten := by
  have hline : ∀ x ∈ pre.map (fun l => l ++ ['\n']),
      x ≠ "function".toList ∧ isHeaderLine x = false := by
    intro x hx
    obtain ⟨l, hl, rfl⟩ := List.mem_map.1 hx
    refine ⟨?_, not_header_of_line (hpre l hl).2.2⟩
    intro e
    have := congrArg List.getLast? e
    simp at this
  have hfit : ∀ l ∈ pre.filter (fun l => l.head? ≠ some '\t'),
      (∀ c ∈ l, c ≠ '\n') ∧ (l ++ ['\n']).length < MAX_LINE_LEN :=
    fun l hl => ⟨(hpre l (List.mem_of_mem_filter hl)).1,
      (hpre l (List.mem_of_mem_filter hl)).2.1⟩
  constructor
  · intro post hbare
    apply tab_chunks_inert line0 _ _ (pre.map (fun l => l ++ ['\n'])) (fileChunks post)
    · exact fileChunks_lines pre post (fun l hl => ⟨(hpre l hl).1, (hpre l hl).2.1⟩)
    · rw [fileChunks_lines _ post hfit, filter_map_lines]
    · exact hline
    · exact fun chunk hm e => hbare (e ▸ hm)
  · intro last hlast hnl hlen
    obtain ⟨rest, rfl⟩ : ∃ rest, last = '\t' :: rest := by
      cases last with
      | nil => cases hlast
      | cons c r =>
        simp only [List.head?_cons, Option.some.injEq] at hlast
        exact ⟨r, by rw [hlast]⟩
    apply tab_chunks_inert line0 _ _ (pre.map (fun l => l ++ ['\n']) ++ ['\t' :: rest]) []
    · rw [List.append_nil]
      have h := fileChunks_program pre ('\t' :: rest)
        (fun l hl => ⟨(hpre l hl).1, (hpre l hl).2.1⟩) ⟨hnl, hlen⟩
      rw [if_neg (by simp)] at h
      exact h
    · have h := fileChunks_program (pre.filter (fun l => l.head? ≠ some '\t')) [] hfit
        ⟨by simp, by simp⟩
      rw [List.append_nil] at h
      rw [h, filter_map_lines, List.filter_append]
      simp
    · intro x hx
      rcases List.mem_append.1 hx with h | h
      · exact hline x h
      · have hx1 : x = '\t' :: rest := by simpa using h
        subst hx1
        refine ⟨fun e => (by cases e), ?_⟩
        unfold isHeaderLine
        simp only [decide_eq_false_iff_not]
        intro hp
        have hp1 : "function".toList <+: '\t' :: rest := hp.trans (List.takeWhile_prefix _)
        obtain ⟨z, hz⟩ := hp1
        have := congrArg List.head? hz
        simp at this
    · intro chunk hm
      cases hm

/-- C19, witness: two tab-indented lines, one with an invalid identifier, before the first
function header; and a program without function whose last line, unterminated, is
tab-indented. -/
theorem tab_lines_before_first_header_inert_witness :
    translate [] ((["x <- 1".toList, "\tBad <- 2".toList, "\tprint 5 - 3 < 4".toList].map
        (fun l => l ++ ['\n'])).flatten ++ "function f a\n\treturn a + x\nprint f(2)\n".toList)
      = translate []
        ((([ "x <- 1".toList, "\tBad <- 2".toList, "\tprint 5 - 3 < 4".toList].filter
          (fun l => l.head? ≠ some '\t')).map (fun l => l ++ ['\n'])).flatten
          ++ "function f a\n\treturn a + x\nprint f(2)\n".toList)
      ∧ translate [] ((["x <- 1".toList, "\tBad <- 2".toList].map
          (fun l => l ++ ['\n'])).flatten ++ "\tprint x".toList)
        = translate []
          ((["x <- 1".toList, "\tBad <- 2".toList].filter
            (fun l => l.head? ≠ some '\t')).map (fun l => l ++ ['\n'])).flatten :=
  ⟨(tab_lines_before_first_header_inert []
      ["x <- 1".toList, "\tBad <- 2".toList, "\tprint 5 - 3 < 4".toList] (by decide)).1
      "function f a\n\treturn a + x\nprint f(2)\n".toList (by decide),
    (tab_lines_before_first_header_inert [] ["x <- 1".toList, "\tBad <- 2".toList]
      (by decide)).2 "\tprint x".toList rfl (by decide) (by decide)⟩

/-! ## What the second pass writes for a line: pieces of the line -/

/-- The loop over the parameters writes the parameter list; the parameters are pieces of the
line. -/
theorem paramLoop_pieces {chunk : List Char} : ∀ (fuel : Nat) (st : State) (buf : List Char)
    (tok : Option Nat) (save : Nat) (first : Bool) (st1 : State),
    Cut chunk buf → (∀ q, tok = some q → q ≤ chunk.length) → save ≤ chunk.length →
    paramLoop fuel st buf tok save first = .ok st1 →
    st1.in_function = st.in_function
      ∧ ∃ ps : List (List Char), (∀ p ∈ ps, p <:+: chunk)
        ∧ st1.c_file = st.c_file ++ (if first then paramList ps
          else (ps.map (fun q => ", ".toList ++ ("double ".toList ++ q ++ " ".toList))).flatten)
  | fuel, st, buf, none, save, first, st1, _, _, _, h => by
    rw [paramLoop_none] at h
    cases h
    refine ⟨rfl, [], by simp, ?_⟩
    cases first <;> simp [paramList]
  | 0, st, buf, some p, save, first, st1, _, _, _, h => by
    simp only [paramLoop] at h
    cases h
  | fuel + 1, st, buf, some p, save, first, st1, hcut, htok, hsave, h => by
    simp only [paramLoop] at h
    split at h
    · cases h
    · obtain ⟨_, _, _, b4, b5⟩ := strtok_bufEq (cut_bufEq hcut) hsave [' ']
      obtain ⟨h1, ps, hps, h2⟩ := paramLoop_pieces fuel _ _ _ _ _ _
        (cut_strtok save [' '] hcut) b4 b5 h
      have hp := (cstr_cut hcut (htok p rfl)).2
      refine ⟨h1.trans ?_, cstr buf p :: ps, ?_, ?_⟩
      · cases first <;> rfl
      · intro x hx
        rcases List.mem_cons.1 hx with e | e
        · rw [e]; exact hp
        · exact hps x e
      · rw [h2]
        cases first
        · simp only [State.fprintf, Bool.false_eq_true, if_false, List.append_assoc,
            List.map_cons, List.flatten_cons]
        · simp only [State.fprintf, if_true, Bool.false_eq_true, if_false, List.append_assoc,
            paramList]

/-- What a successful header step writes: the close of the function that was open, if any,
then the signature up to the opening brace; the name and the parameters are pieces of the
line; the flag `in_function` is set. -/
theorem headerLine_pieces {chunk buf : List Char} {st st1 : State} (hcut : Cut chunk buf)
    (h9 : 9 ≤ chunk.length) (h : headerLine st buf = .ok st1) :
    st1.in_function = true
      ∧ ∃ (name : List Char) (ps : List (List Char)),
        name <:+: chunk ∧ (∀ p ∈ ps, p <:+: chunk)
          ∧ st1.c_file = st.c_file ++ (if st.in_function then closeText else [])
            ++ ("double ".toList ++ name ++ "(".toList ++ paramList ps ++ ") \x7b\n".toList) := by
  obtain ⟨_, _, c1, c2, c3⟩ := strtok_bufEq (cut_bufEq hcut) h9 [' ']
  have k1 := cut_strtok 9 [' '] hcut
  obtain ⟨_, _, d1, d2, d3⟩ := strtok_bufEq (cut_bufEq k1) c3 ['\n']
  have k2 := cut_strtok (strtok buf 9 [' ']).save ['\n'] k1
  unfold headerLine at h
  simp only [] at h
  generalize MAX_LINE_LEN = fuel at h
  split at h
  · cases h
  · rename_i name hname
    have hk3 : Cut chunk (match (strtok (strtok buf 9 [' ']).buf (strtok buf 9 [' ']).save
          ['\n']).tok with
        | some params => strtok (strtok (strtok buf 9 [' ']).buf (strtok buf 9 [' ']).save
            ['\n']).buf params [' ']
        | none => strtok (strtok (strtok buf 9 [' ']).buf (strtok buf 9 [' ']).save
            ['\n']).buf (strtok (strtok buf 9 [' ']).buf (strtok buf 9 [' ']).save
            ['\n']).save [' ']).buf
        ∧ (∀ q, (match (strtok (strtok buf 9 [' ']).buf (strtok buf 9 [' ']).save
          ['\n']).tok with
        | some params => strtok (strtok (strtok buf 9 [' ']).buf (strtok buf 9 [' ']).save
            ['\n']).buf params [' ']
        | none => strtok (strtok (strtok buf 9 [' ']).buf (strtok buf 9 [' ']).save
            ['\n']).buf (strtok (strtok buf 9 [' ']).buf (strtok buf 9 [' ']).save
            ['\n']).save [' ']).tok = some q → q ≤ chunk.length)
        ∧ (match (strtok (strtok buf 9 [' ']).buf (strtok buf 9 [' ']).save
          ['\n']).tok with
        | some params => strtok (strtok (strtok buf 9 [' ']).buf (strtok buf 9 [' ']).save
            ['\n']).buf params [' ']
        | none => strtok (strtok (strtok buf 9 [' ']).buf (strtok buf 9 [' ']).save
            ['\n']).buf (strtok (strtok buf 9 [' ']).buf (strtok buf 9 [' ']).save
            ['\n']).save [' ']).save ≤ chunk.length := by
      split
      · rename_i params hparams
        obtain ⟨_, _, _, e2, e3⟩ := strtok_bufEq (cut_bufEq k2) (d2 params hparams) [' ']
        exact ⟨cut_strtok _ _ k2, e2, e3⟩
      · obtain ⟨_, _, _, e2, e3⟩ := strtok_bufEq (cut_bufEq k2) d3 [' ']
        exact ⟨cut_strtok _ _ k2, e2, e3⟩
    obtain ⟨k3, e2, e3⟩ := hk3
    split at h
    · cases h
    · rename_i st3 hpl
      cases h
      obtain ⟨_, ps, hps, ho⟩ := paramLoop_pieces _ _ _ _ _ _ _ k3 e2 e3 hpl
      have hn := (cstr_cut k2 (c2 name hname)).2
      refine ⟨rfl, _, ps, hn, hps, ?_⟩
      simp only [State.fprintf, ho, if_true]
      cases st.in_function
      · simp only [Bool.false_eq_true, if_false, List.append_assoc, List.nil_append]
      · simp only [if_true, State.fprintf, List.append_assoc]

/-- A successful step on a body line appends one statement, whose texts are pieces of the
line. -/
theorem bodyLine_pieces {chunk buf : List Char} {st st1 : State} {p : Nat}
    (hcut : Cut chunk buf) (hp : p ≤ chunk.length) (h : bodyLine st buf p = .ok st1) :
    st1.in_function = st.in_function
      ∧ ∃ o, st1.c_file = st.c_file ++ o ∧ isBodyStatement chunk o := by
  unfold bodyLine at h
  split at h
  · unfold printStmt at h
    split at h
    · cases h
    · rename_i buf2 e hbe
      cases h
      obtain ⟨k, he⟩ := cut_bodyExpr hcut hp hbe
      exact ⟨rfl, _, rfl, Or.inr (Or.inl ⟨_, (cstr_cut k he).2, Or.inl rfl⟩)⟩
  · split at h
    · unfold returnStmt at h
      split at h
      · cases h
      · rename_i buf2 e hbe
        cases h
        obtain ⟨k, he⟩ := cut_bodyExpr hcut hp hbe
        exact ⟨rfl, _, rfl, Or.inr (Or.inl ⟨_, (cstr_cut k he).2, Or.inr (Or.inl rfl)⟩)⟩
    · split at h
      · rename_i op hop
        have hop2 := strstr_bound (cut_bufEq hcut) (Nat.zero_le _) hop
        unfold localAssignment at h
        simp only [] at h
        split at h
        · cases h
        · rename_i q hq
          have hq2 := (strtok_bufEq (cut_bufEq hcut) (Nat.zero_le _) ['<', '-']).2.2.2.1 q hq
          obtain ⟨p1, p2⟩ := assignment_pieces hcut op hop2 q hq2
          split at h
          · cases h
          · cases h
            exact ⟨rfl, _, rfl, Or.inr (Or.inr ⟨_, _, p1, p2, rfl⟩)⟩
      · split at h
        · unfold callStmt at h
          simp only [] at h
          split at h
          · cases h
          · rename_i q hq
            cases h
            have hq2 := (strtok_bufEq (cut_bufEq hcut) hp ['\n']).2.2.2.1 q hq
            have k := cut_strtok p ['\n'] hcut
            exact ⟨rfl, _, rfl, Or.inr (Or.inl ⟨_, (cstr_cut k hq2).2, Or.inr (Or.inr rfl)⟩)⟩
        · cases h
          exact ⟨rfl, [], (List.append_nil _).symm, Or.inl rfl⟩

/-- What a successful step of the second pass does on a line other than the bare text
`function`.  On a header line: the function that was open is closed, the signature is
written and the flag is set.  On any other line the flag is kept, one body statement is
written, and nothing is written outside a function. -/
theorem secondPassLine_pieces {st st1 : State} {chunk : List Char}
    (hbare : chunk ≠ "function".toList) (h : secondPassLine st chunk = .ok st1) :
    if isHeaderLine chunk then
      st1.in_function = true
        ∧ ∃ (name : List Char) (ps : List (List Char)),
          name <:+: chunk ∧ (∀ p ∈ ps, p <:+: chunk)
            ∧ st1.c_file = st.c_file ++ (if st.in_function then closeText else [])
              ++ ("double ".toList ++ name ++ "(".toList ++ paramList ps ++ ") \x7b\n".toList)
    else
      st1.in_function = st.in_function
        ∧ ∃ o, st1.c_file = st.c_file ++ o ∧ (st.in_function = false → o = [])
          ∧ isBodyStatement chunk o := by
  have hcut0 := cut_stripComment st.line chunk
  have hb9 := header_bound st.line chunk hbare
  obtain ⟨t, hbuf, t1, t2, t3, t4⟩ := line_buffer st.line chunk
  rw [hbuf] at hcut0 hb9
  unfold secondPassLine at h
  simp only [hbuf] at h
  unfold isHeaderLine
  have hn : ('\n' : Char) ≠ NUL := by decide
  split at h
  · rename_i hc
    cases h
    rw [if_neg]
    · exact ⟨rfl, [], (List.append_nil _).symm, fun _ => rfl, Or.inl rfl⟩
    · rw [t1, t2 _ hn] at hc
      simp only [decide_eq_true_eq]
      rintro ⟨z, hz⟩
      rcases hc with hc | hc
      · rw [hc] at hz; cases hz
      · rw [← hz] at hc; cases hc
  · split at h
    · rename_i _ hc
      have h9 := hb9 hc
      rw [t3] at hc
      rw [if_pos (by simpa using hc)]
      have hh := headerLine_pieces hcut0 h9 h
      exact hh
    · rename_i _ hc
      rw [t3] at hc
      rw [if_neg (by simpa using hc)]
      split at h
      · rename_i hin
        have hp := (tabs_bufEq (cut_bufEq hcut0)).2
        obtain ⟨h1, o, h2, h3⟩ := bodyLine_pieces hcut0 hp h
        refine ⟨h1, o, h2, ?_, h3⟩
        intro hf
        have := hin.2
        simp only [hf] at this
        cases this
      · cases h
        exact ⟨rfl, [], (List.append_nil _).symm, fun _ => rfl, Or.inl rfl⟩

/-! ## Function bodies are opened and closed in pairs -/

theorem tab_not_header {chunk : List Char} (h : chunk.head? = some '\t') :
    chunk ≠ "function".toList ∧ isHeaderLine chunk = false := by
  cases chunk with
  | nil => cases h
  | cons c r =>
    simp only [List.head?_cons, Option.some.injEq] at h
    subst h
    refine ⟨fun e => (by cases e), ?_⟩
    unfold isHeaderLine
    simp only [decide_eq_false_iff_not]
    intro hp
    have hp1 : "function".toList <+: '\t' :: r := hp.trans (List.takeWhile_prefix _)
    obtain ⟨z, hz⟩ := hp1
    have := congrArg List.head? hz
    simp at this

/-- A successful run of the second loop on tab-indented lines inside a function: the flag is
kept and one statement is written for each line, the return statement of `E` trimmed for a
line of tabs, `return `, `E`. -/
theorem forChunks_tab_lines : ∀ (chunks : List (List Char)) (st st1 : State),
    (∀ c ∈ chunks, c.head? = some '\t') → st.in_function = true →
    forChunks secondPassLine st chunks = .ok st1 →
    st1.in_function = true
      ∧ ∃ os : List (List Char), st1.c_file = st.c_file ++ os.flatten
        ∧ List.Forall₂
          (fun line o => isBodyStatement line o
            ∧ ∀ Ts E eol : List Char, line = Ts ++ "return ".toList ++ E ++ eol → Ts ≠ [] →
              (∀ x ∈ Ts, x = '\t') → (∀ c ∈ E, c ≠ '\n') → (eol = ['\n'] ∨ eol = []) →
              o = returnText (trimmed (visible E)))
          chunks os
  | [], st, st1, _, hin, h => by
    simp only [forChunks] at h
    cases h
    exact ⟨hin, [], by simp, List.Forall₂.nil⟩
  | chunk :: rest, st, st1, htab, hin, h => by
    simp only [forChunks] at h
    cases hs : secondPassLine st chunk with
    | error e => rw [hs] at h; cases h
    | ok s2 =>
      rw [hs] at h
      obtain ⟨hb, hh⟩ := tab_not_header (htab chunk (List.mem_cons_self _ _))
      have hem := secondPassLine_pieces hb hs
      rw [hh] at hem
      simp only [Bool.false_eq_true, if_false] at hem
      obtain ⟨d1, o, d2, _, d4⟩ := hem
      obtain ⟨i1, os, i2, i3⟩ := forChunks_tab_lines rest s2 st1
        (fun c hc => htab c (List.mem_cons_of_mem _ hc)) (d1.trans hin) h
      refine ⟨i1, o :: os, ?_, List.Forall₂.cons ⟨d4, ?_⟩ i3⟩
      · rw [i2, d2]
        simp
      · intro Ts E eol e hne hTs hE heol
        obtain ⟨buf, hr⟩ := secondPassLine_body_return_chunk st Ts E eol hin hne hTs hE heol
        rw [← e, hs] at hr
        simp only [Except.ok.injEq] at hr
        rw [hr] at d2
        exact (List.append_cancel_left d2).symm

/-- The second loop succeeds on lines of tabs followed by `return ` or `print ` and a text,
inside a function. -/
theorem forChunks_statement_lines : ∀ (chunks : List (List Char)) (st : State),
    (∀ c ∈ chunks, ∃ Ts E eol : List Char, Ts ≠ [] ∧ (∀ x ∈ Ts, x = '\t')
      ∧ (∀ x ∈ E, x ≠ '\n') ∧ (eol = ['\n'] ∨ eol = [])
      ∧ (c = Ts ++ "return ".toList ++ E ++ eol ∨ c = Ts ++ "print ".toList ++ E ++ eol)) →
    st.in_function = true → ∃ st1, forChunks secondPassLine st chunks = .ok st1
  | [], st, _, _ => ⟨st, rfl⟩
  | chunk :: rest, st, hc, hin => by
    obtain ⟨Ts, E, eol, hne, hTs, hE, heol, hform⟩ := hc chunk (List.mem_cons_self _ _)
    have hstep : ∃ s2, secondPassLine st chunk = .ok s2 ∧ s2.in_function = true := by
      rcases hform with e | e
      · obtain ⟨buf, hr⟩ := secondPassLine_body_return_chunk st Ts E eol hin hne hTs hE heol
        rw [← e] at hr
        exact ⟨_, hr, hin⟩
      · obtain ⟨buf, hr⟩ := secondPassLine_body_print_chunk st Ts E eol hin hne hTs hE heol
        rw [← e] at hr
        exact ⟨_, hr, hin⟩
    obtain ⟨s2, h1, h2⟩ := hstep
    obtain ⟨st1, h3⟩ := forChunks_statement_lines rest s2
      (fun c hm => hc c (List.mem_cons_of_mem _ hm)) h2
    exact ⟨st1, by simp only [forChunks, h1, h3]⟩

set_option maxRecDepth 100000 in
/-- C4, counterexample.  The header `function f paaxxxxxxx ... pbdxxxxxxx` with thirty
parameters of ten characters is longer than the line buffer: `fgets` returns it in two
pieces and the signature written lists twenty-three parameters, the last one cut to `pa`.
The second part: the body line `Bad <- 1` stops the translation with the identifier error
(lines 302-305), and no function is returned for the header `function f a`. -/
theorem long_header_is_split :
    (secondPass ⟨[], [], [], false⟩
        ("function f".toList ++ ((List.range 30).map (fun i =>
          ' ' :: 'p' :: Char.ofNat (97 + i / 26) :: Char.ofNat (97 + i % 26)
            :: List.replicate 7 'x')).flatten ++ ['\n'])).map (fun s => s.c_file)
      = .ok ("double f(".toList
        ++ paramList ((List.range 22).map (fun i =>
            'p' :: Char.ofNat (97 + i / 26) :: Char.ofNat (97 + i % 26)
              :: List.replicate 7 'x') ++ ["pa".toList])
        ++ ") \x7b\n".toList ++ "    return 0.0;\n\x7d\n\n".toList)
      ∧ (secondPass ⟨[], [], [], false⟩ "function f a\n\tBad <- 1\n".toList).map
          (fun s => s.c_file)
        = .error (.invalidIdentifier "Bad".toList) :=
  ⟨rfl, rfl⟩

/-- C4, amended.  For a header `function N p1 ... pn` (tokens separated by single spaces, n
at least 1) followed by tab-indented body lines, all within the line buffer, and a registry
with room for the parameters: when the definitions pass succeeds it has written, after
closing a function that was still open, one function named `N` whose signature lists
`double p1 , ... , double pn` in source order, then one statement for each body line, which
for a body line of tabs, `return `, `E` is the statement returning the visible part of `E`
trimmed, then the implicit `return 0.0;` and the closing brace.  The pass succeeds when every
body line is such a return statement or a print statement, and when it fails the error is
raised by one of the body lines. -/
theorem function_definition (st : State) (N p : List Char) (ps body : List (List Char))
    (tail : List Char)
    (hq : ∀ q ∈ N :: p :: ps, q ≠ [] ∧ ∀ c ∈ q, c ≠ ' ' ∧ c ≠ NUL ∧ c ≠ '\n' ∧ c ≠ '#')
    (hlen : ("function".toList ++ ((N :: p :: ps).map (fun q => ' ' :: q)).flatten
      ++ ['\n']).length < MAX_LINE_LEN)
    (hcap : st.identifiers.length + ps.length + 1 ≤ MAX_IDENTIFIERS)
    (hbody : ∀ l ∈ body, l.head? = some '\t' ∧ (∀ c ∈ l, c ≠ '\n')
      ∧ (l ++ ['\n']).length < MAX_LINE_LEN)
    (htail : (tail = [] ∨ tail.head? = some '\t') ∧ (∀ c ∈ tail, c ≠ '\n')
      ∧ tail.length < MAX_LINE_LEN) :
    (∀ st1 : State,
      secondPass st
          ("function".toList ++ ((N :: p :: ps).map (fun q => ' ' :: q)).flatten ++ ['\n']
            ++ ((body.map (fun l => l ++ ['\n'])).flatten ++ tail)) = .ok st1 →
      ∃ os : List (List Char),
        st1.c_file = st.c_file ++ (if st.in_function then closeText else [])
            ++ ("double ".toList ++ N ++ "(".toList ++ paramList (p :: ps)
              ++ ") \x7b\n".toList)
            ++ os.flatten ++ "    return 0.0;\n\x7d\n\n".toList
          ∧ List.Forall₂
            (fun line o => isBodyStatement line o
              ∧ ∀ Ts E eol : List Char, line = Ts ++ "return ".toList ++ E ++ eol → Ts ≠ [] →
                (∀ x ∈ Ts, x = '\t') → (∀ c ∈ E, c ≠ '\n') → (eol = ['\n'] ∨ eol = []) →
                o = returnText (trimmed (visible E)))
            (body.map (fun l => l ++ ['\n']) ++ (if tail = [] then [] else [tail])) os)
      ∧ ((∀ l ∈ body ++ (if tail = [] then [] else [tail]),
          ∃ Ts E : List Char, Ts ≠ [] ∧ (∀ x ∈ Ts, x = '\t')
            ∧ (l = Ts ++ "return ".toList ++ E ∨ l = Ts ++ "print ".toList ++ E)) →
        ∃ st1 : State,
          secondPass st
            ("function".toList ++ ((N :: p :: ps).map (fun q => ' ' :: q)).flatten ++ ['\n']
              ++ ((body.map (fun l => l ++ ['\n'])).flatten ++ tail)) = .ok st1)
      ∧ ∀ e : Failure,
        secondPass st
            ("function".toList ++ ((N :: p :: ps).map (fun q => ' ' :: q)).flatten ++ ['\n']
              ++ ((body.map (fun l => l ++ ['\n'])).flatten ++ tail)) = .error e →
        ∃ l ∈ body.map (fun l => l ++ ['\n']) ++ (if tail = [] then [] else [tail]),
          ∃ s : State, secondPassLine s l = .error e := by
  have hhnl : ∀ c ∈ "function".toList ++ ((N :: p :: ps).map (fun q => ' ' :: q)).flatten,
      c ≠ '\n' := by
    intro c hc
    rcases List.mem_append.1 hc with h | h
    · have hd : ∀ y ∈ "function".toList, y ≠ '\n' := by decide
      exact hd c h
    · obtain ⟨l, hl, hcl⟩ := List.mem_flatten.1 h
      obtain ⟨q, hqm, rfl⟩ := List.mem_map.1 hl
      rcases List.mem_cons.1 hcl with h1 | h1
      · rw [h1]; decide
      · exact ((hq q hqm).2 c h1).2.2.1
  have hlen1 : ("function".toList ++ ((N :: p :: ps).map (fun q => ' ' :: q)).flatten
      ++ ['\n']).length < 256 := hlen
  have hchunks : fileChunks
      ("function".toList ++ ((N :: p :: ps).map (fun q => ' ' :: q)).flatten ++ ['\n']
        ++ ((body.map (fun l => l ++ ['\n'])).flatten ++ tail))
      = ("function".toList ++ ((N :: p :: ps).map (fun q => ' ' :: q)).flatten ++ ['\n'])
        :: (body.map (fun l => l ++ ['\n']) ++ (if tail = [] then [] else [tail])) := by
    rw [List.append_assoc _ ['\n'], List.singleton_append,
      fileChunks_cons_line _ hhnl (by simp at hlen1 ⊢; omega),
      fileChunks_program body tail (fun l hl => (hbody l hl).2) htail.2]
  have htabs : ∀ c ∈ body.map (fun l => l ++ ['\n']) ++ (if tail = [] then [] else [tail]),
      c.head? = some '\t' := by
    intro c hc
    rcases List.mem_append.1 hc with h | h
    · obtain ⟨l, hl, rfl⟩ := List.mem_map.1 h
      have := (hbody l hl).1
      cases l with
      | nil => cases this
      | cons x r => simpa using this
    · by_cases ht : tail = []
      · rw [if_pos ht] at h
        cases h
      · rw [if_neg ht] at h
        rw [List.mem_singleton.1 h]
        rcases htail.1 with h0 | h0
        · exact absurd h0 ht
        · exact h0
  obtain ⟨s1, h1, h2, h3⟩ := secondPassLine_header st N p ps hq hcap
  have hsig : s1.c_file = st.c_file ++ (if st.in_function then closeText else [])
      ++ ("double ".toList ++ N ++ "(".toList ++ paramList (p :: ps) ++ ") \x7b\n".toList) := by
    rw [h2]
    simp only [paramList, List.append_assoc]
  have hok : ∀ s2 : State, forChunks secondPassLine s1
      (body.map (fun l => l ++ ['\n']) ++ (if tail = [] then [] else [tail])) = .ok s2 →
      secondPass st
        ("function".toList ++ ((N :: p :: ps).map (fun q => ' ' :: q)).flatten ++ ['\n']
          ++ ((body.map (fun l => l ++ ['\n'])).flatten ++ tail))
        = .ok (if s2.in_function then s2.fprintf closeText else s2) := by
    intro s2 hf
    unfold secondPass
    rw [hchunks]
    simp only [forChunks, h1, hf]
  have herr : ∀ e : Failure, forChunks secondPassLine s1
      (body.map (fun l => l ++ ['\n']) ++ (if tail = [] then [] else [tail])) = .error e →
      secondPass st
        ("function".toList ++ ((N :: p :: ps).map (fun q => ' ' :: q)).flatten ++ ['\n']
          ++ ((body.map (fun l => l ++ ['\n'])).flatten ++ tail))
        = .error e := by
    intro e hf
    unfold secondPass
    rw [hchunks]
    simp only [forChunks, h1, hf]
  refine ⟨?_, ?_, ?_⟩
  · intro st1 h
    cases hf : forChunks secondPassLine s1
        (body.map (fun l => l ++ ['\n']) ++ (if tail = [] then [] else [tail])) with
    | error e => rw [herr e hf] at h; cases h
    | ok s2 =>
      rw [hok s2 hf] at h
      obtain ⟨i1, os, i2, i3⟩ := forChunks_tab_lines _ _ _ htabs h3 hf
      simp only [i1, if_true, Except.ok.injEq] at h
      refine ⟨os, ?_, i3⟩
      rw [← h]
      simp only [State.fprintf, i2, hsig]
      rfl
  · intro hall
    obtain ⟨s2, hf⟩ := forChunks_statement_lines
      (body.map (fun l => l ++ ['\n']) ++ (if tail = [] then [] else [tail])) s1
      (by
        intro c hc
        rcases List.mem_append.1 hc with h | h
        · obtain ⟨l, hl, rfl⟩ := List.mem_map.1 h
          obtain ⟨Ts, E, a1, a2, a3⟩ := hall l (List.mem_append_left _ hl)
          have hE : ∀ x ∈ E, x ≠ '\n' := by
            intro x hx
            apply (hbody l hl).2.1
            rcases a3 with e | e <;> rw [e] <;> simp [hx]
          refine ⟨Ts, E, ['\n'], a1, a2, hE, Or.inl rfl, ?_⟩
          rcases a3 with e | e
          · left; rw [e]
          · right; rw [e]
        · obtain ⟨Ts, E, a1, a2, a3⟩ := hall c (List.mem_append_right _ h)
          have hct : c = tail := by
            by_cases ht : tail = []
            · rw [if_pos ht] at h
              cases h
            · rw [if_neg ht] at h
              exact List.mem_singleton.1 h
          have hE : ∀ x ∈ E, x ≠ '\n' := by
            intro x hx
            apply htail.2.1
            rw [← hct]
            rcases a3 with e | e <;> rw [e] <;> simp [hx]
          refine ⟨Ts, E, [], a1, a2, hE, Or.inr rfl, ?_⟩
          rcases a3 with e | e
          · left; rw [e, List.append_nil]
          · right; rw [e, List.append_nil]) h3
    exact ⟨_, hok s2 hf⟩
  · intro e h
    cases hf : forChunks secondPassLine s1
        (body.map (fun l => l ++ ['\n']) ++ (if tail = [] then [] else [tail])) with
    | error e1 =>
      rw [herr e1 hf] at h
      simp only [Except.error.injEq] at h
      subst h
      exact forChunks_error_at secondPassLine _ _ _ hf
    | ok s2 => rw [hok s2 hf] at h; cases h

/-- C4, witness: `function add a b` with the body `return a + b`. -/
theorem function_definition_witness :
    ∃ st1, secondPass ⟨["add".toList], preamble ++ "\n".toList, [], false⟩
        "function add a b\n\treturn a + b\n".toList = .ok st1
      ∧ st1.c_file = preamble ++ "\n".toList
          ++ "double add(double a , double b ) \x7b\n".toList
          ++ "    double t_value = a + b;\n".toList
          ++ "    return (t_value == (int)t_value) ? (int)t_value : t_value;\n".toList
          ++ "    return 0.0;\n\x7d\n\n".toList := by
  have H := function_definition ⟨["add".toList], preamble ++ "\n".toList, [], false⟩
    "add".toList "a".toList ["b".toList] ["\treturn a + b".toList] []
    (by decide) (by decide) (by decide) (by decide) (by decide)
  obtain ⟨st1, h1⟩ := H.2.1 (by
    intro l hl
    have hl1 : l = "\treturn a + b".toList := by simpa using hl
    exact ⟨['\t'], "a + b".toList, by decide, by decide, Or.inl hl1⟩)
  obtain ⟨os, h2, h3⟩ := H.1 st1 h1
  refine ⟨st1, h1, ?_⟩
  cases h3 with
  | cons hr hrest =>
    cases hrest
    have ho := hr.2 ['\t'] "a + b".toList ['\n'] rfl (by decide) (by decide) (by decide)
      (Or.inl rfl)
    rw [h2, ho]
    rfl

end RunML
